import Mathlib

/-!
# Kalah(6,3) with empty capture: board model, search engine, and their properties

A shallow embedding of `solve.c` (board operations, position hash, transposition
table, negamax search, iterative deepening), of the session function `move` of `wasm.c`
and of the enumerations of `count.c`.

Conventions of the embedding
* `Board` is the flat 14-slot `ring` view of the C union: slots `0..5` are `pit`,
  slot `6` is `store`, slots `7..12` are `opp_pit`, slot `13` is `opp_store`.
  Slot values are `uint8_t`; every store into a slot that can overflow is written
  with an explicit `% 256`.
* `int` quantities (scores, windows) are `Int`; `int8_t` fields of a table entry
  are `Int` narrowed by `wrap8` when the entry is written.
* The global table `tt` is passed and returned explicitly.
-/

namespace Mancala

/-! ## Board model -/

abbrev PITS : Nat := 6
abbrev HALF : Nat := PITS + 1
abbrev FULL : Nat := HALF * 2

/-- The board as its flat ring of `FULL` slots (`uint8_t ring[FULL]`). -/
structure Board where
  ring : Nat → Nat

namespace Board

/-- Field `pit[i]` is ring slot `i`. -/
@[reducible] def pit (b : Board) (i : Nat) : Nat := b.ring i
/-- Field `store` is ring slot `PITS`. -/
@[reducible] def store (b : Board) : Nat := b.ring PITS
/-- Field `opp_pit[i]` is ring slot `HALF + i`. -/
@[reducible] def opp_pit (b : Board) (i : Nat) : Nat := b.ring (HALF + i)
/-- Field `opp_store` is ring slot `HALF + PITS`. -/
@[reducible] def opp_store (b : Board) : Nat := b.ring (HALF + PITS)

/-- Assignment `ring[i] = v`. -/
def set (b : Board) (i v : Nat) : Board := ⟨fun j => if j = i then v else b.ring j⟩

/-- A board given by the list of its ring slots (missing slots are zero). -/
def ofList (l : List Nat) : Board := ⟨fun i => l.getD i 0⟩

/-- The 14 ring slots as a list. -/
def toList (b : Board) : List Nat := (List.range FULL).map b.ring

/-- Every slot holds a `uint8_t` value. -/
def Valid (b : Board) : Prop := ∀ i, i < FULL → b.ring i < 256

end Board

/-- The macro `START_BOARD`: three seeds in each of the twelve pits, stores empty. -/
def START_BOARD : Board := Board.ofList [3, 3, 3, 3, 3, 3, 0, 3, 3, 3, 3, 3, 3, 0]

/-- One iteration of the loop of `flip`: exchange `ring[i]` and `ring[HALF + i]`. -/
def flipStep (b : Board) (i : Nat) : Board :=
  let tmp := b.ring i
  (b.set i (b.ring (HALF + i))).set (HALF + i) tmp

/-- Function `flip`: the loop `for (i = 0; i < HALF; i++)` over `flipStep`. -/
def flip (b : Board) : Board := (List.range HALF).foldl flipStep b

/-- Function `is_game_over`: the loop raises `cur` / `opp` when a pit of that side is
non-empty; the result is `!cur || !opp`. -/
def is_game_over (b : Board) : Bool :=
  let flags := (List.range PITS).foldl
    (fun (f : Bool × Bool) i =>
      (if b.pit i ≠ 0 then true else f.1, if b.opp_pit i ≠ 0 then true else f.2))
    (false, false)
  !flags.1 || !flags.2

/-- Function `final_score`, in `int` arithmetic. -/
def final_score (b : Board) : Int :=
  (List.range PITS).foldl
    (fun (s : Int) i => s + ((b.pit i : Int) - (b.opp_pit i : Int)))
    ((b.store : Int) - (b.opp_store : Int))

/-- The sowing loop `while (n--) { pos = (pos + 1) % (FULL - 1); board->ring[pos]++; }`
of `sow`: returns the final `pos` and the board. The increment is a `uint8_t` one. -/
def sowLoop : Nat → Nat → Board → Nat × Board
  | 0, pos, b => (pos, b)
  | n + 1, pos, b =>
    let pos1 := (pos + 1) % (FULL - 1)
    sowLoop n pos1 (b.set pos1 ((b.ring pos1 + 1) % 256))

/-- The tail of `sow` after the sowing loop: landing in the own store gives another
turn; landing in an own pit that now holds one seed captures. -/
def sowFinish (pos : Nat) (b : Board) : Board × Bool :=
  if pos = PITS then (b, true)
  else if pos < PITS ∧ b.pit pos = 1 then
    let opp := PITS - 1 - pos
    let b1 := b.set PITS ((b.store + (b.pit pos + b.opp_pit opp)) % 256)
    ((b1.set (HALF + opp) 0).set pos 0, false)
  else (b, false)

/-- Function `sow`: returns the board after the move and the "move again" flag. -/
def sow (board : Board) (pos : Nat) : Board × Bool :=
  let n := board.pit pos
  let r := sowLoop n pos (board.set pos 0)
  sowFinish r.1 r.2

/-- The sowing phase of `sow b p`: the slot on which the last seed lands and the board
at that moment (before the store / capture test). -/
def landing (b : Board) (p : Nat) : Nat × Board := sowLoop (b.pit p) p (b.set p 0)

/-- Sum of all 14 ring slots. -/
def total (b : Board) : Nat := ((List.range FULL).map b.ring).sum

/-- Sum of the six own pits. -/
def ownSum (b : Board) : Nat := ((List.range PITS).map b.pit).sum

/-- Sum of the six opponent pits. -/
def oppSum (b : Board) : Nat := ((List.range PITS).map b.opp_pit).sum

/-- Number of seeds, among `n` seeds sown after slot `pos`, that are dropped on ring slot
`i`: seed number `k` (counting from 0) goes to slot `(pos + k + 1) % (FULL - 1)`, the
slots `0..12` being the 13 slots other than the opponent's store. -/
def visits (n pos i : Nat) : Nat :=
  (List.range n).countP (fun k => decide ((pos + k + 1) % (FULL - 1) = i))

/-- The board handed to the recursion after playing pit `p`: the sown board, flipped when
the move does not grant another turn (`if (!again) flip(&after)`). -/
def child (b : Board) (p : Nat) : Board :=
  let r := sow b p
  if r.2 then r.1 else flip r.1

/-- A complete game from `b`: a list of legal moves (each a non-empty own pit of the
side to move) played one after the other and ending in a game-over board. -/
def CompleteGame : Board → List Nat → Prop
  | b, [] => is_game_over b = true
  | b, p :: ms => is_game_over b = false ∧ p < PITS ∧ b.pit p ≠ 0 ∧ CompleteGame (child b p) ms

/-- Maximum of `g p` over the non-empty own pits `p` of `b` (0 when there is none). -/
def maxOverMoves (g : Nat → Nat) (b : Board) : Nat :=
  (List.range PITS).foldl (fun m p => if b.pit p ≠ 0 then max m (g p) else m) 0

/-- Length of the longest game playable from `b`, explored with a recursion budget. -/
def heightFuel : Nat → Board → Nat
  | 0, _ => 0
  | f + 1, b =>
    if is_game_over b then 0 else maxOverMoves (fun p => heightFuel f (child b p) + 1) b

/-- Seeds remaining in the twelve pits. -/
def pitSum (b : Board) : Nat := ownSum b + oppSum b

/-- Total distance of the pit seeds to the end of their row. -/
def dist (b : Board) : Nat :=
  ((List.range PITS).map (fun i => (PITS - 1 - i) * (b.pit i + b.opp_pit i))).sum

/-- A number that strictly decreases with every move (see `rank_child`). -/
def rank (b : Board) : Nat := 3 * pitSum b * pitSum b + 3 * pitSum b + dist b

/-- Length of the longest game playable from `b`. -/
def height (b : Board) : Nat := heightFuel (rank b + 1) b

/-! ## Position hash, transposition table and search -/

abbrev TT_SIZE : Nat := 1 <<< 22

/-- The bound kinds `enum { EXACT, LOWER, UPPER }`. -/
abbrev EXACT : Int := 0
abbrev LOWER : Int := 1
abbrev UPPER : Int := 2

/-- The struct `TTEntry`; `score`, `depth`, `move`, `bound` are `int8_t` fields. -/
structure TTEntry where
  key : Nat
  score : Int
  depth : Int
  move : Int
  bound : Int
  solved : Bool

/-- The global table `tt`, indexed by slot. -/
abbrev TT := Nat → TTEntry

/-- A cleared table: every slot is the all-zero entry `(TTEntry){0}`. -/
def tt_clear : TT := fun _ => ⟨0, 0, 0, 0, 0, false⟩

/-- Narrowing of an `int` to `int8_t` (two's complement). -/
def wrap8 (x : Int) : Int := (x + 128) % 256 - 128

/-- Function `hash_board`, in `uint64_t` arithmetic. -/
def hash_board (b : Board) : Nat :=
  (List.range PITS).foldl
    (fun h i =>
      let h1 := ((h ^^^ b.pit i) * 0x31d8b11cbabad6e3) % 2 ^ 64
      ((h1 ^^^ b.opp_pit i) * 0x31d8b11cbabad6e3) % 2 ^ 64)
    0x281dcf94d307a6b0

/-- The struct `Result`. -/
structure Result where
  move : Int
  score : Int
  solved : Bool

/-- The variables that the move loop of `search` updates. -/
structure LoopState where
  alpha : Int
  best_score : Int
  best_move : Int
  solved : Bool
  tt : TT

/-- One move tried by the loop of `search`: sow pit `pit` on a copy of the board, then
search the result for the same player (another turn) or, flipped and with the negated
window, for the opponent, negating the returned score. -/
def searchMove (rec : Board → Int → Int → TT → Result × TT) (board : Board) (pit : Nat)
    (alpha beta : Int) (tt : TT) : Result × TT :=
  let after := sow board pit
  if after.2 then rec after.1 alpha beta tt
  else
    let r := rec (flip after.1) (-beta) (-alpha) tt
    ({ r.1 with score := r.1.score * -1 }, r.2)

/-- The bookkeeping at the end of one iteration of the loop of `search`. -/
def loopUpdate (s : LoopState) (pit : Int) (r : Result × TT) : LoopState :=
  let solved := if r.1.solved then s.solved else false
  if r.1.score > s.best_score then
    { alpha := if r.1.score > s.alpha then r.1.score else s.alpha,
      best_score := r.1.score, best_move := pit, solved := solved, tt := r.2 }
  else { s with solved := solved, tt := r.2 }

/-- The loop `for (int i = -1; i < PITS && alpha < beta; i++)` of `search`, over the list
of the remaining values of `i`; `rec` is `search` at `depth - 1`. -/
def searchLoop (rec : Board → Int → Int → TT → Result × TT) (board : Board)
    (hint beta : Int) : List Int → LoopState → LoopState
  | [], s => s
  | i :: rest, s =>
    if ¬ (s.alpha < beta) then s
    else
      let pit : Int := if i < 0 then hint else (PITS : Int) - 1 - i
      if pit < 0 ∨ board.pit pit.toNat = 0 then searchLoop rec board hint beta rest s
      else if 0 ≤ i ∧ pit = hint then searchLoop rec board hint beta rest s
      else
        searchLoop rec board hint beta rest
          (loopUpdate s pit (searchMove rec board pit.toNat s.alpha beta s.tt))

/-- The tail of `search` after the move loop: the replacement test on the table slot
(`entry` is read again, after the recursive calls), the write, and the result. -/
def searchFinish (depth : Int) (hash idx : Nat) (hit : Bool) (score_diff orig_alpha beta : Int)
    (s : LoopState) : Result × TT :=
  let entry := s.tt idx
  if s.solved = true ∨ ((hit = false ∨ depth ≥ entry.depth) ∧ entry.solved = false) then
    let bound : Int :=
      if s.best_score ≤ orig_alpha then UPPER else if s.best_score ≥ beta then LOWER else EXACT
    (⟨s.best_move, s.best_score, s.solved⟩,
      fun j => if j = idx then
        ⟨hash, wrap8 (s.best_score - score_diff), wrap8 depth, wrap8 s.best_move, bound,
          s.solved⟩
      else s.tt j)
  else (⟨s.best_move, s.best_score, s.solved⟩, s.tt)

/-- The body of `search`; `rec` is `search` at `depth - 1` (used only when `depth > 0`).
The counter `nodes_searched` is write-only and left out. -/
def searchBody (rec : Board → Int → Int → TT → Result × TT) (depth : Int) (board : Board)
    (alpha beta : Int) (tt : TT) : Result × TT :=
  if is_game_over board then (⟨-1, final_score board, true⟩, tt)
  else
    let hash := hash_board board
    let idx := (hash >>> 40) &&& (TT_SIZE - 1)
    let entry := tt idx
    let hit : Bool := decide (entry.key = hash)
    let hint : Int := if hit then entry.move else -1
    let score_diff : Int := (board.store : Int) - (board.opp_store : Int)
    let v := entry.score + score_diff
    if hit = true ∧ (entry.solved = true ∨ entry.depth ≥ depth) ∧
        (entry.bound = EXACT ∨ (entry.bound = LOWER ∧ v ≥ beta) ∨
          (entry.bound = UPPER ∧ v ≤ alpha)) then
      (⟨hint, v, entry.solved⟩, tt)
    else if depth ≤ 0 then (⟨-1, score_diff, false⟩, tt)
    else
      searchFinish depth hash idx hit score_diff alpha beta
        (searchLoop rec board hint beta [-1, 0, 1, 2, 3, 4, 5] ⟨alpha, -100, -1, true, tt⟩)

/-- Function `search`, by recursion on `depth` (its callers pass `depth ≥ 0`); the table
is threaded through. -/
def search : Nat → Board → Int → Int → TT → Result × TT
  | 0, board, alpha, beta, tt =>
    searchBody (fun _ _ _ t => (⟨-1, 0, false⟩, t)) 0 board alpha beta tt
  | d + 1, board, alpha, beta, tt =>
    searchBody (search d) ((d : Int) + 1) board alpha beta tt

/-- The table slot `(hash >> 40) & (TT_SIZE - 1)` that `search` probes and writes for
`board`. -/
def slot (board : Board) : Nat := (hash_board board >>> 40) &&& (TT_SIZE - 1)

/-- The variables of `search` at depth `d + 1` when its move loop has ended, just before
the replacement test: the loop run over `i = -1 .. 5` from `best_score = -100`,
`best_move = -1`, `solved = true`, with the move of the probed entry as hint when its key
is the hash of the board. -/
def afterLoop (d : Nat) (board : Board) (alpha beta : Int) (tt : TT) : LoopState :=
  let hash := hash_board board
  let entry := tt (slot board)
  let hit : Bool := decide (entry.key = hash)
  let hint : Int := if hit then entry.move else -1
  searchLoop (search d) board hint beta [-1, 0, 1, 2, 3, 4, 5] ⟨alpha, -100, -1, true, tt⟩

/-- The loop `for (int d = 1;; d++)` of `search_full`, started at depth `d`, with a
budget on the number of iterations: `none` when the budget runs out. -/
def search_full_loop : Nat → Nat → Board → TT → Option (Result × TT)
  | 0, _, _, _ => none
  | fuel + 1, d, board, tt =>
    let r := search d board (-36) 36 tt
    if r.1.solved then some r else search_full_loop fuel (d + 1) board r.2

/-- Function `search_full`. -/
def search_full (fuel : Nat) (board : Board) (tt : TT) : Option (Result × TT) :=
  search_full_loop fuel 1 board tt

/-- Table invariant: every recorded move is at most 5 and every unsolved entry has a
recorded depth of at most `s`. -/
def TTInv (s : Int) (tt : TT) : Prop :=
  ∀ j, (tt j).move ≤ 5 ∧ ((tt j).solved = false → (tt j).depth ≤ s)

/-! ## Certificate for the injectivity of the hash on small boards -/

/-- Multiplier of `hash_board`. -/
abbrev HM : Int := 0x31d8b11cbabad6e3

/-- Modulus of `uint64_t` arithmetic. -/
abbrev HN : Int := 2 ^ 64

/-- Dot product of two integer vectors. -/
def dot : List Int → List Int → Int
  | a :: as, b :: bs => a * b + dot as bs
  | _, _ => 0

/-- Sum of the absolute values. -/
def l1 : List Int → Int
  | [] => 0
  | a :: as => |a| + l1 as

/-- Largest absolute value. -/
def supNorm : List Int → Int
  | [] => 0
  | a :: as => max |a| (supNorm as)

/-- The linear form `Σ s_i * HM ^ (n - i)` (`i = 0 .. n - 1`) that the hash applies to
the differences of its inputs. -/
def lin : List Int → Int
  | [] => 0
  | a :: as => a * HM ^ (as.length + 1) + lin as

/-- Test that `w i ≡ t * HM ^ (n - i)` modulo `HN` for every `i`. -/
def dualOK (t : Int) : List Int → Bool
  | [] => true
  | w :: ws => decide ((w - t * HM ^ (ws.length + 1)) % HN = 0) && dualOK t ws

/-- Bound on `|dot s w| / HN` for a vector `s` with `l1 s ≤ 72`. -/
def kappa (w : List Int) : Int := (72 * supNorm w) / HN

/-- Componentwise sum. -/
def vadd (a b : List Int) : List Int := List.zipWith (· + ·) a b

/-- Componentwise difference. -/
def vsub (a b : List Int) : List Int := List.zipWith (· - ·) a b

/-- Multiple of a vector. -/
def vsmul (c : Int) (a : List Int) : List Int := a.map (c * ·)

/-- Pruning test for the coefficient `x` of the dual vector `w`, given the coefficients
already chosen. -/
def pruneOK (x : Int) (w : List Int) (done : List (Int × List Int × List Int)) : Bool :=
  decide (|x| ≤ kappa w) &&
  done.all (fun d => decide (|d.1 + x| ≤ kappa (vadd d.2.1 w)) &&
    decide (|d.1 - x| ≤ kappa (vsub d.2.1 w)))

/-- Leaf test: all coefficients are zero, or the lattice vector they describe has
`l1` norm at least 73. -/
def leafOK (done : List (Int × List Int × List Int)) : Bool :=
  done.all (fun d => decide (d.1 = 0)) ||
  decide (73 ≤ l1 (done.foldl (fun v d => vadd v (vsmul d.1 d.2.2)) (List.replicate 12 0)))

/-- Exhaustive search over the coefficient vectors that pass the pruning tests. -/
def enumCheck : List (Int × List Int × List Int) → List (Int × List Int × List Int) → Bool
  | done, [] => leafOK done
  | done, (t, w, b) :: rest =>
    dualOK t w && decide (w.length = 12) && decide (kappa w ≤ 2) &&
    [-2, -1, 0, 1, 2].all (fun x => !pruneOK x w done || enumCheck ((x, w, b) :: done) rest)

/-- Certificate rows: a multiplier `t`, a dual vector `w` with `w i ≡ t * M ^ (12 - i)`
(mod `2 ^ 64`) and a basis vector of the lattice of hash differences. -/
def hashCert : List (Int × List Int × List Int) :=
  [(7748393525685432816,
     [(-64455004931613968), (-159061152961692592), (-231447815772900496), 203580501054204368,
       546340544583796720, (-135994259436278960), 76409591312152688, (-52849558586187568),
       112511240058135792, (-63037423644235184), (-26861957718872720), 161929411342002128],
     [5, (-7), (-14), (-1), 20, 1, 26, 14, (-4), (-7), (-6), 15]),
   (7012919030586636384,
     [(-75809377892646304), (-267603829884624352), 124183027881906016, 18353085230805280,
       489994389829121120, 7684735818729504, (-253179122296868512), 155515198415922976,
       127895556051863136, (-182915227450356192), 41327586526114656, (-377350094896366304)],
     [(-3), (-3), (-12), (-16), 4, (-3), (-21), (-18), 8, (-20), (-3), (-27)]),
   (5990199840486945870,
     [(-82787805669918610), 185692907710931770, 387844378346289918, 154692156241955690,
       606577515905759502, 142051814267019802, (-267144159802468706), 160083574630003530,
       89662550155679662, (-161067474872505606), 224679938015338558, 20569087845684522],
     [(-31), 7, 16, (-8), 8, 10, 3, 8, 0, 8, 17, 16]),
   (13675439824020194179,
     [98953802404979155, 9201245056781393, 74269180347122235, 453891180140048073,
       389883093176395619, 112496769154307457, (-231937016884761781), 139718508545662585,
       (-22119603043100685), (-93149887118215247), 225320532154361691, (-144077355601273047)],
     [(-6), (-1), (-5), 42, (-12), 2, (-4), 1, (-2), 7, 11, (-13)]),
   (12003137148548450331,
     [(-58978721040543509), 132625570264691801, 42145072402296979, (-7358884858986863),
       (-81871402477593861), 247313134795591433, (-27180761146951133), 85722987588613057,
       (-412708449636063221), (-157466586221163847), (-196527956663669069), (-81975335860616719)],
     [(-20), 16, (-23), (-7), 7, 24, 6, 5, (-19), (-7), (-3), (-11)]),
   (6459039281520463695,
     [251931441916127967, 254349808572932309, 297244416971013863, 55885849907868461,
       285765191483939503, (-81232406073611579), (-8428207322709961), 91216568411282845,
       (-265765014364282497), (-186624183034089035), 241319249549156487, (-191692312962769651)],
     [14, 9, 1, (-10), 9, (-27), 12, 23, (-18), 8, 7, (-6)]),
   (12511520391839696340,
     [225928716598025876, 13406033682962268, 265747593682374132, 50898843958143100,
       67107723403289172, 303384596447285404, (-165061984430345292), 379618859996583868,
       45631518930524692, (-292175881602873892), 51519654794210676, (-99107657847135492)],
     [20, 1, 7, 7, (-4), 15, 23, 11, 25, (-23), (-16), 0]),
   (13795129830768470697,
     [(-62052740271623271), 59539098179131475, (-170201411943906351), (-117098241752087365),
       (-218415492926379447), (-109088974204709405), 354566761743529217, (-241198603625224757),
       152928780057297401, 110565981813014131, 176672929716649777, (-46114838065391141)],
     [(-10), 11, (-17), (-6), 0, 26, 21, (-17), 13, (-19), 24, (-16)]),
   (8265620427583389632,
     [(-163255672172960832), 30927845517482304, (-152733435327822400), (-62570397889966272),
       (-56153053472467008), (-113873961465014976), 131021811455384000, 24120912981502784,
       272261574829427648, 287252763690307904, (-171640757901414976), (-107027930927839424)],
     [0, 20, 1, 7, 7, (-4), 15, 23, 11, 25, (-23), (-16)]),
   (14580041869840000419,
     [(-256286473010146829), (-203878937771919951), (-119973855656226469),
       (-126394307736130263), (-396211010847236733), (-176106354095439647), 178210418970808427,
       100371574581513945, 41179750739538963, (-24118005071821551), (-82737622993649029),
       (-26041841541635703)],
     [(-26), (-10), 20, 22, (-15), (-25), 15, 17, (-2), (-16), 0, 4]),
   (17834275873959338028,
     [(-18037518770133140), (-360096511377773916), (-44511315923318772), (-156606746987525756),
       (-168674439270235220), 133554440952680804, 32034934944596556, 205228689755093572,
       24160495360814060, 140377461302524964, 57436931831801996, (-150168198322319612)],
     [0, (-19), (-2), (-15), 10, 15, 11, 21, (-19), 32, 21, 7]),
   (8022867574145435861,
     [(-29863581387425531), 38893052065451255, (-271886171815626275), (-75584890524645313),
       (-207772794510267403), (-63890932654599865), (-120040750112832179), 212789625033734671,
       189087972999220197, 16725756314775, 74288401969894845, 140208595658908383],
     [(-2), 17, (-34), (-19), 1, (-4), (-22), 15, (-2), (-5), 17, 2])]



/-- The rows of a certificate with the coefficients `cs` filled in, last row first. -/
def assemble : List Int → List (Int × List Int × List Int) →
    List (Int × List Int × List Int) → List (Int × List Int × List Int)
  | c :: cs, (_, w, b) :: rest, done => assemble cs rest ((c, w, b) :: done)
  | _, _, done => done



/-- The hash of `hash_board` as a fold over the list of the values it mixes in. -/
def hashList (h : Nat) : List Nat → Nat
  | [] => h
  | x :: xs => hashList (((h ^^^ x) * 0x31d8b11cbabad6e3) % 2 ^ 64) xs

/-- The integer changes `(h ^^^ x) - h` made by the successive xor steps of `hashList`. -/
def deltas (h : Nat) : List Nat → List Int
  | [] => []
  | x :: xs => (((h ^^^ x : Nat) : Int) - (h : Int)) ::
      deltas (((h ^^^ x) * 0x31d8b11cbabad6e3) % 2 ^ 64) xs

/-- The twelve pit counts in the order in which `hash_board` mixes them in. -/
def pitList (b : Board) : List Nat :=
  [b.pit 0, b.opp_pit 0, b.pit 1, b.opp_pit 1, b.pit 2, b.opp_pit 2,
   b.pit 3, b.opp_pit 3, b.pit 4, b.opp_pit 4, b.pit 5, b.opp_pit 5]

/-! ## Minimax value and the invariants of the correctness proof -/

/-- The non-empty own pits, the legal moves of the side to move. -/
def legalMoves (b : Board) : List Nat := (List.range PITS).filter (fun p => b.pit p ≠ 0)

/-- Maximum of a list of integers (0 for the empty list). -/
def maxList : List Int → Int
  | [] => 0
  | [x] => x
  | x :: y :: xs => max x (maxList (y :: xs))

/-- Full-tree minimax value by plain exhaustive recursion, with a recursion budget:
`final_score` at a game-over board, otherwise the maximum over the non-empty pits `p` of
the value of `sow b p` when the move grants another turn and of minus the value of
`flip (sow b p)` when it does not. -/
def minimaxFuel : Nat → Board → Int
  | 0, b => final_score b
  | f + 1, b =>
    if is_game_over b then final_score b
    else maxList ((legalMoves b).map (fun p =>
      if (sow b p).2 then minimaxFuel f (sow b p).1 else - minimaxFuel f (flip (sow b p).1)))

/-- Full-tree minimax value of a board, for the side to move. -/
def minimax (b : Board) : Int := minimaxFuel (rank b + 1) b

/-- Value, for the side to move, of playing pit `p`. -/
def moveValue (b : Board) (p : Nat) : Int :=
  if (sow b p).2 then minimax (sow b p).1 else - minimax (flip (sow b p).1)

/-- The store differential `board->store - board->opp_store`. -/
def diff (b : Board) : Int := (b.store : Int) - (b.opp_store : Int)

/-- Two boards with the same twelve pit counts. -/
def SameP (b c : Board) : Prop := ∀ i, i < 13 → i ≠ 6 → b.ring i = c.ring i

/-- What a solved table entry promises about a board `b0` whose hash is its key: the
recorded move is a non-empty pit, the recorded score (relative to the store differential)
is at most the value of that move unless the bound is `UPPER`, and at least the value of
the board unless the bound is `LOWER`. -/
def EntryOK (e : TTEntry) (b0 : Board) : Prop :=
  0 ≤ e.move ∧ b0.pit e.move.toNat ≠ 0 ∧
  (e.bound ≠ UPPER → e.score + diff b0 ≤ moveValue b0 e.move.toNat) ∧
  (e.bound ≠ LOWER → minimax b0 ≤ e.score + diff b0)

/-- Table invariant of the correctness proof: recorded moves are at most 5, and every
solved entry is right for some board with 36 seeds whose hash is its key. -/
def TTOK (tt : TT) : Prop :=
  ∀ j, (tt j).move ≤ 5 ∧
    ((tt j).solved = true → ∃ b0, total b0 = 36 ∧ is_game_over b0 = false ∧
      (tt j).key = hash_board b0 ∧ EntryOK (tt j) b0)

/-- What a solved result of `search` on `b` with window `(alpha, beta)` promises. -/
def ResultOK (b : Board) (alpha beta : Int) (r : Result) : Prop :=
  -36 ≤ r.score ∧ r.score ≤ 36 ∧
  (r.score < beta → minimax b ≤ r.score) ∧ (alpha < r.score → r.score ≤ minimax b) ∧
  (is_game_over b = false → 0 ≤ r.move ∧ r.move ≤ 5 ∧ b.pit r.move.toNat ≠ 0 ∧
    (alpha < r.score → r.score ≤ moveValue b r.move.toNat))

/-- What a solved result of one move of the loop promises. -/
def MoveOK (b : Board) (p : Nat) (alpha beta : Int) (r : Result) : Prop :=
  -36 ≤ r.score ∧ r.score ≤ 36 ∧
  (r.score < beta → moveValue b p ≤ r.score) ∧ (alpha < r.score → r.score ≤ moveValue b p)

/-- Invariant of the move loop of `search`; `S` is the set of the pits tried so far. -/
def LoopInv (b : Board) (alpha0 beta : Int) (S : Nat → Prop) (st : LoopState) : Prop :=
  TTOK st.tt ∧ st.alpha = max alpha0 st.best_score ∧ -1 ≤ st.best_move ∧ st.best_move ≤ 5 ∧
  (st.solved = true →
    st.best_score ≤ 36 ∧ (st.best_score = -100 ∨ -36 ≤ st.best_score) ∧
    (∀ p, S p → -36 ≤ st.best_score ∧ (st.best_score < beta → moveValue b p ≤ st.best_score)) ∧
    (-100 < st.best_score → 0 ≤ st.best_move ∧ b.pit st.best_move.toNat ≠ 0 ∧
      (alpha0 < st.best_score → st.best_score ≤ moveValue b st.best_move.toNat)))

/-- Boards reachable from `START_BOARD` by sowing a non-empty own pit and by flipping. -/
inductive Reachable : Board → Prop
  | start : Reachable START_BOARD
  | sow (b : Board) (p : Nat) : Reachable b → p < PITS → b.pit p ≠ 0 → Reachable (sow b p).1
  | flip (b : Board) : Reachable b → Reachable (flip b)

/-! ## The session interface of `wasm.c` and auxiliary predicates -/

/-- The struct `State` of the session API: `turn` is a `uint8_t`, `score` an `int8_t`. -/
structure State where
  board : Board
  turn : Nat
  score : Int

/-- The local `board` of `move` and `solve` after `if (state.turn) flip(&board)`: the
stored board seen from the side to move. -/
def mover_view (state : State) : Board :=
  if state.turn ≠ 0 then flip state.board else state.board

/-- Function `move` of the session API: the new session state and the returned `int`. -/
def move (state : State) (pit : Int) : State × Int :=
  let board := mover_view state
  if pit < 0 ∨ pit ≥ (PITS : Int) ∨ board.pit pit.toNat = 0 then (state, -1)
  else
    let r := sow board pit.toNat
    let board1 := if state.turn ≠ 0 then flip r.1 else r.1
    if r.2 then ({ state with board := board1 }, 1)
    else ({ state with board := board1, turn := (state.turn ^^^ 1) % 256 }, 0)

/-- The balance `bal` that `compute_dist` accumulates at a game-over board. -/
def bal (b : Board) : Int :=
  (List.range PITS).foldl (fun (s : Int) i => s + ((b.pit i : Int) - (b.opp_pit i : Int))) 0

/-- Solved slots of `t` are solved slots of `t1`. -/
def SolvedKept (t t1 : TT) : Prop := ∀ j, (t j).solved = true → (t1 j).solved = true

/-! ## The enumeration of all games (`count_all` of `count.c`) -/

abbrev CT_SIZE : Nat := 1 <<< 22

/-- The struct `CTEntry`; `key` and `count` are `uint64_t`. -/
structure CTEntry where
  key : Nat
  count : Nat

/-- The globals `ct` and `ct_valid` of `count.c`. -/
structure CTable where
  ct : Nat → CTEntry
  ct_valid : Nat → Bool

/-- A cleared count table (`memset` of both arrays). -/
def ct_clear : CTable := ⟨fun _ => ⟨0, 0⟩, fun _ => false⟩

/-- The two stores `ct[idx] = e; ct_valid[idx] = true;`. -/
def CTable.write (t : CTable) (idx : Nat) (e : CTEntry) : CTable :=
  ⟨fun j => if j = idx then e else t.ct j, fun j => if j = idx then true else t.ct_valid j⟩

/-- The loop `for (int p = 0; p < PITS; p++)` of `count_all` over the remaining pits;
`rec` is the recursive call, the accumulator `total` is a `uint64_t`. -/
def countLoop (rec : Board → CTable → Nat × CTable) (board : Board) :
    List Nat → Nat × CTable → Nat × CTable
  | [], s => s
  | p :: ps, s =>
    if board.pit p = 0 then countLoop rec board ps s
    else
      let r := rec (child board p) s.2
      countLoop rec board ps ((s.1 + r.1) % 2 ^ 64, r.2)

/-- Function `count_all` with a budget on the recursion depth; the table is threaded. -/
def count_allFuel : Nat → Board → CTable → Nat × CTable
  | 0, _, t => (0, t)
  | f + 1, board, t =>
    if is_game_over board then (1, t)
    else
      let h := hash_board board
      let idx := (h >>> 40) &&& (CT_SIZE - 1)
      if t.ct_valid idx = true ∧ (t.ct idx).key = h then ((t.ct idx).count, t)
      else
        let r := countLoop (count_allFuel f) board (List.range PITS) (0, t)
        (r.1, r.2.write idx ⟨h, r.1⟩)

/-- Function `count_all`: the recursion is at most `rank board` deep (see
`count_allFuel_stable`). -/
def count_all (board : Board) (t : CTable) : Nat × CTable :=
  count_allFuel (rank board + 1) board t

/-- The complete games playable from `b`, as lists of moves, with a recursion budget. -/
def gamesFuel : Nat → Board → List (List Nat)
  | 0, _ => []
  | f + 1, b =>
    if is_game_over b then [[]]
    else (legalMoves b).flatMap (fun p => (gamesFuel f (child b p)).map (fun ms => p :: ms))

/-- The complete games playable from `b`. -/
def games (b : Board) : List (List Nat) := gamesFuel (rank b + 1) b

/-- Number of terminal leaves of the game tree rooted at `b`, with a recursion budget. -/
def leavesFuel : Nat → Board → Nat
  | 0, _ => 0
  | f + 1, b =>
    if is_game_over b then 1
    else ((legalMoves b).map (fun p => leavesFuel f (child b p))).sum

/-- Number of terminal leaves of the game tree rooted at `b`. -/
def leaves (b : Board) : Nat := leavesFuel (rank b + 1) b

/-- Invariant of the count table: every valid entry holds the hash of some board with at
most 36 seeds and the number of its terminal leaves modulo `2 ^ 64`. -/
def CTOK (t : CTable) : Prop :=
  ∀ j, t.ct_valid j = true →
    ∃ b0, total b0 ≤ 36 ∧ (t.ct j).key = hash_board b0 ∧ (t.ct j).count = leaves b0 % 2 ^ 64

/-- The sowing loop of `sow` on the list of the 14 ring slots. -/
def sowLoopL : Nat → Nat → List Nat → Nat × List Nat
  | 0, pos, l => (pos, l)
  | n + 1, pos, l =>
    sowLoopL n ((pos + 1) % (FULL - 1))
      (l.set ((pos + 1) % (FULL - 1)) ((l.getD ((pos + 1) % (FULL - 1)) 0 + 1) % 256))

/-- The tail of `sow` on the list of the 14 ring slots. -/
def sowFinishL (pos : Nat) (l : List Nat) : List Nat × Bool :=
  if pos = PITS then (l, true)
  else if pos < PITS ∧ l.getD pos 0 = 1 then
    (((l.set PITS ((l.getD PITS 0 + (l.getD pos 0 + l.getD (HALF + (PITS - 1 - pos)) 0)) % 256)).set
      (HALF + (PITS - 1 - pos)) 0).set pos 0, false)
  else (l, false)

/-- Function `sow` on the list of the 14 ring slots. -/
def sowL (l : List Nat) (pos : Nat) : List Nat × Bool :=
  sowFinishL (sowLoopL (l.getD pos 0) pos (l.set pos 0)).1 (sowLoopL (l.getD pos 0) pos (l.set pos 0)).2

/-- Function `flip` on the list of the 14 ring slots. -/
def flipL (l : List Nat) : List Nat := l.drop HALF ++ l.take HALF

/-- The board handed to the recursion after playing pit `p`, on lists, with both stores
set to zero (the number of games does not depend on them). -/
def childL (l : List Nat) (p : Nat) : List Nat :=
  let r := sowL l p
  ((if r.2 then r.1 else flipL r.1).set PITS 0).set (HALF + PITS) 0

/-- Add `c` to the count of the entry of `acc` for the board `ch`, if there is one. -/
def bump : List (List Nat × Nat) → List Nat → Nat → Option (List (List Nat × Nat))
  | [], _, _ => none
  | e :: rest, ch, c =>
    if e.1 = ch then some ((e.1, e.2 + c) :: rest)
    else match bump rest ch c with
      | some r => some (e :: r)
      | none => none

/-- Account for `c` lines of play reaching `ch`: on the entry of `ch` in the next layer
when it has one, else among the lines that are not followed further. -/
def lbKid (s : List (List Nat × Nat) × Nat) (ch : List Nat) (c : Nat) :
    List (List Nat × Nat) × Nat :=
  match bump s.1 ch c with
  | some a => (a, s.2)
  | none => (s.1, s.2 + c)

/-- Expand one entry of a layer: a valid board that is not game-over passes its count to
each of its children; any other entry is not followed further. -/
def lbNode (s : List (List Nat × Nat) × Nat) (e : List Nat × Nat) :
    List (List Nat × Nat) × Nat :=
  if e.1.length = 14 ∧ e.1.sum ≤ 36 ∧ is_game_over (Board.ofList e.1) = false then
    (legalMoves (Board.ofList e.1)).foldl (fun s p => lbKid s (childL e.1 p) e.2) s
  else (s.1, s.2 + e.2)

/-- The 14 ring slots packed in a number, base 64, slot 0 lowest. -/
def unpack (k : Nat) : List Nat := (List.range FULL).map (fun i => (k / 64 ^ i) % 64)

/-- One layer of the count of lines of play: `keep` lists the boards (packed) followed in
the next layer. -/
def lbStep (s : List (List Nat × Nat) × Nat) (keep : List Nat) :
    List (List Nat × Nat) × Nat :=
  s.1.foldl lbNode (keep.map (fun k => (unpack k, 0)), s.2)

/-- The number of lines of play counted by a state: those not followed further and those
that reached the entries of the layer. -/
def lbBound (s : List (List Nat × Nat) × Nat) : Nat := s.2 + (s.1.map (fun e => e.2)).sum

/-- The boards followed, layer by layer, from the start position (packed by `unpack`). -/
def startLines : List (List Nat) := [
  [14393145247009094774979, 18892979596810271862980],
  [19189226380298703356160, 19189226384697773011139],
  [18894150800995316138180],
  [19264183452470797680896],
  [23691474070163026087940],
  [374717520993307615297, 19339141628552633667584],
  [28340053576737850138688, 28340071877005070831620],
  [449675697075109781569, 19414045497556116721664],
  [28340072154082018074688, 33130442428379316355201, 33130460728646537060481],
  [524579566077535871104, 524579851951648301121],
  [33130461005723484291201, 37779040235221361098881],
  [524580129028578500736, 524580129029635465281, 5312662860583884058817],
  [33131632504577642725505, 37779040512298291298496, 37780211734075519533185],
  [5312663137660814258432, 5312663137661871222977],
  [37780212011152449732800],
  [5387620205434895626496, 37780212011151375990976],
  [665253722565250412800, 42577392291031990673473],
  [5387638782784449282304, 5460272560497750442240, 42577392291030916931649],
  [665272299914804068608, 737906077628105228544, 47225971797606797680768,
    47225971797606814195777],
  [5460272837575737606400, 47225971797605723938944, 47225971797605740453953],
  [737906354706092392704, 812809946631588282624, 52023295066774507102336],
  [52023295066773433360512, 52023295066773450391617],
  [812810223709609267200],
  [52024429973879547756672, 56671874573348257398912],
  [813980596662772432896, 813980596663829139456],
  [56673009480454355030016],
  [4724708640562877829185],
  [61470334438472797397057, 61471469068501964562497, 66118913667970674204737],
  [4724708917639808028800, 4724708917639808286785, 4724708917640864993345,
    9518556256718147555456, 9518556256718147813441, 9518556256719204520001],
  [61471469345578894762112, 61471469345579984756801, 66118913945047604404352,
    66118913945048694399041, 66120048575076771569792, 66120048575077861564481],
  [9518556533795078013056, 9518556533796134719616, 9518556533796134977601,
    14167135763292954820736, 14167135763294011527296, 14167135763294011785281],
  [66120048852154791764096, 66120048852155848728641],
  [14167136040370941984896],
  [18964460721297623355585],
  [4804243049999459692737, 4805377680028626858177, 9452822279497336500417],
  [19037094776087854715136, 19037094776087854973121, 19037094776088911679681],
  [4805377957105573572801, 9452822556574283215041, 9453957186603450380481],
  [19037095053164785172736, 19037095053165841879296, 19037095053165842137281,
    23834347113561416794368, 23834347113562473500928, 23834347113562473758913],
  [9453957463680380580096, 9453957463681471348929],
  [23834347390639403958528, 23906981168352705118464],
  [14251280732849164255488, 14251280732849180770497],
  [23906981445430726103040, 28631670659808187650048],
  [14252415639955278135552, 14252415639956352405504, 18899860239423987777792,
    18899860239425062047744],
  [28704304714598419267584, 28704304714599475974144, 33425518275963457634304,
    33425518275964514340864],
  [10394307946497712193, 18900995146531175927808, 18900995146532249407488],
  [368952895878088888385, 370105817381621993537, 28776938769389707591680,
    28776957069656945070080],
  [11529215052611592257, 86487413117130383425, 18975953621672641433600],
  [370124394725789929537, 442739872171853353088, 442758172439091089473],
  [86487690194060583040, 86487690194077098049, 87622320223244263489],
  [442758449516021289088, 442758449516021547073, 517662041441517179008, 517662041441517436993],
  [87622597300174463104, 87622597300191494209, 87658063147240005760, 87658063147257036865],
  [517662318518447636608, 517662318518447644672],
  [88792970253354401920, 162561932149683126400],
  [4723519967324242714689, 4723519967324259487809],
  [163751445402218659968, 237520407298547384448, 238655037327714549888],
  [4724690340277405622400, 4724690340277422395520, 4724690340277422653505],
  [238655314404645015552],
  [4725825247383520018560],
  [9814839631941739745345],
  [9523150205403250561217, 9524284835432417726657, 14171729434901127368897],
  [9814839909018669944960, 9814839909018670202945, 9814839909019726909505,
    9887473686731971104896, 9887473686731971362881, 9887473686733028069441],
  [9524285112509347926272, 9524285112509364441281, 14171729711978057568512,
    14171729711978074083521, 14172864342007224733952, 14172864342007241248961],
  [9887473963808901562496, 9887473963809958269056, 9887473963809958527041],
  [9525455485462527348992, 14172864619084171448576],
  [14684797232976594735104, 14684797232977651433600],
  [5765170476326592577, 14174034992038425141248],
  [517697784368716058689, 14757431287767883059200, 14757431573637684789376],
  [6935543429506015297, 6935829299291496513, 14174035554985157337088, 14175169899144539021312,
    14175170185014324502528],
  [590331839158947418240, 590331839158947676225, 590332125028749414465, 14832335442640111144960],
  [6936106376238211137, 8070450535620411457, 8070736405405376577, 14175170462091271217152],
  [590332402105679614080, 590332402105679872065, 665235708161373765760, 665235994031175504000,
    665235994031175761985],
  [8071013482335576192, 8071013482352607297],
  [665236271108105961600, 737870048821407121536],
  [9241386435515515008, 9241386435532030017],
  [737870325898337587200],
  [10376293541629395072],
  [4722367331693715001409],
  [4807701251560088535233, 4808835881589255700673, 9456280481057965342913],
  [4722367608770645201024, 4722367608770645459009, 4722367608771702165569],
  [4808836158666185900288, 9456280758134895542528, 9457415388164062707968],
  [9519690877938338365568, 9519690877939395072128, 9519690877939395330113],
  [4810006531620439592960, 9457415665242083692544],
  [9520825785044435996672, 9520825785045492695168, 14168270384513145638912,
    14168270384514202337408],
  [9458586038195246858240, 9458586038196303564800],
  [14169405291620299968512],
  [14240922739578128568385],
  [18966730249638940516417, 18967864879668107681857, 23615309479136817324097],
  [14240923016655058768000, 14240923016655059025985, 14240923016656115732545,
    14315826608580554657920, 14315826608580554915905, 14315826608581611622465],
  [18967865156745037881472, 18967865156745054912577, 23615309756213747523712,
    23615309756213764554817, 23616444386242914689152, 23616444386242931720257],
  [14315826885657485115520, 14315826885658541822080, 14315826885658542080065],
  [23616444663319861919872, 28407986159388987752577],
  [148727437049606439105, 14388460940448773439616, 14388460944847909421121],
  [23616445226266594115712, 28407986436465934467201, 28407986722335719948417],
  [148727718525672620225, 221361491839837798656, 221361496238973780161, 14388461221924839620736],
  [28407986999412650148032, 28407986999412666663041, 33056565943040741474496,
    33056566228910526955712, 33056566228910543470721],
  [221361773315903979776, 221361773316960944321],
  [33056566505987473670336],
  [296318841089985347840],
  [37853889775155183620096],
  [297453748197173497856, 4723537418781368520769],
  [37853890338106143674368, 37855024682261281243136, 37855024968135310839808],
  [4724672325887465885824, 4724672325887466143809],
  [37855025245212241297408, 42648872584290580824064],
  [9518519942042735870080, 9518519942043825864769],
  [42648872861368601018368],
  [14167099448618632872064],
  [147574801416965066817],
  [18964424406626522366145, 18965559036655689531585, 23613003636124399173825],
  [222531869189989470336, 222531869189989728321, 222531869191046434881],
  [18965559313732636774401, 23613003913201346416641, 23614138543230513582081],
  [223666776296087093376, 223666776297143799936, 223666776297144057921, 4723537423175120322689,
    4723537423176177029249],
  [23614138820307444039681, 23614138824706513702913],
  [4724672330282274652289],
  [23614139101783444160513, 28407986440861783687169],
  [9518519946437544378560, 9518519946438634373249],
  [28407986717939803881473],
  [14167099453013441380544],
  [73787820723006607426, 28482943785713885249537],
  [4404522782785, 14242075938155369857216, 14314691705868208046272],
  [148744888496031015040, 148744888496047525954, 148745174365833007170],
  [74976489546451259457, 147592257259289448513, 14314709992945618259968],
  [148745451442763210880, 148745451442779721794, 149879795602144895104, 149880081471930376320,
    149880081471946887234, 14314709992946658447360],
  [147610544336682619008, 147610544336682876993, 4724672325882113695872],
  [147610544337722806400, 147610544337723064385, 149880358548877090944],
  [222514413339108966528, 4724672888828845891712, 9518520227907185418368],
  [222514413340149153920, 222514413341239148609],
  [9518520504984132649088],
  [223684786294402056320, 4723519967326369742977],
  [9518520786460132769920, 14167100011558939922432, 14167100015958009577600],
  [4724690340279532650688, 4724690340280589615233, 14167100015956935835776],
  [567349074202689, 2323857410944401537, 14167100293034940043264],
  [567348000460865, 4725825247386686980288, 4725825533256488976513, 14167100293033866301440],
  [844426004660289, 3458764517041766592, 3459050386843762817],
  [844424930918465, 4725825251781512265920],
  [844426020651073, 1170935904190857217, 3458768911867052224],
  [1170935903117115393, 4796153463562529931456],
  [1170935904206848001],
  [1170935903133106177],
  [73786976294838472704],
  []
  ]

/-- The number of complete games that a state of the count of lines of play stands for. -/
def lbWeight (s : List (List Nat × Nat) × Nat) : Nat :=
  s.2 + (s.1.map (fun e => e.2 * leaves (Board.ofList e.1))).sum

/-- The state of the count of lines of play at the start position. -/
def startState : List (List Nat × Nat) × Nat :=
  ([([3, 3, 3, 3, 3, 3, 0, 3, 3, 3, 3, 3, 3, 0], 1)], 0)

/-! ## The score distribution (`compute_dist` of `count.c`) -/

abbrev SCORE_RANGE : Nat := 73

abbrev SCORE_OFF : Nat := 36

abbrev DT_SIZE : Nat := 1 <<< 20

/-- The struct `Dist`: the array `d` of `SCORE_RANGE` buckets, each a `uint64_t`. -/
abbrev Dist := Nat → Nat

/-- A zeroed `Dist` (`memset`). -/
def dist_zero : Dist := fun _ => 0

/-- The statement `result.d[mi] += v` on `uint64_t` buckets. -/
def dist_add (d : Dist) (mi v : Nat) : Dist :=
  fun j => if j = mi then (d mi + v) % 2 ^ 64 else d j

/-- The globals `dt`, `dt_key` and `dt_valid` of `count.c`. -/
structure DTable where
  dt : Nat → Dist
  dt_key : Nat → Nat
  dt_valid : Nat → Bool

/-- A cleared distribution table (`calloc`). -/
def dt_clear : DTable := ⟨fun _ => dist_zero, fun _ => 0, fun _ => false⟩

/-- The three stores `dt_key[idx] = h; dt[idx] = result; dt_valid[idx] = true;`. -/
def DTable.write (t : DTable) (idx h : Nat) (result : Dist) : DTable :=
  ⟨fun j => if j = idx then result else t.dt j, fun j => if j = idx then h else t.dt_key j,
    fun j => if j = idx then true else t.dt_valid j⟩

/-- The loops `for (int s = 0; s < SCORE_RANGE; s++)` of `compute_dist`, which add the
child's buckets into `result`: bucket `s` goes to `mi = s + delta` after a move that
grants another turn, to `mi = delta - s + 2 * SCORE_OFF` after one that does not, and is
dropped when `mi` is out of range. -/
def distFold (again : Bool) (delta : Int) (cd : Dist) : List Nat → Dist → Dist
  | [], result => result
  | s :: rest, result =>
    if cd s = 0 then distFold again delta cd rest result
    else
      let mi : Int := if again then (s : Int) + delta else delta - (s : Int) + 2 * (SCORE_OFF : Int)
      if 0 ≤ mi ∧ mi < (SCORE_RANGE : Int) then
        distFold again delta cd rest (dist_add result mi.toNat (cd s))
      else distFold again delta cd rest result

/-- The loop `for (int p = 0; p < PITS; p++)` of `compute_dist` over the remaining pits;
`rec` is the recursive call and `sd` the store differential of `board`. -/
def distLoop (rec : Board → DTable → Dist × DTable) (board : Board) (sd : Int) :
    List Nat → Dist × DTable → Dist × DTable
  | [], s => s
  | p :: ps, s =>
    if board.pit p = 0 then distLoop rec board sd ps s
    else
      let after := sow board p
      let delta : Int := ((after.1.store : Int) - (after.1.opp_store : Int)) - sd
      if after.2 then
        let r := rec after.1 s.2
        distLoop rec board sd ps (distFold true delta r.1 (List.range SCORE_RANGE) s.1, r.2)
      else
        let r := rec (flip after.1) s.2
        distLoop rec board sd ps (distFold false delta r.1 (List.range SCORE_RANGE) s.1, r.2)

/-- Function `compute_dist` with a budget on the recursion depth; the table is threaded.
At a game-over board the bucket `bal + SCORE_OFF` is set to 1. -/
def compute_distFuel : Nat → Board → DTable → Dist × DTable
  | 0, _, t => (dist_zero, t)
  | f + 1, board, t =>
    if is_game_over board then
      (fun j => if (j : Int) = bal board + (SCORE_OFF : Int) then 1 else 0, t)
    else
      let h := hash_board board
      let idx := (h >>> 40) &&& (DT_SIZE - 1)
      if t.dt_valid idx = true ∧ t.dt_key idx = h then (t.dt idx, t)
      else
        let sd : Int := (board.store : Int) - (board.opp_store : Int)
        let r := distLoop (compute_distFuel f) board sd (List.range PITS) (dist_zero, t)
        (r.1, r.2.write idx h r.1)

/-- Function `compute_dist`: the recursion is at most `rank board` deep. -/
def compute_dist (board : Board) (t : DTable) : Dist × DTable :=
  compute_distFuel (rank board + 1) board t

/-- The sum of the `SCORE_RANGE` buckets of a distribution. -/
def bucketSum (d : Dist) : Nat := ((List.range SCORE_RANGE).map d).sum

/-- What a distribution computed for `b` satisfies: its buckets sum to at most the number
of games from `b` and to that number modulo `2 ^ 64`, and every non-empty bucket lies
within `pitSum b` of the middle bucket `SCORE_OFF`. -/
def DistOK (b : Board) (d : Dist) : Prop :=
  bucketSum d ≤ leaves b ∧ bucketSum d % 2 ^ 64 = leaves b % 2 ^ 64 ∧
  ∀ s, d s ≠ 0 → SCORE_OFF ≤ s + pitSum b ∧ s ≤ SCORE_OFF + pitSum b

/-- Invariant of the distribution table: every valid entry holds the hash of some board
with at most 36 seeds and a distribution that is right for it. -/
def DTOK (t : DTable) : Prop :=
  ∀ j, t.dt_valid j = true →
    ∃ b0, total b0 ≤ 36 ∧ t.dt_key j = hash_board b0 ∧ DistOK b0 (t.dt j)

/-- The bucket to which `compute_dist` adds bucket `s` of a child. -/
def target (again : Bool) (delta : Int) (s : Nat) : Int :=
  if again then (s : Int) + delta else delta - (s : Int) + 2 * (SCORE_OFF : Int)

/-- What the accumulator `result` of `compute_dist` satisfies while `a` games have been
accounted for. -/
def AccOK (b : Board) (a : Nat) (d : Dist) : Prop :=
  bucketSum d ≤ a ∧ bucketSum d % 2 ^ 64 = a % 2 ^ 64 ∧
  ∀ s, d s ≠ 0 → SCORE_OFF ≤ s + pitSum b ∧ s ≤ SCORE_OFF + pitSum b

/-! ## The perfect-play count (`count_optimal` and phase 3 of `main` of `count.c`) -/

/-- The loop `for (int p = 0; p < PITS; p++)` of `count_optimal` over the remaining pits:
`rec` is the recursive call, `best` the score of the board, `sf` the budget given to each
`search_full`; the state is the running `total` (a `uint64_t`) and the two tables. -/
def optLoop (rec : Board → TT × CTable → Option (Nat × (TT × CTable))) (sf : Nat)
    (board : Board) (best : Int) :
    List Nat → Nat × (TT × CTable) → Option (Nat × (TT × CTable))
  | [], s => some s
  | p :: ps, s =>
    if board.pit p = 0 then optLoop rec sf board best ps s
    else
      match search_full sf (child board p) s.2.1 with
      | none => none
      | some r =>
        if (if (sow board p).2 then r.1.score else - r.1.score) = best then
          match rec (child board p) (r.2, s.2.2) with
          | none => none
          | some c => optLoop rec sf board best ps ((s.1 + c.1) % 2 ^ 64, c.2)
        else optLoop rec sf board best ps (s.1, (r.2, s.2.2))

/-- Function `count_optimal` with a budget `f` on the recursion depth and a budget `sf` on
the iterations of each `search_full`; `none` when a budget runs out. The transposition
table and the count table are threaded. -/
def count_optimalFuel (sf : Nat) : Nat → Board → TT × CTable → Option (Nat × (TT × CTable))
  | 0, _, _ => none
  | f + 1, board, s =>
    if is_game_over board then some (1, s)
    else if s.2.ct_valid ((hash_board board >>> 40) &&& (CT_SIZE - 1)) = true ∧
        (s.2.ct ((hash_board board >>> 40) &&& (CT_SIZE - 1))).key = hash_board board then
      some ((s.2.ct ((hash_board board >>> 40) &&& (CT_SIZE - 1))).count, s)
    else
      match search_full sf board s.1 with
      | none => none
      | some rb =>
        match optLoop (count_optimalFuel sf f) sf board rb.1.score (List.range PITS)
            (0, (rb.2, s.2)) with
        | none => none
        | some r =>
          some (r.1, (r.2.1,
            r.2.2.write ((hash_board board >>> 40) &&& (CT_SIZE - 1)) ⟨hash_board board, r.1⟩))

/-- Function `count_optimal`, with budgets that suffice for a board of 36 seeds (see
`count_optimalFuel_ok`). -/
def count_optimal (board : Board) (s : TT × CTable) : Option (Nat × (TT × CTable)) :=
  count_optimalFuel (height board + 127) (rank board + 1) board s

/-- Phase 3 of `main` of `count.c` on `board`: the solved score and the perfect-play
figure `r.score > 0 ? count_optimal(board) : 0`, the count table being cleared first. -/
def perfect_play (board : Board) (tt : TT) : Option (Int × Nat) :=
  match search_full (height board + 127) board tt with
  | none => none
  | some r =>
    if r.1.score > 0 then
      match count_optimal board (r.2, ct_clear) with
      | none => none
      | some c => some (r.1.score, c.1)
    else some (r.1.score, 0)

/-- The moves that keep the minimax value of `b`. -/
def optMoves (b : Board) : List Nat :=
  (legalMoves b).filter (fun p => moveValue b p = minimax b)

/-- Number of complete games from `b` in which every move keeps the minimax value of the
position it is played in, with a recursion budget. -/
def optLeavesFuel : Nat → Board → Nat
  | 0, _ => 0
  | f + 1, b =>
    if is_game_over b then 1
    else ((optMoves b).map (fun p => optLeavesFuel f (child b p))).sum

/-- Number of perfect-play games from `b`. -/
def optLeaves (b : Board) : Nat := optLeavesFuel (rank b + 1) b

/-- Invariant of the count table of `count_optimal`: every valid entry holds the hash of
some board with 36 seeds and the number of its perfect-play games modulo `2 ^ 64`. -/
def OTOK (t : CTable) : Prop :=
  ∀ j, t.ct_valid j = true →
    ∃ b0, total b0 = 36 ∧ (t.ct j).key = hash_board b0 ∧ (t.ct j).count = optLeaves b0 % 2 ^ 64

/-- Invariant of the two tables threaded through `count_optimal`. -/
def OptInv (s : TT × CTable) : Prop := TTOK s.1 ∧ TTInv 127 s.1 ∧ OTOK s.2

/-! ## Basic facts about the board operations -/

@[simp] theorem Board.set_ring (b : Board) (i v j : Nat) :
    (b.set i v).ring j = if j = i then v else b.ring j := rfl

theorem range_PITS : List.range PITS = [0, 1, 2, 3, 4, 5] := by decide

theorem range_HALF : List.range HALF = [0, 1, 2, 3, 4, 5, 6] := by decide

theorem range_FULL : List.range FULL = [0, 1, 2, 3, 4, 5, 6, 7, 8, 9, 10, 11, 12, 13] := by
  decide

theorem total_eq (b : Board) : total b =
    b.ring 0 + b.ring 1 + b.ring 2 + b.ring 3 + b.ring 4 + b.ring 5 + b.ring 6 +
    b.ring 7 + b.ring 8 + b.ring 9 + b.ring 10 + b.ring 11 + b.ring 12 + b.ring 13 := by
  simp only [total, range_FULL, List.map_cons, List.map_nil, List.sum_cons, List.sum_nil]
  omega

theorem ownSum_eq (b : Board) : ownSum b =
    b.ring 0 + b.ring 1 + b.ring 2 + b.ring 3 + b.ring 4 + b.ring 5 := by
  simp only [ownSum, range_PITS, List.map_cons, List.map_nil, List.sum_cons, List.sum_nil,
    Board.pit]
  omega

theorem oppSum_eq (b : Board) : oppSum b =
    b.ring 7 + b.ring 8 + b.ring 9 + b.ring 10 + b.ring 11 + b.ring 12 := by
  simp only [oppSum, range_PITS, List.map_cons, List.map_nil, List.sum_cons, List.sum_nil,
    Board.opp_pit, HALF, PITS, Nat.reduceAdd]
  omega

theorem flip_ring (b : Board) (j : Nat) : (flip b).ring j =
    if j < 7 then b.ring (j + 7) else if j < 14 then b.ring (j - 7) else b.ring j := by
  simp only [flip, flipStep, range_HALF, List.foldl_cons, List.foldl_nil, Board.set_ring,
    HALF, PITS]
  by_cases h14 : j < 14
  · interval_cases j <;> simp
  · have h1 : ¬ j < 7 := by omega
    simp only [h1, h14, if_false]
    repeat (first | rw [if_neg (by omega)] | rfl)

theorem is_game_over_eq (b : Board) :
    is_game_over b = (decide (ownSum b = 0) || decide (oppSum b = 0)) := by
  rw [ownSum_eq, oppSum_eq]
  simp only [is_game_over, range_PITS, List.foldl_cons, List.foldl_nil, Board.pit,
    Board.opp_pit, HALF, PITS, Nat.reduceAdd]
  rw [Bool.eq_iff_iff]
  simp only [Bool.or_eq_true, Bool.not_eq_true', decide_eq_true_eq, Nat.add_eq_zero_iff]
  by_cases h0 : b.ring 0 = 0 <;> by_cases h1 : b.ring 1 = 0 <;> by_cases h2 : b.ring 2 = 0 <;>
    by_cases h3 : b.ring 3 = 0 <;> by_cases h4 : b.ring 4 = 0 <;>
    by_cases h5 : b.ring 5 = 0 <;> simp [h0, h1, h2, h3, h4, h5] <;> tauto

theorem final_score_eq (b : Board) : final_score b =
    ((b.ring 6 : Int) - b.ring 13) + ((b.ring 0 : Int) - b.ring 7) + ((b.ring 1 : Int) - b.ring 8)
    + ((b.ring 2 : Int) - b.ring 9) + ((b.ring 3 : Int) - b.ring 10)
    + ((b.ring 4 : Int) - b.ring 11) + ((b.ring 5 : Int) - b.ring 12) := by
  simp only [final_score, range_PITS, List.foldl_cons, List.foldl_nil, Board.pit,
    Board.opp_pit, Board.store, Board.opp_store, HALF, PITS, Nat.reduceAdd]

theorem total_set (b : Board) (i v : Nat) (hi : i < 14) :
    total (b.set i v) + b.ring i = total b + v := by
  simp only [total_eq, Board.set_ring]
  interval_cases i <;> simp <;> omega

theorem ring_le_total (b : Board) (i : Nat) (hi : i < 14) : b.ring i ≤ total b := by
  rw [total_eq]
  interval_cases i <;> omega

theorem total_flip (b : Board) : total (flip b) = total b := by
  simp only [total_eq, flip_ring]
  simp
  omega

/-- The sowing loop moves `n` seeds from the hand onto the board when nothing overflows. -/
theorem total_sowLoop (n : Nat) : ∀ (pos : Nat) (b : Board), total b + n ≤ 255 →
    total (sowLoop n pos b).2 = total b + n := by
  induction n with
  | zero => intro pos b _; rfl
  | succ n ih =>
    intro pos b h
    have hpos : (pos + 1) % 13 < 14 := by omega
    have hle := ring_le_total b _ hpos
    have hset := total_set b ((pos + 1) % 13) ((b.ring ((pos + 1) % 13) + 1) % 256) hpos
    have hb : total (b.set ((pos + 1) % 13) ((b.ring ((pos + 1) % 13) + 1) % 256))
        = total b + 1 := by omega
    simp only [sowLoop, FULL, HALF, PITS, Nat.reduceAdd, Nat.reduceMul, Nat.reduceSub]
    rw [ih _ _ (by omega), hb]
    omega

theorem total_sowFinish (pos : Nat) (b : Board) (h : total b ≤ 255) :
    total (sowFinish pos b).1 = total b := by
  unfold sowFinish
  split_ifs with h1 h2
  · rfl
  · obtain ⟨hlt, _⟩ := h2
    have h6 := ring_le_total b 6 (by omega)
    simp only [PITS, HALF, Board.pit, Board.store, Board.opp_pit, Nat.reduceAdd] at hlt ⊢
    have hb : b.ring 6 + (b.ring pos + b.ring (7 + (6 - 1 - pos))) ≤ total b := by
      rw [total_eq]
      interval_cases pos <;> simp <;> omega
    rw [Nat.mod_eq_of_lt (by omega)]
    simp only [total_eq, Board.set_ring]
    interval_cases pos <;> simp <;> omega
  · rfl

theorem total_sow (b : Board) (p : Nat) (hp : p < PITS) (h : total b ≤ 255) :
    total (sow b p).1 = total b := by
  have hp14 : p < 14 := by simp only [PITS] at hp; omega
  have hset := total_set b p 0 hp14
  have hloop := total_sowLoop (b.ring p) p (b.set p 0) (by omega)
  unfold sow
  simp only [Board.pit]
  rw [total_sowFinish _ _ (by omega), hloop]
  omega

/-! ## The sowing loop -/

theorem visits_zero (pos i : Nat) : visits 0 pos i = 0 := rfl

theorem visits_succ (n pos i : Nat) :
    visits (n + 1) pos i = (if (pos + 1) % 13 = i then 1 else 0) + visits n ((pos + 1) % 13) i := by
  simp only [visits, List.range_succ_eq_map, List.countP_cons, List.countP_map, FULL, HALF,
    PITS, Nat.reduceAdd, Nat.reduceMul, Nat.reduceSub, Nat.add_zero, decide_eq_true_eq]
  have h : ((fun k => decide ((pos + k + 1) % 13 = i)) ∘ Nat.succ)
      = (fun k => decide (((pos + 1) % 13 + k + 1) % 13 = i)) := by
    funext k
    simp only [Function.comp, Nat.succ_eq_add_one]
    congr 2
    omega
  rw [h]
  omega

theorem visits_eq_zero (n pos i : Nat) (h : ∀ k, k < n → (pos + k + 1) % 13 ≠ i) :
    visits n pos i = 0 := by
  simp only [visits, List.countP_eq_zero, List.mem_range, decide_eq_true_eq, FULL, HALF, PITS,
    Nat.reduceAdd, Nat.reduceMul, Nat.reduceSub]
  exact h

theorem visits_opp_store (n pos i : Nat) (hi : 13 ≤ i) : visits n pos i = 0 :=
  visits_eq_zero n pos i (fun k _ => by omega)

/-- Final position of the sowing loop. -/
theorem sowLoop_pos (n : Nat) : ∀ (pos : Nat) (b : Board), pos < 13 →
    (sowLoop n pos b).1 = (pos + n) % 13 := by
  induction n with
  | zero => intro pos b h; simp [sowLoop]; omega
  | succ n ih =>
    intro pos b h
    simp only [sowLoop, FULL, HALF, PITS, Nat.reduceAdd, Nat.reduceMul, Nat.reduceSub]
    rw [ih _ _ (by omega)]
    omega

/-- Contents of every slot after the sowing loop. -/
theorem sowLoop_ring (n : Nat) : ∀ (pos : Nat) (b : Board) (i : Nat),
    (sowLoop n pos b).2.ring i =
      if visits n pos i = 0 then b.ring i else (b.ring i + visits n pos i) % 256 := by
  induction n with
  | zero => intro pos b i; simp [sowLoop, visits_zero]
  | succ n ih =>
    intro pos b i
    simp only [sowLoop, FULL, HALF, PITS, Nat.reduceAdd, Nat.reduceMul, Nat.reduceSub]
    rw [ih, visits_succ, Board.set_ring]
    by_cases hi : (pos + 1) % 13 = i
    · subst hi
      simp only [if_true]
      split_ifs with h1 h2 <;> omega
    · have hi2 : ¬ i = (pos + 1) % 13 := fun h => hi h.symm
      simp only [hi, hi2, if_false, Nat.zero_add]

theorem sow_eq_landing (b : Board) (p : Nat) :
    sow b p = sowFinish (landing b p).1 (landing b p).2 := rfl

theorem landing_pos (b : Board) (p : Nat) (hp : p < PITS) :
    (landing b p).1 = (p + b.pit p) % 13 :=
  sowLoop_pos _ _ _ (by simp only [PITS] at hp; omega)

theorem landing_ring (b : Board) (p i : Nat) :
    (landing b p).2.ring i =
      if visits (b.pit p) p i = 0 then (b.set p 0).ring i
      else ((b.set p 0).ring i + visits (b.pit p) p i) % 256 :=
  sowLoop_ring _ _ _ _

theorem sum_visits (n : Nat) : ∀ pos : Nat,
    ((List.range (FULL - 1)).map (visits n pos)).sum = n := by
  have hr : List.range (FULL - 1) = [0, 1, 2, 3, 4, 5, 6, 7, 8, 9, 10, 11, 12] := by decide
  induction n with
  | zero => intro pos; simp [hr, visits_zero]
  | succ n ih =>
    intro pos
    have h := ih ((pos + 1) % 13)
    simp only [hr, List.map_cons, List.map_nil, List.sum_cons, List.sum_nil, visits_succ] at h ⊢
    have hj : (pos + 1) % 13 < 13 := Nat.mod_lt _ (by omega)
    generalize (pos + 1) % 13 = j at h hj ⊢
    interval_cases j <;> simp <;> omega

theorem sowFinish_opp_store (pos : Nat) (b : Board) :
    (sowFinish pos b).1.ring 13 = b.ring 13 := by
  unfold sowFinish
  split_ifs with h1 h2
  · rfl
  · obtain ⟨hlt, _⟩ := h2
    simp only [PITS] at hlt
    simp only [Board.set_ring, PITS, HALF, Nat.reduceAdd]
    rw [if_neg (by omega), if_neg (by omega), if_neg (by omega)]
  · rfl

theorem sow_opp_store (b : Board) (p : Nat) (hp : p < PITS) :
    (sow b p).1.ring 13 = b.ring 13 := by
  simp only [PITS] at hp
  rw [sow_eq_landing, sowFinish_opp_store, landing_ring, visits_opp_store _ _ _ (le_refl _)]
  simp only [if_true, Board.set_ring]
  rw [if_neg (by omega)]

/-! ## Every move decreases `rank` -/

theorem pitSum_eq (b : Board) : pitSum b =
    b.ring 0 + b.ring 1 + b.ring 2 + b.ring 3 + b.ring 4 + b.ring 5 +
    b.ring 7 + b.ring 8 + b.ring 9 + b.ring 10 + b.ring 11 + b.ring 12 := by
  rw [pitSum, ownSum_eq, oppSum_eq]
  omega

theorem dist_eq (b : Board) : dist b =
    5 * (b.ring 0 + b.ring 7) + 4 * (b.ring 1 + b.ring 8) + 3 * (b.ring 2 + b.ring 9)
    + 2 * (b.ring 3 + b.ring 10) + (b.ring 4 + b.ring 11) := by
  simp only [dist, range_PITS, List.map_cons, List.map_nil, List.sum_cons, List.sum_nil,
    Board.pit, Board.opp_pit, HALF, PITS, Nat.reduceAdd, Nat.reduceSub]
  omega

theorem dist_le (b : Board) : dist b ≤ 5 * pitSum b := by
  rw [dist_eq, pitSum_eq]
  omega

theorem pitSum_flip (b : Board) : pitSum (flip b) = pitSum b := by
  simp only [pitSum_eq, flip_ring]
  simp
  omega

theorem dist_flip (b : Board) : dist (flip b) = dist b := by
  simp only [dist_eq, flip_ring]
  simp
  omega

/-- Effect of one `uint8_t` increment of slot `j` on the pit seeds and their distance. -/
theorem incr_measure (b : Board) (j : Nat) (hj : j < 13) :
    pitSum (b.set j ((b.ring j + 1) % 256)) ≤ pitSum b + 1 ∧
    (j = 6 → pitSum (b.set j ((b.ring j + 1) % 256)) = pitSum b) ∧
    (j < 6 → pitSum (b.set j ((b.ring j + 1) % 256)) = pitSum b + 1 →
      dist (b.set j ((b.ring j + 1) % 256)) = dist b + (5 - j)) := by
  simp only [pitSum_eq, dist_eq, Board.set_ring]
  interval_cases j <;> simp <;> omega

theorem pitSum_sowLoop (n : Nat) : ∀ (pos : Nat) (b : Board),
    pitSum (sowLoop n pos b).2 ≤ pitSum b + n := by
  induction n with
  | zero => intro pos b; simp [sowLoop]
  | succ n ih =>
    intro pos b
    simp only [sowLoop, FULL, HALF, PITS, Nat.reduceAdd, Nat.reduceMul, Nat.reduceSub]
    have h1 := (incr_measure b ((pos + 1) % 13) (Nat.mod_lt _ (by omega))).1
    have h2 := ih ((pos + 1) % 13) (b.set ((pos + 1) % 13) ((b.ring ((pos + 1) % 13) + 1) % 256))
    omega

/-- A sowing that reaches the own store loses at least one seed to it. -/
theorem pitSum_sowLoop_store (n : Nat) : ∀ (pos : Nat) (b : Board), pos ≤ 5 → 6 ≤ pos + n →
    pitSum (sowLoop n pos b).2 + 1 ≤ pitSum b + n := by
  induction n with
  | zero => intro pos b h1 h2; omega
  | succ n ih =>
    intro pos b hpos hn
    simp only [sowLoop, FULL, HALF, PITS, Nat.reduceAdd, Nat.reduceMul, Nat.reduceSub]
    have hm : (pos + 1) % 13 = pos + 1 := Nat.mod_eq_of_lt (by omega)
    rw [hm]
    have h1 := incr_measure b (pos + 1) (by omega)
    by_cases h6 : pos + 1 = 6
    · have h2 := pitSum_sowLoop n (pos + 1) (b.set (pos + 1) ((b.ring (pos + 1) + 1) % 256))
      have h3 := h1.2.1 h6
      omega
    · have h2 := ih (pos + 1) (b.set (pos + 1) ((b.ring (pos + 1) + 1) % 256)) (by omega)
        (by omega)
      omega

/-- A sowing that stays inside the own row either loses a seed to an overflow or brings
the seeds closer to the end of the row. -/
theorem dist_sowLoop_row (n : Nat) : ∀ (pos : Nat) (b : Board), pos + n ≤ 5 →
    pitSum (sowLoop n pos b).2 = pitSum b + n →
    dist (sowLoop n pos b).2 + n ≤ dist b + n * (5 - pos) := by
  induction n with
  | zero => intro pos b _ _; simp [sowLoop]
  | succ n ih =>
    intro pos b hpos hS
    simp only [sowLoop, FULL, HALF, PITS, Nat.reduceAdd, Nat.reduceMul, Nat.reduceSub] at hS ⊢
    have hm : (pos + 1) % 13 = pos + 1 := Nat.mod_eq_of_lt (by omega)
    rw [hm] at hS ⊢
    have h1 := incr_measure b (pos + 1) (by omega)
    have h2 := pitSum_sowLoop n (pos + 1) (b.set (pos + 1) ((b.ring (pos + 1) + 1) % 256))
    have hS1 : pitSum (b.set (pos + 1) ((b.ring (pos + 1) + 1) % 256)) = pitSum b + 1 := by
      omega
    have h3 := h1.2.2 (by omega) hS1
    have h4 := ih (pos + 1) (b.set (pos + 1) ((b.ring (pos + 1) + 1) % 256)) (by omega)
      (by omega)
    have h5 : 5 - pos = (5 - (pos + 1)) + 1 := by omega
    rw [h5, Nat.succ_mul, Nat.mul_succ]
    omega

theorem pitSum_sowFinish (q : Nat) (m : Board) :
    (sowFinish q m).1 = m ∨ pitSum (sowFinish q m).1 < pitSum m := by
  unfold sowFinish
  split_ifs with h1 h2
  · exact Or.inl rfl
  · right
    obtain ⟨hq, hone⟩ := h2
    simp only [PITS, Board.pit] at hq hone
    simp only [pitSum_eq, Board.set_ring, PITS, HALF, Nat.reduceAdd]
    interval_cases q <;> simp <;> omega
  · exact Or.inl rfl

theorem set_zero_measure (b : Board) (p : Nat) (hp : p < 6) :
    pitSum (b.set p 0) + b.ring p = pitSum b ∧
    dist (b.set p 0) + b.ring p * (5 - p) = dist b := by
  simp only [pitSum_eq, dist_eq, Board.set_ring]
  interval_cases p <;> simp <;> omega

theorem sow_lex (b : Board) (p : Nat) (hp : p < PITS) (hne : b.pit p ≠ 0) :
    pitSum (sow b p).1 < pitSum b ∨
    (pitSum (sow b p).1 = pitSum b ∧ dist (sow b p).1 < dist b) := by
  simp only [PITS, Board.pit] at hp hne
  obtain ⟨hS0, hT0⟩ := set_zero_measure b p hp
  rw [sow_eq_landing]
  have hfin := pitSum_sowFinish (landing b p).1 (landing b p).2
  have hA := pitSum_sowLoop (b.ring p) p (b.set p 0)
  by_cases hrow : p + b.ring p ≤ 5
  · have hB := dist_sowLoop_row (b.ring p) p (b.set p 0) hrow
    rcases hfin with hfin | hfin
    · rw [hfin]
      simp only [landing, Board.pit]
      by_cases hS : pitSum (sowLoop (b.ring p) p (b.set p 0)).2 = pitSum (b.set p 0) + b.ring p
      · right
        have := hB hS
        omega
      · left
        omega
    · left
      simp only [landing, Board.pit] at hfin ⊢
      omega
  · have hA2 := pitSum_sowLoop_store (b.ring p) p (b.set p 0) (by omega) (by omega)
    left
    rcases hfin with hfin | hfin
    · rw [hfin]
      simp only [landing, Board.pit]
      omega
    · simp only [landing, Board.pit] at hfin ⊢
      omega

theorem child_measure (b : Board) (p : Nat) :
    pitSum (child b p) = pitSum (sow b p).1 ∧ dist (child b p) = dist (sow b p).1 := by
  unfold child
  simp only
  split_ifs
  · exact ⟨rfl, rfl⟩
  · exact ⟨pitSum_flip _, dist_flip _⟩

theorem rank_child (b : Board) (p : Nat) (hp : p < PITS) (hne : b.pit p ≠ 0) :
    rank (child b p) < rank b := by
  obtain ⟨hS, hT⟩ := child_measure b p
  have hlex := sow_lex b p hp hne
  have hle := dist_le (child b p)
  unfold rank
  rw [← hS, ← hT] at hlex
  rcases hlex with h | ⟨h1, h2⟩
  · have h3 : (pitSum (child b p) + 1) * (pitSum (child b p) + 1) ≤ pitSum b * pitSum b :=
      Nat.mul_le_mul h h
    nlinarith
  · rw [h1]
    omega

/-! ## The longest game -/

theorem foldMax_ge (g : Nat → Nat) (b : Board) (l : List Nat) : ∀ m : Nat,
    m ≤ l.foldl (fun m p => if b.pit p ≠ 0 then max m (g p) else m) m := by
  induction l with
  | nil => intro m; exact le_refl _
  | cons a l ih =>
    intro m
    simp only [List.foldl_cons]
    split_ifs with h
    · exact le_trans (le_max_left _ _) (ih _)
    · exact ih _

theorem foldMax_le (g : Nat → Nat) (b : Board) (l : List Nat) : ∀ (m p : Nat), p ∈ l →
    b.pit p ≠ 0 → g p ≤ l.foldl (fun m p => if b.pit p ≠ 0 then max m (g p) else m) m := by
  induction l with
  | nil => intro m p hp; simp at hp
  | cons a l ih =>
    intro m p hp hne
    simp only [List.foldl_cons]
    rcases List.mem_cons.1 hp with rfl | hp
    · rw [if_pos hne]
      exact le_trans (le_max_right _ _) (foldMax_ge g b l _)
    · exact ih _ p hp hne

theorem foldMax_congr (g g1 : Nat → Nat) (b : Board) (l : List Nat)
    (h : ∀ p, p ∈ l → b.pit p ≠ 0 → g p = g1 p) : ∀ m : Nat,
    l.foldl (fun m p => if b.pit p ≠ 0 then max m (g p) else m) m
      = l.foldl (fun m p => if b.pit p ≠ 0 then max m (g1 p) else m) m := by
  induction l with
  | nil => intro m; rfl
  | cons a l ih =>
    intro m
    simp only [List.foldl_cons]
    have ih1 := ih (fun p hp => h p (List.mem_cons_of_mem _ hp))
    split_ifs with hne
    · rw [h a (List.mem_cons_self _ _) hne]
      exact ih1 _
    · exact ih1 _

theorem foldMax_attained (g : Nat → Nat) (b : Board) (l : List Nat) : ∀ m : Nat,
    l.foldl (fun m p => if b.pit p ≠ 0 then max m (g p) else m) m = m ∨
    ∃ p, p ∈ l ∧ b.pit p ≠ 0 ∧
      l.foldl (fun m p => if b.pit p ≠ 0 then max m (g p) else m) m = g p := by
  induction l with
  | nil => intro m; exact Or.inl rfl
  | cons a l ih =>
    intro m
    simp only [List.foldl_cons]
    split_ifs with hne
    · rcases ih (max m (g a)) with h | ⟨p, hp, hpne, h⟩
      · rw [h]
        rcases Nat.le_total m (g a) with hle | hle
        · right
          exact ⟨a, List.mem_cons_self _ _, hne, max_eq_right hle⟩
        · left
          exact max_eq_left hle
      · exact Or.inr ⟨p, List.mem_cons_of_mem _ hp, hpne, h⟩
    · rcases ih m with h | ⟨p, hp, hpne, h⟩
      · exact Or.inl h
      · exact Or.inr ⟨p, List.mem_cons_of_mem _ hp, hpne, h⟩

theorem le_maxOverMoves (g : Nat → Nat) (b : Board) (p : Nat) (hp : p < PITS)
    (hne : b.pit p ≠ 0) : g p ≤ maxOverMoves g b :=
  foldMax_le g b _ 0 p (List.mem_range.2 hp) hne

theorem maxOverMoves_congr (g g1 : Nat → Nat) (b : Board)
    (h : ∀ p, p < PITS → b.pit p ≠ 0 → g p = g1 p) : maxOverMoves g b = maxOverMoves g1 b :=
  foldMax_congr g g1 b _ (fun p hp => h p (List.mem_range.1 hp)) 0

theorem exists_move (b : Board) (h : is_game_over b = false) :
    ∃ p, p < PITS ∧ b.pit p ≠ 0 := by
  rw [is_game_over_eq, ownSum_eq] at h
  simp only [Bool.or_eq_false_iff, decide_eq_false_iff_not] at h
  by_contra hc
  simp only [not_exists, not_and, not_not, PITS, Board.pit] at hc
  have h0 := hc 0 (by omega); have h1 := hc 1 (by omega); have h2 := hc 2 (by omega)
  have h3 := hc 3 (by omega); have h4 := hc 4 (by omega); have h5 := hc 5 (by omega)
  omega

theorem maxOverMoves_attained (g : Nat → Nat) (b : Board) (h : is_game_over b = false)
    (hg : ∀ p, 0 < g p) :
    ∃ p, p < PITS ∧ b.pit p ≠ 0 ∧ maxOverMoves g b = g p := by
  obtain ⟨q, hq, hqne⟩ := exists_move b h
  rcases foldMax_attained g b (List.range PITS) 0 with h0 | ⟨p, hp, hpne, hv⟩
  · have := le_maxOverMoves g b q hq hqne
    have := hg q
    unfold maxOverMoves at *
    omega
  · exact ⟨p, List.mem_range.1 hp, hpne, hv⟩

/-- Any two budgets above `rank b` give the same height. -/
theorem heightFuel_stable (f : Nat) : ∀ (b : Board) (f1 : Nat), rank b < f → rank b < f1 →
    heightFuel f b = heightFuel f1 b := by
  induction f with
  | zero => intro b f1 h; omega
  | succ f ih =>
    intro b f1 h h1
    obtain ⟨f1, rfl⟩ : ∃ k, f1 = k + 1 := ⟨f1 - 1, by omega⟩
    simp only [heightFuel]
    split_ifs with hgo
    · rfl
    · apply maxOverMoves_congr
      intro p hp hne
      have := rank_child b p hp hne
      rw [ih (child b p) f1 (by omega) (by omega)]

theorem height_eq (b : Board) : height b =
    if is_game_over b then 0 else maxOverMoves (fun p => height (child b p) + 1) b := by
  show (if is_game_over b then 0
    else maxOverMoves (fun p => heightFuel (rank b) (child b p) + 1) b) = _
  split_ifs with hgo
  · rfl
  · apply maxOverMoves_congr
    intro p hp hne
    have := rank_child b p hp hne
    rw [heightFuel_stable (rank b) (child b p) (rank (child b p) + 1) this (by omega)]
    rfl

theorem height_game_over (b : Board) (h : is_game_over b = true) : height b = 0 := by
  rw [height_eq, if_pos h]

theorem height_child (b : Board) (p : Nat) (h : is_game_over b = false) (hp : p < PITS)
    (hne : b.pit p ≠ 0) : height (child b p) + 1 ≤ height b := by
  rw [height_eq b, if_neg (by simp [h])]
  exact le_maxOverMoves (fun p => height (child b p) + 1) b p hp hne

theorem height_attained (b : Board) (h : is_game_over b = false) :
    ∃ p, p < PITS ∧ b.pit p ≠ 0 ∧ height b = height (child b p) + 1 := by
  rw [height_eq b, if_neg (by simp [h])]
  exact maxOverMoves_attained _ b h (fun p => Nat.succ_pos _)

theorem height_pos (b : Board) (h : is_game_over b = false) : 1 ≤ height b := by
  obtain ⟨p, _, _, hv⟩ := height_attained b h
  omega

theorem exists_game_of_height (n : Nat) : ∀ b : Board, height b = n →
    ∃ ms : List Nat, CompleteGame b ms ∧ ms.length = n := by
  induction n with
  | zero =>
    intro b h
    refine ⟨[], ?_, rfl⟩
    by_contra hgo
    have := height_pos b (by simpa [CompleteGame] using hgo)
    omega
  | succ n ih =>
    intro b h
    have hgo : is_game_over b = false := by
      by_contra hc
      rw [height_game_over b (by simpa using hc)] at h
      omega
    obtain ⟨p, hp, hne, hv⟩ := height_attained b hgo
    obtain ⟨ms, hms, hlen⟩ := ih (child b p) (by omega)
    exact ⟨p :: ms, ⟨hgo, hp, hne, hms⟩, by simp [hlen]⟩

theorem game_le_height (ms : List Nat) : ∀ b : Board, CompleteGame b ms →
    ms.length ≤ height b := by
  induction ms with
  | nil => intro b _; exact Nat.zero_le _
  | cons p ms ih =>
    intro b h
    obtain ⟨hgo, hp, hne, hms⟩ := h
    have := ih _ hms
    have := height_child b p hgo hp hne
    simp only [List.length_cons]
    omega

/-! ## Solved results of `search` -/

theorem wrap8_le (x : Int) : wrap8 x ≤ 127 := by
  unfold wrap8; omega

theorem wrap8_small (x : Int) (h1 : -1 ≤ x) (h2 : x ≤ 5) : wrap8 x = x := by
  unfold wrap8; omega

theorem TTInv_clear : TTInv 0 tt_clear := by
  intro j
  simp [tt_clear]

theorem TTInv_mono (s s1 : Int) (h : s ≤ s1) (tt : TT) (ht : TTInv s tt) : TTInv s1 tt :=
  fun j => ⟨(ht j).1, fun hu => le_trans ((ht j).2 hu) h⟩

theorem searchMove_child (rec : Board → Int → Int → TT → Result × TT) (board : Board)
    (p : Nat) (a c : Int) (t : TT) :
    ∃ a1 c1 : Int, (searchMove rec board p a c t).2 = (rec (child board p) a1 c1 t).2 ∧
      (searchMove rec board p a c t).1.solved = (rec (child board p) a1 c1 t).1.solved := by
  unfold searchMove child
  by_cases h : (sow board p).2 = true
  · exact ⟨a, c, by simp [h], by simp [h]⟩
  · exact ⟨-c, -a, by simp [h], by simp [h]⟩

theorem loopUpdate_tt (s : LoopState) (pit : Int) (r : Result × TT) :
    (loopUpdate s pit r).tt = r.2 := by
  unfold loopUpdate
  simp only
  split_ifs <;> rfl

theorem loopUpdate_solved (s : LoopState) (pit : Int) (r : Result × TT) :
    (loopUpdate s pit r).solved = (if r.1.solved then s.solved else false) := by
  unfold loopUpdate
  simp only
  split_ifs <;> rfl

theorem loopUpdate_move (s : LoopState) (pit : Int) (r : Result × TT) :
    (loopUpdate s pit r).best_move = pit ∨ (loopUpdate s pit r).best_move = s.best_move := by
  unfold loopUpdate
  by_cases h : r.1.score > s.best_score
  · left; simp only [h, if_true]
  · right; simp only [h, if_false]

theorem searchLoop_inv (P : TT → Prop) (Q : Prop)
    (rec : Board → Int → Int → TT → Result × TT) (board : Board) (hint beta : Int)
    (hhint : hint ≤ 5)
    (hrec : ∀ (p : Nat) (a c : Int) (t : TT), p < PITS → board.pit p ≠ 0 → P t →
      P (rec (child board p) a c t).2 ∧ (Q → (rec (child board p) a c t).1.solved = true)) :
    ∀ (l : List Int) (s : LoopState), (∀ i ∈ l, i ≤ 5) → P s.tt →
      -1 ≤ s.best_move → s.best_move ≤ 5 →
      P (searchLoop rec board hint beta l s).tt ∧
      -1 ≤ (searchLoop rec board hint beta l s).best_move ∧
      (searchLoop rec board hint beta l s).best_move ≤ 5 ∧
      (Q → s.solved = true → (searchLoop rec board hint beta l s).solved = true) := by
  intro l
  induction l with
  | nil => intro s _ hP h1 h2; exact ⟨hP, h1, h2, fun _ h => h⟩
  | cons i rest ih =>
    intro s hl hP h1 h2
    have hrest : ∀ j ∈ rest, j ≤ 5 := fun j hj => hl j (List.mem_cons_of_mem _ hj)
    have hi : i ≤ 5 := hl i (List.mem_cons_self _ _)
    rw [searchLoop]
    by_cases hab : s.alpha < beta
    · rw [if_neg (not_not.2 hab)]
      simp only
      by_cases hskip : (if i < 0 then hint else (PITS : Int) - 1 - i) < 0 ∨
          board.pit (if i < 0 then hint else (PITS : Int) - 1 - i).toNat = 0
      · rw [if_pos hskip]
        exact ih s hrest hP h1 h2
      · rw [if_neg hskip]
        by_cases hdup : 0 ≤ i ∧ (if i < 0 then hint else (PITS : Int) - 1 - i) = hint
        · rw [if_pos hdup]
          exact ih s hrest hP h1 h2
        · rw [if_neg hdup]
          have hpit5 : (if i < 0 then hint else (PITS : Int) - 1 - i) ≤ 5 := by
            split_ifs with c
            · exact hhint
            · simp only [PITS, Nat.cast_ofNat]; omega
          generalize (if i < 0 then hint else (PITS : Int) - 1 - i) = pit at hskip hpit5 ⊢
          have hpit0 : 0 ≤ pit := by
            by_contra hc
            exact hskip (Or.inl (by omega))
          have hne : board.pit pit.toNat ≠ 0 := fun hc => hskip (Or.inr hc)
          have hlt : pit.toNat < PITS := by simp only [PITS]; omega
          obtain ⟨a1, c1, e1, e2⟩ := searchMove_child rec board pit.toNat s.alpha beta s.tt
          obtain ⟨r1, r2⟩ := hrec pit.toNat a1 c1 s.tt hlt hne hP
          have hmv := loopUpdate_move s pit
            (searchMove rec board pit.toNat s.alpha beta s.tt)
          obtain ⟨k1, k2, k3, k4⟩ := ih
            (loopUpdate s pit (searchMove rec board pit.toNat s.alpha beta s.tt)) hrest
            (by rw [loopUpdate_tt, e1]; exact r1)
            (by rcases hmv with h | h <;> rw [h] <;> omega)
            (by rcases hmv with h | h <;> rw [h] <;> omega)
          refine ⟨k1, k2, k3, fun hQ hs => k4 hQ ?_⟩
          rw [loopUpdate_solved, e2, r2 hQ]
          simpa using hs
    · rw [if_pos hab]
      exact ⟨hP, h1, h2, fun _ h => h⟩

theorem searchFinish_inv (s : Int) (depth : Int) (hash idx : Nat) (hit : Bool)
    (sd oa beta : Int) (st : LoopState) (ht : TTInv s st.tt)
    (h1 : -1 ≤ st.best_move) (h2 : st.best_move ≤ 5)
    (hd : st.solved = true ∨ 127 ≤ s) :
    TTInv s (searchFinish depth hash idx hit sd oa beta st).2 ∧
    (searchFinish depth hash idx hit sd oa beta st).1.solved = st.solved := by
  unfold searchFinish
  simp only
  by_cases hw : st.solved = true ∨
      ((hit = false ∨ depth ≥ (st.tt idx).depth) ∧ (st.tt idx).solved = false)
  · rw [if_pos hw]
    refine ⟨fun j => ?_, rfl⟩
    by_cases hj : j = idx
    · simp only [hj, if_true]
      refine ⟨by rw [wrap8_small _ h1 h2]; exact h2, fun hu => ?_⟩
      rcases hd with hd | hd
      · rw [hd] at hu; exact absurd hu (by simp)
      · exact le_trans (wrap8_le _) hd
    · simp only [hj, if_false]
      exact ht j
  · rw [if_neg hw]
    exact ⟨ht, rfl⟩

theorem searchBody_inv (s : Int) (hs : 0 ≤ s)
    (rec : Board → Int → Int → TT → Result × TT) (depth : Int) (b : Board)
    (alpha beta : Int) (tt : TT)
    (hrec : 0 < depth → is_game_over b = false →
      ∀ (p : Nat) (a c : Int) (t : TT), p < PITS → b.pit p ≠ 0 → TTInv s t →
      TTInv s (rec (child b p) a c t).2 ∧
      ((height b : Int) + s ≤ depth → (rec (child b p) a c t).1.solved = true))
    (ht : TTInv s tt) (hcase : (height b : Int) + s ≤ depth ∨ 127 ≤ s) :
    TTInv s (searchBody rec depth b alpha beta tt).2 ∧
    ((height b : Int) + s ≤ depth → (searchBody rec depth b alpha beta tt).1.solved = true) := by
  unfold searchBody
  by_cases hgo : is_game_over b = true
  · rw [if_pos hgo]
    exact ⟨ht, fun _ => rfl⟩
  rw [if_neg hgo]
  have hpos : (1 : Int) ≤ height b := by
    have := height_pos b (by simpa using hgo)
    omega
  simp only
  generalize (hash_board b >>> 40) &&& (TT_SIZE - 1) = idx
  have hhint : (if decide ((tt idx).key = hash_board b) = true then (tt idx).move else -1)
      ≤ 5 := by
    split_ifs
    · exact (ht idx).1
    · omega
  generalize (if decide ((tt idx).key = hash_board b) = true then (tt idx).move else -1)
    = hint at hhint ⊢
  split_ifs with h1 h2
  · refine ⟨ht, fun hd => ?_⟩
    simp only
    rcases h1.2.1 with hsol | hdep
    · exact hsol
    · by_contra hc
      have := (ht idx).2 (by simpa using hc)
      omega
  · exact ⟨ht, fun hd => by omega⟩
  · have hloop := searchLoop_inv (TTInv s) ((height b : Int) + s ≤ depth) rec b hint beta hhint
      (hrec (by omega) (by simpa using hgo)) [-1, 0, 1, 2, 3, 4, 5] ⟨alpha, -100, -1, true, tt⟩
      (by intro i hi; simp at hi; omega) ht (by simp) (by simp)
    obtain ⟨k1, k2, k3, k4⟩ := hloop
    have hfin := searchFinish_inv s depth (hash_board b) idx
      (decide ((tt idx).key = hash_board b)) ((b.store : Int) - (b.opp_store : Int)) alpha beta
      _ k1 k2 k3
      (by
        rcases hcase with hc | hc
        · exact Or.inl (k4 hc rfl)
        · exact Or.inr hc)
    refine ⟨hfin.1, fun hd => ?_⟩
    rw [hfin.2]
    exact k4 hd rfl

/-- Entries stay within the invariant, and a search whose depth covers the longest game
(plus the slack `s`) returns a solved result. -/
theorem search_inv (s : Int) (hs : 0 ≤ s) (d : Nat) : ∀ (b : Board) (alpha beta : Int)
    (tt : TT), TTInv s tt → ((height b : Int) + s ≤ d ∨ 127 ≤ s) →
    TTInv s (search d b alpha beta tt).2 ∧
    ((height b : Int) + s ≤ d → (search d b alpha beta tt).1.solved = true) := by
  induction d with
  | zero =>
    intro b alpha beta tt ht hcase
    rw [search]
    exact searchBody_inv s hs _ 0 b alpha beta tt (fun h => absurd h (by omega)) ht
      (by simpa using hcase)
  | succ d ih =>
    intro b alpha beta tt ht hcase
    rw [search]
    have hb := searchBody_inv s hs (search d) ((d : Int) + 1) b alpha beta tt
      (fun _ hgo p a c t hp hne hP => by
        have hch := height_child b p hgo hp hne
        have := ih (child b p) a c t hP (by
          rcases hcase with hc | hc
          · left; push_cast at hc; omega
          · exact Or.inr hc)
        exact ⟨this.1, fun hd => this.2 (by omega)⟩)
      ht (by push_cast at hcase; exact hcase)
    push_cast
    exact hb

theorem search_full_loop_solved (b : Board) (k : Nat) : ∀ (d : Nat) (tt : TT), TTInv 127 tt →
    height b + 127 ≤ d + k →
    ∃ r, search_full_loop (k + 1) d b tt = some r ∧ r.1.solved = true := by
  induction k with
  | zero =>
    intro d tt ht hd
    have h := (search_inv 127 (by omega) d b (-36) 36 tt ht (Or.inr (le_refl _))).2
      (by omega)
    exact ⟨search d b (-36) 36 tt, by simp [search_full_loop, h], h⟩
  | succ k ih =>
    intro d tt ht hd
    by_cases h : (search d b (-36) 36 tt).1.solved = true
    · exact ⟨search d b (-36) 36 tt, by simp [search_full_loop, h], h⟩
    · have ht1 := (search_inv 127 (by omega) d b (-36) 36 tt ht (Or.inr (le_refl _))).1
      obtain ⟨r, hr, hs⟩ := ih (d + 1) _ ht1 (by omega)
      refine ⟨r, ?_, hs⟩
      rw [search_full_loop]
      simp only [h]
      exact hr

/-! ## The hash is injective on boards with at most 36 seeds in the pits -/

set_option maxRecDepth 100000 in
theorem hashCert_ok : enumCheck [] hashCert = true := by decide!

theorem l1_nonneg (s : List Int) : 0 ≤ l1 s := by
  induction s with
  | nil => simp [l1]
  | cons a as ih => simp only [l1]; positivity

theorem supNorm_nonneg (w : List Int) : 0 ≤ supNorm w := by
  induction w with
  | nil => simp [supNorm]
  | cons a as ih => simp only [supNorm]; exact le_max_of_le_right ih

theorem dot_abs_le (s : List Int) : ∀ w : List Int, |dot s w| ≤ l1 s * supNorm w := by
  induction s with
  | nil =>
    intro w
    simp [dot, l1]
  | cons a as ih =>
    intro w
    cases w with
    | nil =>
      simp only [dot, abs_zero]
      exact mul_nonneg (l1_nonneg _) (supNorm_nonneg _)
    | cons b bs =>
      simp only [dot, l1, supNorm]
      have h1 := ih bs
      have h2 : |a * b| ≤ |a| * max |b| (supNorm bs) := by
        rw [abs_mul]
        exact mul_le_mul_of_nonneg_left (le_max_left _ _) (abs_nonneg a)
      have h3 : l1 as * supNorm bs ≤ l1 as * max |b| (supNorm bs) :=
        mul_le_mul_of_nonneg_left (le_max_right _ _) (l1_nonneg _)
      calc |a * b + dot as bs| ≤ |a * b| + |dot as bs| := abs_add _ _
        _ ≤ |a| * max |b| (supNorm bs) + l1 as * max |b| (supNorm bs) := by linarith
        _ = (|a| + l1 as) * max |b| (supNorm bs) := by ring

theorem dot_vadd (s : List Int) : ∀ a b : List Int, a.length = b.length →
    dot s (vadd a b) = dot s a + dot s b := by
  induction s with
  | nil => intro a b _; simp [dot]
  | cons x xs ih =>
    intro a b h
    cases a with
    | nil =>
      cases b with
      | nil => simp [dot, vadd]
      | cons _ _ => simp at h
    | cons a0 as =>
      cases b with
      | nil => simp at h
      | cons b0 bs =>
        simp only [vadd, List.zipWith_cons_cons, dot]
        have := ih as bs (by simpa using h)
        simp only [vadd] at this
        rw [this]
        ring

theorem dot_vsub (s : List Int) : ∀ a b : List Int, a.length = b.length →
    dot s (vsub a b) = dot s a - dot s b := by
  induction s with
  | nil => intro a b _; simp [dot]
  | cons x xs ih =>
    intro a b h
    cases a with
    | nil =>
      cases b with
      | nil => simp [dot, vsub]
      | cons _ _ => simp at h
    | cons a0 as =>
      cases b with
      | nil => simp at h
      | cons b0 bs =>
        simp only [vsub, List.zipWith_cons_cons, dot]
        have := ih as bs (by simpa using h)
        simp only [vsub] at this
        rw [this]
        ring

theorem vadd_length (a b : List Int) (h : a.length = b.length) :
    (vadd a b).length = a.length := by
  simp [vadd, h]

theorem vsub_length (a b : List Int) (h : a.length = b.length) :
    (vsub a b).length = a.length := by
  simp [vsub, h]

/-- A dual vector maps every vector of the lattice to a multiple of `HN`. -/
theorem dot_dual (t : Int) (s : List Int) : ∀ w : List Int, w.length = s.length →
    dualOK t w = true → HN ∣ dot s w - t * lin s := by
  induction s with
  | nil => intro w _ _; simp [dot, lin]
  | cons a as ih =>
    intro w hl hd
    cases w with
    | nil => simp at hl
    | cons x ws =>
      have hlen : ws.length = as.length := by simpa using hl
      simp only [dualOK, Bool.and_eq_true, decide_eq_true_eq] at hd
      have h1 : HN ∣ x - t * HM ^ (ws.length + 1) := Int.dvd_of_emod_eq_zero hd.1
      have h2 := ih ws hlen hd.2
      simp only [dot, lin]
      rw [← hlen]
      have e : a * x + dot as ws - t * (a * HM ^ (ws.length + 1) + lin as)
          = a * (x - t * HM ^ (ws.length + 1)) + (dot as ws - t * lin as) := by ring
      rw [e]
      exact dvd_add (Dvd.dvd.mul_left h1 a) h2

/-- The coefficient of a lattice vector along a dual vector is at most `kappa`. -/
theorem coef_le_kappa (s w : List Int) (q : Int) (hs : l1 s ≤ 72) (h : dot s w = HN * q) :
    |q| ≤ kappa w := by
  have h1 := dot_abs_le s w
  have h2 : l1 s * supNorm w ≤ 72 * supNorm w :=
    mul_le_mul_of_nonneg_right hs (supNorm_nonneg w)
  have hN : (0 : Int) < HN := by norm_num
  rw [h, abs_mul, abs_of_pos hN] at h1
  unfold kappa
  rw [Int.le_ediv_iff_mul_le hN]
  linarith

theorem mem_range5 (q : Int) (h : |q| ≤ 2) : q ∈ ([-2, -1, 0, 1, 2] : List Int) := by
  rw [abs_le] at h
  obtain ⟨h1, h2⟩ := h
  interval_cases q <;> simp

theorem enum_sound (s : List Int) (hlen : s.length = 12) (hs : l1 s ≤ 72)
    (hlin : HN ∣ lin s) : ∀ (todo done : List (Int × List Int × List Int)),
    enumCheck done todo = true →
    (∀ d ∈ done, d.2.1.length = 12 ∧ dot s d.2.1 = HN * d.1) →
    (∀ r ∈ todo, dot s r.2.1 = HN * (dot s r.2.1 / HN)) ∧
      leafOK (assemble (todo.map (fun r => dot s r.2.1 / HN)) todo done) = true := by
  intro todo
  induction todo with
  | nil =>
    intro done h _
    exact ⟨by simp, by simpa [enumCheck, assemble] using h⟩
  | cons r rest ih =>
    intro done h hdone
    obtain ⟨t, w, b⟩ := r
    simp only [enumCheck, Bool.and_eq_true, decide_eq_true_eq, List.all_eq_true,
      Bool.or_eq_true, Bool.not_eq_true'] at h
    obtain ⟨⟨⟨hdual, hwl⟩, hk⟩, hall⟩ := h
    have hd := dot_dual t s w (by rw [hwl, hlen]) hdual
    have hdvd : HN ∣ dot s w := by
      have := dvd_add hd (Dvd.dvd.mul_left hlin t)
      simpa using this
    have hq : dot s w = HN * (dot s w / HN) := (Int.mul_ediv_cancel' hdvd).symm
    generalize hqd : dot s w / HN = q at hq
    have hqk := coef_le_kappa s w q hs hq
    have hprune : pruneOK q w done = true := by
      simp only [pruneOK, Bool.and_eq_true, decide_eq_true_eq, List.all_eq_true]
      refine ⟨hqk, fun d hdm => ?_⟩
      obtain ⟨hl, he⟩ := hdone d hdm
      constructor
      · apply coef_le_kappa s _ _ hs
        rw [dot_vadd s _ _ (by rw [hl, hwl]), he, hq]
        ring
      · apply coef_le_kappa s _ _ hs
        rw [dot_vsub s _ _ (by rw [hl, hwl]), he, hq]
        ring
    rcases hall q (mem_range5 q (le_trans hqk hk)) with hf | ht
    · rw [hprune] at hf
      exact absurd hf (by simp)
    · obtain ⟨hcs, hleaf⟩ := ih ((q, w, b) :: done) ht (by
        intro d hdm
        rcases List.mem_cons.1 hdm with rfl | hdm
        · exact ⟨hwl, hq⟩
        · exact hdone d hdm)
      refine ⟨fun r hr => ?_, by simpa [assemble, hqd] using hleaf⟩
      rcases List.mem_cons.1 hr with rfl | hr
      · rw [hqd]; exact hq
      · exact hcs r hr

theorem list12 (s : List Int) (h : s.length = 12) :
    ∃ a1 a2 a3 a4 a5 a6 a7 a8 a9 a10 a11 a12 : Int,
      s = [a1, a2, a3, a4, a5, a6, a7, a8, a9, a10, a11, a12] := by
  rcases s with _ | ⟨a1, s⟩
  · simp at h
  rcases s with _ | ⟨a2, s⟩
  · simp at h
  rcases s with _ | ⟨a3, s⟩
  · simp at h
  rcases s with _ | ⟨a4, s⟩
  · simp at h
  rcases s with _ | ⟨a5, s⟩
  · simp at h
  rcases s with _ | ⟨a6, s⟩
  · simp at h
  rcases s with _ | ⟨a7, s⟩
  · simp at h
  rcases s with _ | ⟨a8, s⟩
  · simp at h
  rcases s with _ | ⟨a9, s⟩
  · simp at h
  rcases s with _ | ⟨a10, s⟩
  · simp at h
  rcases s with _ | ⟨a11, s⟩
  · simp at h
  rcases s with _ | ⟨a12, s⟩
  · simp at h
  rcases s with _ | ⟨x, s⟩
  · exact ⟨a1, a2, a3, a4, a5, a6, a7, a8, a9, a10, a11, a12, rfl⟩
  · simp only [List.length_cons] at h
    omega

theorem leafvec (c1 c2 c3 c4 c5 c6 c7 c8 c9 c10 c11 c12 : Int) :
    List.foldl (fun (v : List Int) (d : Int × List Int × List Int) => vadd v (vsmul d.1 d.2.2))
      (List.replicate 12 0)
    [(c12, [(-29863581387425531), 38893052065451255, (-271886171815626275), (-75584890524645313), (-207772794510267403), (-63890932654599865), (-120040750112832179), 212789625033734671, 189087972999220197, 16725756314775, 74288401969894845, 140208595658908383], [(-2), 17, (-34), (-19), 1, (-4), (-22), 15, (-2), (-5), 17, 2]),
     (c11, [(-18037518770133140), (-360096511377773916), (-44511315923318772), (-156606746987525756), (-168674439270235220), 133554440952680804, 32034934944596556, 205228689755093572, 24160495360814060, 140377461302524964, 57436931831801996, (-150168198322319612)], [0, (-19), (-2), (-15), 10, 15, 11, 21, (-19), 32, 21, 7]),
     (c10, [(-256286473010146829), (-203878937771919951), (-119973855656226469), (-126394307736130263), (-396211010847236733), (-176106354095439647), 178210418970808427, 100371574581513945, 41179750739538963, (-24118005071821551), (-82737622993649029), (-26041841541635703)], [(-26), (-10), 20, 22, (-15), (-25), 15, 17, (-2), (-16), 0, 4]),
     (c9, [(-163255672172960832), 30927845517482304, (-152733435327822400), (-62570397889966272), (-56153053472467008), (-113873961465014976), 131021811455384000, 24120912981502784, 272261574829427648, 287252763690307904, (-171640757901414976), (-107027930927839424)], [0, 20, 1, 7, 7, (-4), 15, 23, 11, 25, (-23), (-16)]),
     (c8, [(-62052740271623271), 59539098179131475, (-170201411943906351), (-117098241752087365), (-218415492926379447), (-109088974204709405), 354566761743529217, (-241198603625224757), 152928780057297401, 110565981813014131, 176672929716649777, (-46114838065391141)], [(-10), 11, (-17), (-6), 0, 26, 21, (-17), 13, (-19), 24, (-16)]),
     (c7, [225928716598025876, 13406033682962268, 265747593682374132, 50898843958143100, 67107723403289172, 303384596447285404, (-165061984430345292), 379618859996583868, 45631518930524692, (-292175881602873892), 51519654794210676, (-99107657847135492)], [20, 1, 7, 7, (-4), 15, 23, 11, 25, (-23), (-16), 0]),
     (c6, [251931441916127967, 254349808572932309, 297244416971013863, 55885849907868461, 285765191483939503, (-81232406073611579), (-8428207322709961), 91216568411282845, (-265765014364282497), (-186624183034089035), 241319249549156487, (-191692312962769651)], [14, 9, 1, (-10), 9, (-27), 12, 23, (-18), 8, 7, (-6)]),
     (c5, [(-58978721040543509), 132625570264691801, 42145072402296979, (-7358884858986863), (-81871402477593861), 247313134795591433, (-27180761146951133), 85722987588613057, (-412708449636063221), (-157466586221163847), (-196527956663669069), (-81975335860616719)], [(-20), 16, (-23), (-7), 7, 24, 6, 5, (-19), (-7), (-3), (-11)]),
     (c4, [98953802404979155, 9201245056781393, 74269180347122235, 453891180140048073, 389883093176395619, 112496769154307457, (-231937016884761781), 139718508545662585, (-22119603043100685), (-93149887118215247), 225320532154361691, (-144077355601273047)], [(-6), (-1), (-5), 42, (-12), 2, (-4), 1, (-2), 7, 11, (-13)]),
     (c3, [(-82787805669918610), 185692907710931770, 387844378346289918, 154692156241955690, 606577515905759502, 142051814267019802, (-267144159802468706), 160083574630003530, 89662550155679662, (-161067474872505606), 224679938015338558, 20569087845684522], [(-31), 7, 16, (-8), 8, 10, 3, 8, 0, 8, 17, 16]),
     (c2, [(-75809377892646304), (-267603829884624352), 124183027881906016, 18353085230805280, 489994389829121120, 7684735818729504, (-253179122296868512), 155515198415922976, 127895556051863136, (-182915227450356192), 41327586526114656, (-377350094896366304)], [(-3), (-3), (-12), (-16), 4, (-3), (-21), (-18), 8, (-20), (-3), (-27)]),
     (c1, [(-64455004931613968), (-159061152961692592), (-231447815772900496), 203580501054204368, 546340544583796720, (-135994259436278960), 76409591312152688, (-52849558586187568), 112511240058135792, (-63037423644235184), (-26861957718872720), 161929411342002128], [5, (-7), (-14), (-1), 20, 1, 26, 14, (-4), (-7), (-6), 15])]
    = [0 + c12 * (-2) + c11 * 0 + c10 * (-26) + c9 * 0 + c8 * (-10) + c7 * 20 + c6 * 14 + c5 * (-20) + c4 * (-6) + c3 * (-31) + c2 * (-3) + c1 * 5,
      0 + c12 * 17 + c11 * (-19) + c10 * (-10) + c9 * 20 + c8 * 11 + c7 * 1 + c6 * 9 + c5 * 16 + c4 * (-1) + c3 * 7 + c2 * (-3) + c1 * (-7),
      0 + c12 * (-34) + c11 * (-2) + c10 * 20 + c9 * 1 + c8 * (-17) + c7 * 7 + c6 * 1 + c5 * (-23) + c4 * (-5) + c3 * 16 + c2 * (-12) + c1 * (-14),
      0 + c12 * (-19) + c11 * (-15) + c10 * 22 + c9 * 7 + c8 * (-6) + c7 * 7 + c6 * (-10) + c5 * (-7) + c4 * 42 + c3 * (-8) + c2 * (-16) + c1 * (-1),
      0 + c12 * 1 + c11 * 10 + c10 * (-15) + c9 * 7 + c8 * 0 + c7 * (-4) + c6 * 9 + c5 * 7 + c4 * (-12) + c3 * 8 + c2 * 4 + c1 * 20,
      0 + c12 * (-4) + c11 * 15 + c10 * (-25) + c9 * (-4) + c8 * 26 + c7 * 15 + c6 * (-27) + c5 * 24 + c4 * 2 + c3 * 10 + c2 * (-3) + c1 * 1,
      0 + c12 * (-22) + c11 * 11 + c10 * 15 + c9 * 15 + c8 * 21 + c7 * 23 + c6 * 12 + c5 * 6 + c4 * (-4) + c3 * 3 + c2 * (-21) + c1 * 26,
      0 + c12 * 15 + c11 * 21 + c10 * 17 + c9 * 23 + c8 * (-17) + c7 * 11 + c6 * 23 + c5 * 5 + c4 * 1 + c3 * 8 + c2 * (-18) + c1 * 14,
      0 + c12 * (-2) + c11 * (-19) + c10 * (-2) + c9 * 11 + c8 * 13 + c7 * 25 + c6 * (-18) + c5 * (-19) + c4 * (-2) + c3 * 0 + c2 * 8 + c1 * (-4),
      0 + c12 * (-5) + c11 * 32 + c10 * (-16) + c9 * 25 + c8 * (-19) + c7 * (-23) + c6 * 8 + c5 * (-7) + c4 * 7 + c3 * 8 + c2 * (-20) + c1 * (-7),
      0 + c12 * 17 + c11 * 21 + c10 * 0 + c9 * (-23) + c8 * 24 + c7 * (-16) + c6 * 7 + c5 * (-3) + c4 * 11 + c3 * 17 + c2 * (-3) + c1 * (-6),
      0 + c12 * 2 + c11 * 7 + c10 * 4 + c9 * (-16) + c8 * (-16) + c7 * 0 + c6 * (-6) + c5 * (-11) + c4 * (-13) + c3 * 16 + c2 * (-27) + c1 * 15] := by
  rfl

/-- The lattice of hash differences has no non-zero vector of `l1` norm at most 72. -/
theorem no_short_vector (s : List Int) (hlen : s.length = 12) (hs : l1 s ≤ 72)
    (hlin : HN ∣ lin s) : ∀ x ∈ s, x = 0 := by
  obtain ⟨hcs, hleaf⟩ := enum_sound s hlen hs hlin hashCert [] hashCert_ok (by simp)
  obtain ⟨a1, a2, a3, a4, a5, a6, a7, a8, a9, a10, a11, a12, rfl⟩ := list12 s hlen
  simp only [hashCert, List.mem_cons, List.mem_singleton, forall_eq_or_imp, forall_eq,
    List.not_mem_nil, false_implies, implies_true, and_true, List.map_cons, List.map_nil,
    assemble] at hcs hleaf
  generalize dot [a1, a2, a3, a4, a5, a6, a7, a8, a9, a10, a11, a12]
    [(-64455004931613968), (-159061152961692592), (-231447815772900496), 203580501054204368, 546340544583796720, (-135994259436278960), 76409591312152688, (-52849558586187568), 112511240058135792, (-63037423644235184), (-26861957718872720), 161929411342002128] / HN = c1 at hcs hleaf
  generalize dot [a1, a2, a3, a4, a5, a6, a7, a8, a9, a10, a11, a12]
    [(-75809377892646304), (-267603829884624352), 124183027881906016, 18353085230805280, 489994389829121120, 7684735818729504, (-253179122296868512), 155515198415922976, 127895556051863136, (-182915227450356192), 41327586526114656, (-377350094896366304)] / HN = c2 at hcs hleaf
  generalize dot [a1, a2, a3, a4, a5, a6, a7, a8, a9, a10, a11, a12]
    [(-82787805669918610), 185692907710931770, 387844378346289918, 154692156241955690, 606577515905759502, 142051814267019802, (-267144159802468706), 160083574630003530, 89662550155679662, (-161067474872505606), 224679938015338558, 20569087845684522] / HN = c3 at hcs hleaf
  generalize dot [a1, a2, a3, a4, a5, a6, a7, a8, a9, a10, a11, a12]
    [98953802404979155, 9201245056781393, 74269180347122235, 453891180140048073, 389883093176395619, 112496769154307457, (-231937016884761781), 139718508545662585, (-22119603043100685), (-93149887118215247), 225320532154361691, (-144077355601273047)] / HN = c4 at hcs hleaf
  generalize dot [a1, a2, a3, a4, a5, a6, a7, a8, a9, a10, a11, a12]
    [(-58978721040543509), 132625570264691801, 42145072402296979, (-7358884858986863), (-81871402477593861), 247313134795591433, (-27180761146951133), 85722987588613057, (-412708449636063221), (-157466586221163847), (-196527956663669069), (-81975335860616719)] / HN = c5 at hcs hleaf
  generalize dot [a1, a2, a3, a4, a5, a6, a7, a8, a9, a10, a11, a12]
    [251931441916127967, 254349808572932309, 297244416971013863, 55885849907868461, 285765191483939503, (-81232406073611579), (-8428207322709961), 91216568411282845, (-265765014364282497), (-186624183034089035), 241319249549156487, (-191692312962769651)] / HN = c6 at hcs hleaf
  generalize dot [a1, a2, a3, a4, a5, a6, a7, a8, a9, a10, a11, a12]
    [225928716598025876, 13406033682962268, 265747593682374132, 50898843958143100, 67107723403289172, 303384596447285404, (-165061984430345292), 379618859996583868, 45631518930524692, (-292175881602873892), 51519654794210676, (-99107657847135492)] / HN = c7 at hcs hleaf
  generalize dot [a1, a2, a3, a4, a5, a6, a7, a8, a9, a10, a11, a12]
    [(-62052740271623271), 59539098179131475, (-170201411943906351), (-117098241752087365), (-218415492926379447), (-109088974204709405), 354566761743529217, (-241198603625224757), 152928780057297401, 110565981813014131, 176672929716649777, (-46114838065391141)] / HN = c8 at hcs hleaf
  generalize dot [a1, a2, a3, a4, a5, a6, a7, a8, a9, a10, a11, a12]
    [(-163255672172960832), 30927845517482304, (-152733435327822400), (-62570397889966272), (-56153053472467008), (-113873961465014976), 131021811455384000, 24120912981502784, 272261574829427648, 287252763690307904, (-171640757901414976), (-107027930927839424)] / HN = c9 at hcs hleaf
  generalize dot [a1, a2, a3, a4, a5, a6, a7, a8, a9, a10, a11, a12]
    [(-256286473010146829), (-203878937771919951), (-119973855656226469), (-126394307736130263), (-396211010847236733), (-176106354095439647), 178210418970808427, 100371574581513945, 41179750739538963, (-24118005071821551), (-82737622993649029), (-26041841541635703)] / HN = c10 at hcs hleaf
  generalize dot [a1, a2, a3, a4, a5, a6, a7, a8, a9, a10, a11, a12]
    [(-18037518770133140), (-360096511377773916), (-44511315923318772), (-156606746987525756), (-168674439270235220), 133554440952680804, 32034934944596556, 205228689755093572, 24160495360814060, 140377461302524964, 57436931831801996, (-150168198322319612)] / HN = c11 at hcs hleaf
  generalize dot [a1, a2, a3, a4, a5, a6, a7, a8, a9, a10, a11, a12]
    [(-29863581387425531), 38893052065451255, (-271886171815626275), (-75584890524645313), (-207772794510267403), (-63890932654599865), (-120040750112832179), 212789625033734671, 189087972999220197, 16725756314775, 74288401969894845, 140208595658908383] / HN = c12 at hcs hleaf
  obtain ⟨e1, e2, e3, e4, e5, e6, e7, e8, e9, e10, e11, e12⟩ := hcs
  simp only [dot] at e1 e2 e3 e4 e5 e6 e7 e8 e9 e10 e11 e12
  have hN : (HN : Int) ≠ 0 := by norm_num
  have k1 : a1 = c1 * 5 + c2 * (-3) + c3 * (-31) + c4 * (-6) + c5 * (-20) + c6 * 14 + c7 * 20 + c8 * (-10) + c9 * 0 + c10 * (-26) + c11 * 0 + c12 * (-2) := by
    apply mul_left_cancel₀ hN
    linear_combination 5 * e1 + (-3) * e2 + (-31) * e3 + (-6) * e4 + (-20) * e5 + 14 * e6 + 20 * e7 + (-10) * e8 + 0 * e9 + (-26) * e10 + 0 * e11 + (-2) * e12
  have k2 : a2 = c1 * (-7) + c2 * (-3) + c3 * 7 + c4 * (-1) + c5 * 16 + c6 * 9 + c7 * 1 + c8 * 11 + c9 * 20 + c10 * (-10) + c11 * (-19) + c12 * 17 := by
    apply mul_left_cancel₀ hN
    linear_combination (-7) * e1 + (-3) * e2 + 7 * e3 + (-1) * e4 + 16 * e5 + 9 * e6 + 1 * e7 + 11 * e8 + 20 * e9 + (-10) * e10 + (-19) * e11 + 17 * e12
  have k3 : a3 = c1 * (-14) + c2 * (-12) + c3 * 16 + c4 * (-5) + c5 * (-23) + c6 * 1 + c7 * 7 + c8 * (-17) + c9 * 1 + c10 * 20 + c11 * (-2) + c12 * (-34) := by
    apply mul_left_cancel₀ hN
    linear_combination (-14) * e1 + (-12) * e2 + 16 * e3 + (-5) * e4 + (-23) * e5 + 1 * e6 + 7 * e7 + (-17) * e8 + 1 * e9 + 20 * e10 + (-2) * e11 + (-34) * e12
  have k4 : a4 = c1 * (-1) + c2 * (-16) + c3 * (-8) + c4 * 42 + c5 * (-7) + c6 * (-10) + c7 * 7 + c8 * (-6) + c9 * 7 + c10 * 22 + c11 * (-15) + c12 * (-19) := by
    apply mul_left_cancel₀ hN
    linear_combination (-1) * e1 + (-16) * e2 + (-8) * e3 + 42 * e4 + (-7) * e5 + (-10) * e6 + 7 * e7 + (-6) * e8 + 7 * e9 + 22 * e10 + (-15) * e11 + (-19) * e12
  have k5 : a5 = c1 * 20 + c2 * 4 + c3 * 8 + c4 * (-12) + c5 * 7 + c6 * 9 + c7 * (-4) + c8 * 0 + c9 * 7 + c10 * (-15) + c11 * 10 + c12 * 1 := by
    apply mul_left_cancel₀ hN
    linear_combination 20 * e1 + 4 * e2 + 8 * e3 + (-12) * e4 + 7 * e5 + 9 * e6 + (-4) * e7 + 0 * e8 + 7 * e9 + (-15) * e10 + 10 * e11 + 1 * e12
  have k6 : a6 = c1 * 1 + c2 * (-3) + c3 * 10 + c4 * 2 + c5 * 24 + c6 * (-27) + c7 * 15 + c8 * 26 + c9 * (-4) + c10 * (-25) + c11 * 15 + c12 * (-4) := by
    apply mul_left_cancel₀ hN
    linear_combination 1 * e1 + (-3) * e2 + 10 * e3 + 2 * e4 + 24 * e5 + (-27) * e6 + 15 * e7 + 26 * e8 + (-4) * e9 + (-25) * e10 + 15 * e11 + (-4) * e12
  have k7 : a7 = c1 * 26 + c2 * (-21) + c3 * 3 + c4 * (-4) + c5 * 6 + c6 * 12 + c7 * 23 + c8 * 21 + c9 * 15 + c10 * 15 + c11 * 11 + c12 * (-22) := by
    apply mul_left_cancel₀ hN
    linear_combination 26 * e1 + (-21) * e2 + 3 * e3 + (-4) * e4 + 6 * e5 + 12 * e6 + 23 * e7 + 21 * e8 + 15 * e9 + 15 * e10 + 11 * e11 + (-22) * e12
  have k8 : a8 = c1 * 14 + c2 * (-18) + c3 * 8 + c4 * 1 + c5 * 5 + c6 * 23 + c7 * 11 + c8 * (-17) + c9 * 23 + c10 * 17 + c11 * 21 + c12 * 15 := by
    apply mul_left_cancel₀ hN
    linear_combination 14 * e1 + (-18) * e2 + 8 * e3 + 1 * e4 + 5 * e5 + 23 * e6 + 11 * e7 + (-17) * e8 + 23 * e9 + 17 * e10 + 21 * e11 + 15 * e12
  have k9 : a9 = c1 * (-4) + c2 * 8 + c3 * 0 + c4 * (-2) + c5 * (-19) + c6 * (-18) + c7 * 25 + c8 * 13 + c9 * 11 + c10 * (-2) + c11 * (-19) + c12 * (-2) := by
    apply mul_left_cancel₀ hN
    linear_combination (-4) * e1 + 8 * e2 + 0 * e3 + (-2) * e4 + (-19) * e5 + (-18) * e6 + 25 * e7 + 13 * e8 + 11 * e9 + (-2) * e10 + (-19) * e11 + (-2) * e12
  have k10 : a10 = c1 * (-7) + c2 * (-20) + c3 * 8 + c4 * 7 + c5 * (-7) + c6 * 8 + c7 * (-23) + c8 * (-19) + c9 * 25 + c10 * (-16) + c11 * 32 + c12 * (-5) := by
    apply mul_left_cancel₀ hN
    linear_combination (-7) * e1 + (-20) * e2 + 8 * e3 + 7 * e4 + (-7) * e5 + 8 * e6 + (-23) * e7 + (-19) * e8 + 25 * e9 + (-16) * e10 + 32 * e11 + (-5) * e12
  have k11 : a11 = c1 * (-6) + c2 * (-3) + c3 * 17 + c4 * 11 + c5 * (-3) + c6 * 7 + c7 * (-16) + c8 * 24 + c9 * (-23) + c10 * 0 + c11 * 21 + c12 * 17 := by
    apply mul_left_cancel₀ hN
    linear_combination (-6) * e1 + (-3) * e2 + 17 * e3 + 11 * e4 + (-3) * e5 + 7 * e6 + (-16) * e7 + 24 * e8 + (-23) * e9 + 0 * e10 + 21 * e11 + 17 * e12
  have k12 : a12 = c1 * 15 + c2 * (-27) + c3 * 16 + c4 * (-13) + c5 * (-11) + c6 * (-6) + c7 * 0 + c8 * (-16) + c9 * (-16) + c10 * 4 + c11 * 7 + c12 * 2 := by
    apply mul_left_cancel₀ hN
    linear_combination 15 * e1 + (-27) * e2 + 16 * e3 + (-13) * e4 + (-11) * e5 + (-6) * e6 + 0 * e7 + (-16) * e8 + (-16) * e9 + 4 * e10 + 7 * e11 + 2 * e12
  simp only [leafOK, Bool.or_eq_true, decide_eq_true_eq, List.all_cons, List.all_nil,
    Bool.and_eq_true, Bool.and_true] at hleaf
  clear e1 e2 e3 e4 e5 e6 e7 e8 e9 e10 e11 e12
  rcases hleaf with h0 | h73
  · obtain ⟨z12, z11, z10, z9, z8, z7, z6, z5, z4, z3, z2, z1⟩ := h0
    subst z1 z2 z3 z4 z5 z6 z7 z8 z9 z10 z11 z12
    simp only [zero_mul, add_zero] at k1 k2 k3 k4 k5 k6 k7 k8 k9 k10 k11 k12
    intro x hx
    simp only [List.mem_cons, List.mem_singleton, List.not_mem_nil, or_false] at hx
    rcases hx with h | h | h | h | h | h | h | h | h | h | h | h <;> rw [h] <;> assumption
  · exfalso
    rw [leafvec] at h73
    have v1 : 0 + c12 * (-2) + c11 * 0 + c10 * (-26) + c9 * 0 + c8 * (-10) + c7 * 20 + c6 * 14 + c5 * (-20) + c4 * (-6) + c3 * (-31) + c2 * (-3) + c1 * 5 = a1 := by
      rw [k1]; ring
    have v2 : 0 + c12 * 17 + c11 * (-19) + c10 * (-10) + c9 * 20 + c8 * 11 + c7 * 1 + c6 * 9 + c5 * 16 + c4 * (-1) + c3 * 7 + c2 * (-3) + c1 * (-7) = a2 := by
      rw [k2]; ring
    have v3 : 0 + c12 * (-34) + c11 * (-2) + c10 * 20 + c9 * 1 + c8 * (-17) + c7 * 7 + c6 * 1 + c5 * (-23) + c4 * (-5) + c3 * 16 + c2 * (-12) + c1 * (-14) = a3 := by
      rw [k3]; ring
    have v4 : 0 + c12 * (-19) + c11 * (-15) + c10 * 22 + c9 * 7 + c8 * (-6) + c7 * 7 + c6 * (-10) + c5 * (-7) + c4 * 42 + c3 * (-8) + c2 * (-16) + c1 * (-1) = a4 := by
      rw [k4]; ring
    have v5 : 0 + c12 * 1 + c11 * 10 + c10 * (-15) + c9 * 7 + c8 * 0 + c7 * (-4) + c6 * 9 + c5 * 7 + c4 * (-12) + c3 * 8 + c2 * 4 + c1 * 20 = a5 := by
      rw [k5]; ring
    have v6 : 0 + c12 * (-4) + c11 * 15 + c10 * (-25) + c9 * (-4) + c8 * 26 + c7 * 15 + c6 * (-27) + c5 * 24 + c4 * 2 + c3 * 10 + c2 * (-3) + c1 * 1 = a6 := by
      rw [k6]; ring
    have v7 : 0 + c12 * (-22) + c11 * 11 + c10 * 15 + c9 * 15 + c8 * 21 + c7 * 23 + c6 * 12 + c5 * 6 + c4 * (-4) + c3 * 3 + c2 * (-21) + c1 * 26 = a7 := by
      rw [k7]; ring
    have v8 : 0 + c12 * 15 + c11 * 21 + c10 * 17 + c9 * 23 + c8 * (-17) + c7 * 11 + c6 * 23 + c5 * 5 + c4 * 1 + c3 * 8 + c2 * (-18) + c1 * 14 = a8 := by
      rw [k8]; ring
    have v9 : 0 + c12 * (-2) + c11 * (-19) + c10 * (-2) + c9 * 11 + c8 * 13 + c7 * 25 + c6 * (-18) + c5 * (-19) + c4 * (-2) + c3 * 0 + c2 * 8 + c1 * (-4) = a9 := by
      rw [k9]; ring
    have v10 : 0 + c12 * (-5) + c11 * 32 + c10 * (-16) + c9 * 25 + c8 * (-19) + c7 * (-23) + c6 * 8 + c5 * (-7) + c4 * 7 + c3 * 8 + c2 * (-20) + c1 * (-7) = a10 := by
      rw [k10]; ring
    have v11 : 0 + c12 * 17 + c11 * 21 + c10 * 0 + c9 * (-23) + c8 * 24 + c7 * (-16) + c6 * 7 + c5 * (-3) + c4 * 11 + c3 * 17 + c2 * (-3) + c1 * (-6) = a11 := by
      rw [k11]; ring
    have v12 : 0 + c12 * 2 + c11 * 7 + c10 * 4 + c9 * (-16) + c8 * (-16) + c7 * 0 + c6 * (-6) + c5 * (-11) + c4 * (-13) + c3 * 16 + c2 * (-27) + c1 * 15 = a12 := by
      rw [k12]; ring
    rw [v1, v2, v3, v4, v5, v6, v7, v8, v9, v10, v11, v12] at h73
    omega

theorem xor_le_add (a : Nat) : ∀ b : Nat, a ^^^ b ≤ a + b := by
  induction a using Nat.strong_induction_on with
  | _ a ih =>
    intro b
    by_cases ha : a = 0
    · simp [ha]
    · have h1 := ih (a / 2) (by omega) (b / 2)
      have h2 : (a ^^^ b) / 2 = a / 2 ^^^ b / 2 := Nat.xor_div_two
      have h3 : (a ^^^ b) % 2 = (a + b) % 2 := Nat.xor_mod_two_eq
      omega

theorem xor_delta_abs (h x : Nat) : |((h ^^^ x : Nat) : Int) - (h : Int)| ≤ (x : Int) := by
  have h1 := xor_le_add h x
  have h2 := xor_le_add (h ^^^ x) x
  rw [Nat.xor_cancel_right] at h2
  rw [abs_le]
  constructor <;> omega

theorem deltas_length (xs : List Nat) : ∀ h : Nat, (deltas h xs).length = xs.length := by
  induction xs with
  | nil => intro h; rfl
  | cons x xs ih => intro h; simp [deltas, ih]

theorem l1_deltas (xs : List Nat) : ∀ h : Nat, l1 (deltas h xs) ≤ (xs.sum : Int) := by
  induction xs with
  | nil => intro h; simp [deltas, l1]
  | cons x xs ih =>
    intro h
    simp only [deltas, l1, List.sum_cons, Nat.cast_add]
    have := xor_delta_abs h x
    have := ih (((h ^^^ x) * 0x31d8b11cbabad6e3) % 2 ^ 64)
    omega

theorem deltas_inj (xs : List Nat) : ∀ (ys : List Nat) (h : Nat),
    deltas h xs = deltas h ys → xs = ys := by
  induction xs with
  | nil =>
    intro ys h he
    cases ys with
    | nil => rfl
    | cons y ys => simp [deltas] at he
  | cons x xs ih =>
    intro ys h he
    cases ys with
    | nil => simp [deltas] at he
    | cons y ys =>
      simp only [deltas, List.cons.injEq] at he
      obtain ⟨h1, h2⟩ := he
      have hxy : h ^^^ x = h ^^^ y := by omega
      have exy : x = y := Nat.xor_right_inj.1 hxy
      subst exy
      rw [ih ys _ h2]

/-- The hash is, modulo `2 ^ 64`, the linear form `lin` of the xor changes. -/
theorem hashList_lin (xs : List Nat) : ∀ h : Nat,
    HN ∣ (hashList h xs : Int) - ((h : Int) * HM ^ xs.length + lin (deltas h xs)) := by
  induction xs with
  | nil => intro h; simp [hashList, deltas, lin]
  | cons x xs ih =>
    intro h
    have h1 := ih (((h ^^^ x) * 0x31d8b11cbabad6e3) % 2 ^ 64)
    have h2 : HN ∣ (((h ^^^ x : Nat) : Int) * HM
        - (((((h ^^^ x) * 0x31d8b11cbabad6e3) % 2 ^ 64 : Nat)) : Int)) := by
      have : ((((h ^^^ x) * 0x31d8b11cbabad6e3) % 2 ^ 64 : Nat) : Int)
          = (((h ^^^ x : Nat) : Int) * HM) % HN := by
        push_cast
        rfl
      rw [this]
      exact Int.dvd_sub_of_emod_eq rfl
    simp only [hashList, deltas, lin, deltas_length, List.length_cons]
    have e : (hashList (((h ^^^ x) * 0x31d8b11cbabad6e3) % 2 ^ 64) xs : Int)
        - ((h : Int) * HM ^ (xs.length + 1)
          + ((((h ^^^ x : Nat) : Int) - (h : Int)) * HM ^ (xs.length + 1)
            + lin (deltas (((h ^^^ x) * 0x31d8b11cbabad6e3) % 2 ^ 64) xs)))
        = ((hashList (((h ^^^ x) * 0x31d8b11cbabad6e3) % 2 ^ 64) xs : Int)
          - (((((h ^^^ x) * 0x31d8b11cbabad6e3) % 2 ^ 64 : Nat) : Int) * HM ^ xs.length
            + lin (deltas (((h ^^^ x) * 0x31d8b11cbabad6e3) % 2 ^ 64) xs)))
          - (((h ^^^ x : Nat) : Int) * HM
            - (((((h ^^^ x) * 0x31d8b11cbabad6e3) % 2 ^ 64 : Nat)) : Int)) * HM ^ xs.length := by
      ring
    rw [e]
    exact dvd_sub h1 (Dvd.dvd.mul_right h2 _)

theorem l1_vsub_le (a : List Int) : ∀ b : List Int, l1 (vsub a b) ≤ l1 a + l1 b := by
  induction a with
  | nil => intro b; simp [vsub, l1]; exact l1_nonneg b
  | cons x xs ih =>
    intro b
    cases b with
    | nil => simp [vsub, l1]; exact add_nonneg (abs_nonneg _) (l1_nonneg _)
    | cons y ys =>
      simp only [vsub, List.zipWith_cons_cons, l1]
      have := ih ys
      simp only [vsub] at this
      have := abs_sub x y
      linarith

theorem lin_vsub (a : List Int) : ∀ b : List Int, a.length = b.length →
    lin (vsub a b) = lin a - lin b := by
  induction a with
  | nil => intro b _; simp [vsub, lin]; cases b <;> simp_all [lin]
  | cons x xs ih =>
    intro b h
    cases b with
    | nil => simp at h
    | cons y ys =>
      have hl : xs.length = ys.length := by simpa using h
      have := ih ys hl
      simp only [vsub] at this
      simp only [vsub, List.zipWith_cons_cons, lin, this, List.length_zipWith, hl, min_self]
      ring

theorem vsub_eq_zero (a : List Int) : ∀ b : List Int, a.length = b.length →
    (∀ x ∈ vsub a b, x = 0) → a = b := by
  induction a with
  | nil => intro b h _; cases b with
    | nil => rfl
    | cons _ _ => simp at h
  | cons x xs ih =>
    intro b h hz
    cases b with
    | nil => simp at h
    | cons y ys =>
      simp only [vsub, List.zipWith_cons_cons, List.mem_cons, forall_eq_or_imp] at hz
      have := ih ys (by simpa using h) hz.2
      have : x = y := by omega
      simp_all

/-- The hash is injective on lists of twelve values that sum to at most 36. -/
theorem hashList_inj (h : Nat) (xs ys : List Nat) (hx : xs.length = 12) (hy : ys.length = 12)
    (sx : xs.sum ≤ 36) (sy : ys.sum ≤ 36) (heq : hashList h xs = hashList h ys) : xs = ys := by
  have hlen : (deltas h xs).length = (deltas h ys).length := by
    rw [deltas_length, deltas_length, hx, hy]
  have h1 := l1_vsub_le (deltas h xs) (deltas h ys)
  have h2 := l1_deltas xs h
  have h3 := l1_deltas ys h
  have h4 := hashList_lin xs h
  have h5 := hashList_lin ys h
  rw [heq, hx] at h4
  rw [hy] at h5
  have h6 : HN ∣ lin (vsub (deltas h xs) (deltas h ys)) := by
    rw [lin_vsub _ _ hlen]
    have := dvd_sub h5 h4
    have e : (hashList h ys : Int) - ((h : Int) * HM ^ 12 + lin (deltas h ys))
        - ((hashList h ys : Int) - ((h : Int) * HM ^ 12 + lin (deltas h xs)))
        = lin (deltas h xs) - lin (deltas h ys) := by ring
    rwa [e] at this
  have h7 := no_short_vector (vsub (deltas h xs) (deltas h ys))
    (by rw [vsub_length _ _ hlen, deltas_length, hx])
    (by
      have : ((xs.sum : Nat) : Int) ≤ 36 := by exact_mod_cast sx
      have : ((ys.sum : Nat) : Int) ≤ 36 := by exact_mod_cast sy
      linarith) h6
  exact deltas_inj xs ys h (vsub_eq_zero _ _ hlen h7)

theorem hash_board_eq (b : Board) : hash_board b = hashList 0x281dcf94d307a6b0 (pitList b) := by
  simp only [hash_board, range_PITS, List.foldl_cons, List.foldl_nil, pitList, hashList]

theorem pitList_sum (b : Board) : (pitList b).sum = pitSum b := by
  rw [pitSum_eq]
  simp only [pitList, List.sum_cons, List.sum_nil, Board.pit, Board.opp_pit, HALF, PITS,
    Nat.reduceAdd]
  omega

/-- Two boards with at most 36 seeds in their pits and the same hash have the same pits. -/
theorem hash_board_inj (b c : Board) (hb : pitSum b ≤ 36) (hc : pitSum c ≤ 36)
    (h : hash_board b = hash_board c) : pitList b = pitList c := by
  rw [hash_board_eq, hash_board_eq] at h
  exact hashList_inj _ _ _ rfl rfl (by rw [pitList_sum]; exact hb)
    (by rw [pitList_sum]; exact hc) h

/-! ## Minimax value -/

theorem mem_legalMoves (b : Board) (p : Nat) :
    p ∈ legalMoves b ↔ p < PITS ∧ b.pit p ≠ 0 := by
  simp [legalMoves]

theorem legalMoves_ne_nil (b : Board) (h : is_game_over b = false) : legalMoves b ≠ [] := by
  obtain ⟨p, hp, hne⟩ := exists_move b h
  intro hc
  have := (mem_legalMoves b p).2 ⟨hp, hne⟩
  rw [hc] at this
  simp at this

theorem le_maxList (l : List Int) : ∀ x ∈ l, x ≤ maxList l := by
  induction l with
  | nil => intro x hx; simp at hx
  | cons a l ih =>
    intro x hx
    cases l with
    | nil =>
      simp only [List.mem_singleton] at hx
      simp [maxList, hx]
    | cons y ys =>
      simp only [maxList]
      rcases List.mem_cons.1 hx with rfl | hx
      · exact le_max_left _ _
      · exact le_trans (ih x hx) (le_max_right _ _)

theorem maxList_mem (l : List Int) (h : l ≠ []) : maxList l ∈ l := by
  induction l with
  | nil => exact absurd rfl h
  | cons a l ih =>
    cases l with
    | nil => simp [maxList]
    | cons y ys =>
      simp only [maxList]
      rcases max_choice a (maxList (y :: ys)) with h1 | h1
      · rw [h1]; exact List.mem_cons_self _ _
      · rw [h1]; exact List.mem_cons_of_mem _ (ih (by simp))

theorem maxList_map_add (g : Nat → Int) (k : Int) (l : List Nat) (h : l ≠ []) :
    maxList (l.map (fun p => g p + k)) = maxList (l.map g) + k := by
  induction l with
  | nil => exact absurd rfl h
  | cons a l ih =>
    cases l with
    | nil => simp [maxList]
    | cons y ys =>
      have := ih (by simp)
      simp only [List.map_cons, maxList] at this ⊢
      rw [this, max_add_add_right]

theorem maxList_map_congr (g g1 : Nat → Int) (l : List Nat) (h : ∀ p ∈ l, g p = g1 p) :
    maxList (l.map g) = maxList (l.map g1) := by
  rw [List.map_congr_left h]

theorem rank_sow (b : Board) (p : Nat) (hp : p < PITS) (hne : b.pit p ≠ 0) :
    rank (sow b p).1 < rank b ∧ rank (flip (sow b p).1) < rank b := by
  have h := rank_child b p hp hne
  have e1 : rank (flip (sow b p).1) = rank (sow b p).1 := by
    unfold rank; rw [pitSum_flip, dist_flip]
  unfold child at h
  simp only at h
  split_ifs at h
  · exact ⟨h, by rw [e1]; exact h⟩
  · exact ⟨by rw [← e1]; exact h, h⟩

theorem minimaxFuel_stable (f : Nat) : ∀ (b : Board) (f1 : Nat), rank b < f → rank b < f1 →
    minimaxFuel f b = minimaxFuel f1 b := by
  induction f with
  | zero => intro b f1 h; omega
  | succ f ih =>
    intro b f1 h h1
    obtain ⟨f1, rfl⟩ : ∃ k, f1 = k + 1 := ⟨f1 - 1, by omega⟩
    simp only [minimaxFuel]
    split_ifs with hgo
    · rfl
    · apply maxList_map_congr
      intro p hp
      obtain ⟨hp1, hp2⟩ := (mem_legalMoves b p).1 hp
      obtain ⟨r1, r2⟩ := rank_sow b p hp1 hp2
      rw [ih _ f1 (by omega) (by omega), ih _ f1 (by omega) (by omega)]

theorem minimax_eq (b : Board) : minimax b =
    if is_game_over b then final_score b else maxList ((legalMoves b).map (moveValue b)) := by
  show (if is_game_over b then final_score b
    else maxList ((legalMoves b).map (fun p =>
      if (sow b p).2 then minimaxFuel (rank b) (sow b p).1
      else - minimaxFuel (rank b) (flip (sow b p).1)))) = _
  split_ifs with hgo
  · rfl
  · apply maxList_map_congr
    intro p hp
    obtain ⟨hp1, hp2⟩ := (mem_legalMoves b p).1 hp
    obtain ⟨r1, r2⟩ := rank_sow b p hp1 hp2
    unfold moveValue minimax
    rw [minimaxFuel_stable (rank b) _ (rank (sow b p).1 + 1) r1 (by omega),
      minimaxFuel_stable (rank b) _ (rank (flip (sow b p).1) + 1) r2 (by omega)]

theorem moveValue_le_minimax (b : Board) (p : Nat) (h : is_game_over b = false)
    (hp : p < PITS) (hne : b.pit p ≠ 0) : moveValue b p ≤ minimax b := by
  rw [minimax_eq, if_neg (by simp [h])]
  exact le_maxList _ _ (List.mem_map.2 ⟨p, (mem_legalMoves b p).2 ⟨hp, hne⟩, rfl⟩)

theorem minimax_attained (b : Board) (h : is_game_over b = false) :
    ∃ p, p < PITS ∧ b.pit p ≠ 0 ∧ minimax b = moveValue b p := by
  have hm := maxList_mem ((legalMoves b).map (moveValue b))
    (by simpa using legalMoves_ne_nil b h)
  rw [List.mem_map] at hm
  obtain ⟨p, hp, hv⟩ := hm
  obtain ⟨hp1, hp2⟩ := (mem_legalMoves b p).1 hp
  exact ⟨p, hp1, hp2, by rw [minimax_eq, if_neg (by simp [h])]; exact hv.symm⟩

theorem minimax_game_over (b : Board) (h : is_game_over b = true) :
    minimax b = final_score b := by
  rw [minimax_eq, if_pos h]

/-! ## Values relative to the store differential -/

theorem visits_le (n pos i : Nat) : visits n pos i ≤ n := by
  unfold visits
  calc _ ≤ (List.range n).length := List.countP_le_length _
    _ = n := List.length_range n

theorem total_landing (b : Board) (p : Nat) (hp : p < 6) (h : total b ≤ 255) :
    total (landing b p).2 = total b := by
  have hset := total_set b p 0 (by omega)
  have hloop := total_sowLoop (b.ring p) p (b.set p 0) (by omega)
  unfold landing
  simp only [Board.pit]
  omega

theorem store_pit_le (b : Board) (p : Nat) (hp : p < 6) : b.ring 6 + b.ring p ≤ total b := by
  rw [total_eq]
  interval_cases p <;> omega

theorem landing_store (b : Board) (p : Nat) (hp : p < 6) (h : total b ≤ 255) :
    (landing b p).2.ring 6 = b.ring 6 + visits (b.ring p) p 6 := by
  have h1 := visits_le (b.ring p) p 6
  have h2 := store_pit_le b p hp
  have h6 : ¬ (6 = p) := by omega
  rw [landing_ring]
  simp only [Board.pit, Board.set_ring, h6, if_false]
  split_ifs with hv
  · omega
  · exact Nat.mod_eq_of_lt (by omega)

theorem landing_opp_store (b : Board) (p : Nat) (hp : p < 6) :
    (landing b p).2.ring 13 = b.ring 13 := by
  rw [landing_ring, visits_opp_store _ _ _ (le_refl _)]
  simp only [if_true, Board.set_ring]
  rw [if_neg (by omega)]

theorem landing_rel (b c : Board) (p : Nat) (hs : SameP b c) (hp : p < 6) :
    (landing b p).1 = (landing c p).1 ∧ SameP (landing b p).2 (landing c p).2 := by
  have hn : b.ring p = c.ring p := hs p (by omega) (by omega)
  refine ⟨?_, ?_⟩
  · rw [landing_pos b p (by simp only [PITS]; omega), landing_pos c p (by simp only [PITS]; omega)]
    simp only [Board.pit, hn]
  · intro i hi h6
    rw [landing_ring, landing_ring]
    simp only [Board.pit, Board.set_ring, hn, hs i hi h6]

theorem sowFinish_rel (q : Nat) (m m1 : Board) (hs : SameP m m1) (ht : total m ≤ 255)
    (ht1 : total m1 ≤ 255) :
    (sowFinish q m).2 = (sowFinish q m1).2 ∧ SameP (sowFinish q m).1 (sowFinish q m1).1 ∧
    ((sowFinish q m).1.ring 6 : Int) - m.ring 6 = (sowFinish q m1).1.ring 6 - m1.ring 6 ∧
    (sowFinish q m).1.ring 13 = m.ring 13 ∧ (sowFinish q m1).1.ring 13 = m1.ring 13 := by
  unfold sowFinish
  by_cases h6 : q = PITS
  · rw [if_pos h6, if_pos h6]
    exact ⟨rfl, hs, by simp, rfl, rfl⟩
  · rw [if_neg h6, if_neg h6]
    by_cases hq : q < PITS
    · have hqq : m.pit q = m1.pit q := hs q (by simp only [PITS] at hq; omega) h6
      by_cases h1 : m.pit q = 1
      · have h11 : m1.pit q = 1 := by rw [← hqq]; exact h1
        rw [if_pos ⟨hq, h1⟩, if_pos ⟨hq, h11⟩]
        simp only [PITS, HALF, Board.pit, Board.store, Board.opp_pit, Nat.reduceAdd,
          Nat.reduceSub] at hq h1 h11 ⊢
        have ho : m.ring (7 + (5 - q)) = m1.ring (7 + (5 - q)) :=
          hs _ (by omega) (by omega)
        have hb : m.ring 6 + (m.ring q + m.ring (7 + (5 - q))) ≤ total m := by
          rw [total_eq]
          interval_cases q <;> simp <;> omega
        have hb1 : m1.ring 6 + (m1.ring q + m1.ring (7 + (5 - q))) ≤ total m1 := by
          rw [total_eq]
          interval_cases q <;> simp <;> omega
        refine ⟨trivial, ?_, ?_, ?_, ?_⟩
        · intro i hi hi6
          simp only [Board.set_ring]
          split_ifs
          · rfl
          · rfl
          · exact hs i hi hi6
        · have e1 : ¬ (6 = q) := by omega
          have e2 : ¬ (6 = 7 + (5 - q)) := by omega
          simp only [Board.set_ring, e1, e2, if_false, if_true]
          rw [Nat.mod_eq_of_lt (by omega), Nat.mod_eq_of_lt (by omega)]
          push_cast
          omega
        · have e1 : ¬ (13 = q) := by omega
          have e2 : ¬ (13 = 7 + (5 - q)) := by omega
          simp only [Board.set_ring, e1, e2, if_false]
          rfl
        · have e1 : ¬ (13 = q) := by omega
          have e2 : ¬ (13 = 7 + (5 - q)) := by omega
          simp only [Board.set_ring, e1, e2, if_false]
          rfl
      · have h11 : ¬ m1.pit q = 1 := by rw [← hqq]; exact h1
        rw [if_neg (fun h => h1 h.2), if_neg (fun h => h11 h.2)]
        exact ⟨rfl, hs, by simp, rfl, rfl⟩
    · rw [if_neg (fun h => hq h.1), if_neg (fun h => hq h.1)]
      exact ⟨rfl, hs, by simp, rfl, rfl⟩

theorem diff_eq (b : Board) : diff b = (b.ring 6 : Int) - (b.ring 13 : Int) := rfl

theorem sow_rel (b c : Board) (p : Nat) (hs : SameP b c) (hp : p < PITS)
    (hb : total b ≤ 255) (hc : total c ≤ 255) :
    (sow b p).2 = (sow c p).2 ∧ SameP (sow b p).1 (sow c p).1 ∧
    diff (sow b p).1 - diff b = diff (sow c p).1 - diff c := by
  simp only [PITS] at hp
  obtain ⟨l1, l2⟩ := landing_rel b c p hs hp
  have tb := total_landing b p hp hb
  have tc := total_landing c p hp hc
  have hn : b.ring p = c.ring p := hs p (by omega) (by omega)
  have sb := landing_store b p hp hb
  have sc := landing_store c p hp hc
  have ob := landing_opp_store b p hp
  have oc := landing_opp_store c p hp
  rw [sow_eq_landing, sow_eq_landing, ← l1]
  obtain ⟨f1, f2, f3, f4, f5⟩ := sowFinish_rel (landing b p).1 (landing b p).2 (landing c p).2 l2
    (by omega) (by omega)
  refine ⟨f1, f2, ?_⟩
  rw [diff_eq, diff_eq, diff_eq, diff_eq, f4, f5, ob, oc]
  rw [sb, sc, hn] at f3
  push_cast at f3
  omega

theorem SameP_flip (b c : Board) (hs : SameP b c) : SameP (flip b) (flip c) := by
  intro i hi h6
  rw [flip_ring, flip_ring]
  split_ifs with h1 h2
  · exact hs _ (by omega) (by omega)
  · exact hs _ (by omega) (by omega)
  · omega

theorem diff_flip (b : Board) : diff (flip b) = - diff b := by
  rw [diff_eq, diff_eq, flip_ring, flip_ring]
  simp

theorem SameP_game_over (b c : Board) (hs : SameP b c) : is_game_over b = is_game_over c := by
  rw [is_game_over_eq, is_game_over_eq, ownSum_eq, oppSum_eq, ownSum_eq, oppSum_eq]
  rw [hs 0 (by omega) (by omega), hs 1 (by omega) (by omega), hs 2 (by omega) (by omega),
    hs 3 (by omega) (by omega), hs 4 (by omega) (by omega), hs 5 (by omega) (by omega),
    hs 7 (by omega) (by omega), hs 8 (by omega) (by omega), hs 9 (by omega) (by omega),
    hs 10 (by omega) (by omega), hs 11 (by omega) (by omega), hs 12 (by omega) (by omega)]

theorem SameP_legalMoves (b c : Board) (hs : SameP b c) : legalMoves b = legalMoves c := by
  unfold legalMoves
  apply List.filter_congr
  intro p hp
  have hp6 : p < 6 := by simpa using hp
  simp only [Board.pit, hs p (by omega) (by omega)]

theorem SameP_final_score (b c : Board) (hs : SameP b c) :
    final_score b - diff b = final_score c - diff c := by
  rw [final_score_eq, final_score_eq, diff_eq, diff_eq]
  rw [hs 0 (by omega) (by omega), hs 1 (by omega) (by omega), hs 2 (by omega) (by omega),
    hs 3 (by omega) (by omega), hs 4 (by omega) (by omega), hs 5 (by omega) (by omega),
    hs 7 (by omega) (by omega), hs 8 (by omega) (by omega), hs 9 (by omega) (by omega),
    hs 10 (by omega) (by omega), hs 11 (by omega) (by omega), hs 12 (by omega) (by omega)]
  omega

theorem SameP_rank (b c : Board) (hs : SameP b c) : rank b = rank c := by
  unfold rank
  rw [pitSum_eq, pitSum_eq, dist_eq, dist_eq]
  rw [hs 0 (by omega) (by omega), hs 1 (by omega) (by omega), hs 2 (by omega) (by omega),
    hs 3 (by omega) (by omega), hs 4 (by omega) (by omega), hs 5 (by omega) (by omega),
    hs 7 (by omega) (by omega), hs 8 (by omega) (by omega), hs 9 (by omega) (by omega),
    hs 10 (by omega) (by omega), hs 11 (by omega) (by omega), hs 12 (by omega) (by omega)]

/-- The value of a board minus its store differential depends on the pits only. -/
theorem minimaxFuel_rel (f : Nat) : ∀ (b c : Board), SameP b c → total b ≤ 255 →
    total c ≤ 255 → minimaxFuel f b - diff b = minimaxFuel f c - diff c := by
  induction f with
  | zero => intro b c hs _ _; exact SameP_final_score b c hs
  | succ f ih =>
    intro b c hs hb hc
    simp only [minimaxFuel]
    rw [← SameP_game_over b c hs, ← SameP_legalMoves b c hs]
    by_cases hgo : is_game_over b = true
    · rw [if_pos hgo, if_pos hgo]
      exact SameP_final_score b c hs
    · rw [if_neg hgo, if_neg hgo]
      have hne := legalMoves_ne_nil b (by simpa using hgo)
      have e : maxList ((legalMoves b).map (fun p =>
            if (sow b p).2 then minimaxFuel f (sow b p).1
            else - minimaxFuel f (flip (sow b p).1)))
          = maxList ((legalMoves b).map (fun p =>
            (if (sow c p).2 then minimaxFuel f (sow c p).1
            else - minimaxFuel f (flip (sow c p).1)) + (diff b - diff c))) := by
        apply maxList_map_congr
        intro p hp
        obtain ⟨hp1, _⟩ := (mem_legalMoves b p).1 hp
        obtain ⟨r1, r2, r3⟩ := sow_rel b c p hs hp1 hb hc
        have tb := total_sow b p hp1 hb
        have tc := total_sow c p hp1 hc
        rw [← r1]
        by_cases ha : (sow b p).2 = true
        · rw [if_pos ha, if_pos ha]
          have := ih _ _ r2 (by omega) (by omega)
          omega
        · rw [if_neg ha, if_neg ha]
          have := ih _ _ (SameP_flip _ _ r2) (by rw [total_flip]; omega)
            (by rw [total_flip]; omega)
          rw [diff_flip, diff_flip] at this
          omega
      rw [e, maxList_map_add _ _ _ hne]
      omega

theorem minimax_rel (b c : Board) (hs : SameP b c) (hb : total b ≤ 255) (hc : total c ≤ 255) :
    minimax b - diff b = minimax c - diff c := by
  unfold minimax
  rw [SameP_rank b c hs]
  exact minimaxFuel_rel _ b c hs hb hc

theorem moveValue_rel (b c : Board) (p : Nat) (hs : SameP b c) (hp : p < PITS)
    (hb : total b ≤ 255) (hc : total c ≤ 255) :
    moveValue b p - diff b = moveValue c p - diff c := by
  obtain ⟨r1, r2, r3⟩ := sow_rel b c p hs hp hb hc
  have tb := total_sow b p hp hb
  have tc := total_sow c p hp hc
  unfold moveValue
  rw [← r1]
  by_cases ha : (sow b p).2 = true
  · rw [if_pos ha, if_pos ha]
    have := minimax_rel _ _ r2 (by omega) (by omega)
    omega
  · rw [if_neg ha, if_neg ha]
    have := minimax_rel _ _ (SameP_flip _ _ r2) (by rw [total_flip]; omega)
      (by rw [total_flip]; omega)
    rw [diff_flip, diff_flip] at this
    omega

theorem final_score_range (b : Board) (h : total b = 36) :
    -36 ≤ final_score b ∧ final_score b ≤ 36 := by
  rw [final_score_eq]
  rw [total_eq] at h
  omega

theorem diff_range (b : Board) (h : total b = 36) : -36 ≤ diff b ∧ diff b ≤ 36 := by
  rw [diff_eq]
  rw [total_eq] at h
  omega

theorem minimaxFuel_range (f : Nat) : ∀ b : Board, total b = 36 →
    -36 ≤ minimaxFuel f b ∧ minimaxFuel f b ≤ 36 := by
  induction f with
  | zero => intro b h; exact final_score_range b h
  | succ f ih =>
    intro b h
    simp only [minimaxFuel]
    by_cases hgo : is_game_over b = true
    · rw [if_pos hgo]; exact final_score_range b h
    · rw [if_neg hgo]
      have hm := maxList_mem ((legalMoves b).map (fun p =>
            if (sow b p).2 then minimaxFuel f (sow b p).1
            else - minimaxFuel f (flip (sow b p).1)))
        (by simpa using legalMoves_ne_nil b (by simpa using hgo))
      rw [List.mem_map] at hm
      obtain ⟨p, hp, hv⟩ := hm
      obtain ⟨hp1, _⟩ := (mem_legalMoves b p).1 hp
      have tb := total_sow b p hp1 (by omega)
      rw [← hv]
      split_ifs
      · exact ih _ (by omega)
      · have := ih (flip (sow b p).1) (by rw [total_flip]; omega)
        omega

theorem minimax_range (b : Board) (h : total b = 36) : -36 ≤ minimax b ∧ minimax b ≤ 36 :=
  minimaxFuel_range _ b h

theorem moveValue_range (b : Board) (p : Nat) (hp : p < PITS) (h : total b = 36) :
    -36 ≤ moveValue b p ∧ moveValue b p ≤ 36 := by
  have tb := total_sow b p hp (by omega)
  unfold moveValue
  split_ifs
  · exact minimax_range _ (by omega)
  · have := minimax_range (flip (sow b p).1) (by rw [total_flip]; omega)
    omega

theorem pitSum_le_total (b : Board) : pitSum b ≤ total b := by
  rw [pitSum_eq, total_eq]; omega

theorem SameP_of_pitList (b c : Board) (h : pitList b = pitList c) : SameP b c := by
  simp only [pitList, Board.pit, Board.opp_pit, HALF, PITS, Nat.reduceAdd, List.cons.injEq,
    and_true] at h
  obtain ⟨h0, h7, h1, h8, h2, h9, h3, h10, h4, h11, h5, h12⟩ := h
  intro i hi h6
  interval_cases i <;> first | assumption | exact absurd rfl h6

theorem SameP_of_hash (b c : Board) (hb : total b = 36) (hc : total c = 36)
    (h : hash_board b = hash_board c) : SameP b c :=
  SameP_of_pitList b c (hash_board_inj b c (le_trans (pitSum_le_total b) (by omega))
    (le_trans (pitSum_le_total c) (by omega)) h)

theorem EntryOK_transfer (e : TTEntry) (b b0 : Board) (hs : SameP b b0) (hb : total b = 36)
    (hb0 : total b0 = 36) (hm : e.move ≤ 5) (h : EntryOK e b0) : EntryOK e b := by
  obtain ⟨h1, h2, h3, h4⟩ := h
  have hp : e.move.toNat < PITS := by simp only [PITS]; omega
  have hv := moveValue_rel b b0 e.move.toNat hs hp (by omega) (by omega)
  have hm := minimax_rel b b0 hs (by omega) (by omega)
  refine ⟨h1, ?_, fun hb => ?_, fun hb => ?_⟩
  · simp only [Board.pit] at h2 ⊢
    rw [hs _ (by simp only [PITS] at hp; omega) (by simp only [PITS] at hp; omega)]
    exact h2
  · have := h3 hb
    omega
  · have := h4 hb
    omega

theorem total_child (b : Board) (p : Nat) (hp : p < PITS) (h : total b = 36) :
    total (sow b p).1 = 36 ∧ total (flip (sow b p).1) = 36 := by
  have := total_sow b p hp (by omega)
  rw [total_flip]
  omega

theorem searchMove_ok (rec : Board → Int → Int → TT → Result × TT)
    (hrec : ∀ (c : Board) (a1 c1 : Int) (t : TT), total c = 36 → -36 ≤ a1 → a1 < c1 →
      c1 ≤ 36 → TTOK t → TTOK (rec c a1 c1 t).2 ∧
        ((rec c a1 c1 t).1.solved = true → ResultOK c a1 c1 (rec c a1 c1 t).1))
    (b : Board) (p : Nat) (a beta : Int) (t : TT) (hp : p < PITS) (hb : total b = 36)
    (h1 : -36 ≤ a) (h2 : a < beta) (h3 : beta ≤ 36) (ht : TTOK t) :
    TTOK (searchMove rec b p a beta t).2 ∧
    ((searchMove rec b p a beta t).1.solved = true →
      MoveOK b p a beta (searchMove rec b p a beta t).1) := by
  obtain ⟨t1, t2⟩ := total_child b p hp hb
  unfold searchMove MoveOK moveValue
  by_cases hag : (sow b p).2 = true
  · simp only [hag, if_true]
    obtain ⟨r1, r2⟩ := hrec (sow b p).1 a beta t t1 h1 h2 h3 ht
    refine ⟨r1, fun hs => ?_⟩
    obtain ⟨q1, q2, q3, q4, _⟩ := r2 hs
    exact ⟨q1, q2, q3, q4⟩
  · have hag1 : (sow b p).2 = false := by simpa using hag
    simp only [hag1, Bool.false_eq_true, if_false]
    obtain ⟨r1, r2⟩ := hrec (flip (sow b p).1) (-beta) (-a) t t2 (by omega) (by omega)
      (by omega) ht
    refine ⟨r1, fun hs => ?_⟩
    obtain ⟨q1, q2, q3, q4, _⟩ := r2 hs
    refine ⟨by omega, by omega, fun h => ?_, fun h => ?_⟩
    · have := q4 (by omega)
      omega
    · have := q3 (by omega)
      omega

theorem loopUpdate_inv (b : Board) (alpha0 beta : Int) (S : Nat → Prop) (st : LoopState)
    (p : Nat) (r : Result × TT) (_ha0 : -36 ≤ alpha0) (hinv : LoopInv b alpha0 beta S st)
    (hp : p < PITS) (hne : b.pit p ≠ 0) (hr1 : TTOK r.2)
    (hr2 : r.1.solved = true → MoveOK b p st.alpha beta r.1) :
    LoopInv b alpha0 beta (fun q => S q ∨ q = p) (loopUpdate st (p : Int) r) := by
  obtain ⟨i1, i2, i3, i4, i5⟩ := hinv
  simp only [PITS] at hp
  unfold LoopInv
  by_cases hgt : r.1.score > st.best_score
  · have e : loopUpdate st (p : Int) r =
        { alpha := if r.1.score > st.alpha then r.1.score else st.alpha,
          best_score := r.1.score, best_move := (p : Int),
          solved := if r.1.solved then st.solved else false, tt := r.2 } := by
      unfold loopUpdate; simp only [hgt, if_true]
    rw [e]
    simp only
    refine ⟨hr1, ?_, by omega, by omega, fun hs => ?_⟩
    · split_ifs with hc
      · rw [i2] at hc
        have := le_max_left alpha0 st.best_score
        rw [max_eq_right (by omega)]
      · rw [i2] at hc ⊢
        rcases le_total alpha0 st.best_score with h | h
        · rw [max_eq_right h] at hc; omega
        · rw [max_eq_left h] at hc ⊢
          rw [max_eq_left (by omega)]
    · have hrs : r.1.solved = true := by
        by_contra hc
        simp [hc] at hs
      have hss : st.solved = true := by simpa [hrs] using hs
      obtain ⟨m1, m2, m3, m4⟩ := hr2 hrs
      obtain ⟨j1, j2, j3, j4⟩ := i5 hss
      refine ⟨m2, Or.inr m1, fun q hq => ⟨m1, fun hlt => ?_⟩, fun _ => ⟨by omega, ?_, fun hl => ?_⟩⟩
      · rcases hq with hq | rfl
        · have := (j3 q hq).2 (by omega)
          omega
        · exact m3 hlt
      · simpa using hne
      · simp only [Int.toNat_ofNat]
        apply m4
        rw [i2]
        exact max_lt hl hgt
  · have e : loopUpdate st (p : Int) r =
        { st with solved := if r.1.solved then st.solved else false, tt := r.2 } := by
      unfold loopUpdate; simp only [hgt, if_false]
    rw [e]
    simp only
    refine ⟨hr1, i2, i3, i4, fun hs => ?_⟩
    have hrs : r.1.solved = true := by
      by_contra hc
      simp [hc] at hs
    have hss : st.solved = true := by simpa [hrs] using hs
    obtain ⟨m1, m2, m3, m4⟩ := hr2 hrs
    obtain ⟨j1, j2, j3, j4⟩ := i5 hss
    refine ⟨j1, ?_, fun q hq => ?_, j4⟩
    · right; omega
    · rcases hq with hq | rfl
      · exact j3 q hq
      · refine ⟨by omega, fun hlt => ?_⟩
        have := m3 (by omega)
        omega

theorem LoopInv_mono (b : Board) (alpha0 beta : Int) (S S1 : Nat → Prop) (st : LoopState)
    (h : ∀ q, S1 q → S q) (hinv : LoopInv b alpha0 beta S st) : LoopInv b alpha0 beta S1 st := by
  obtain ⟨i1, i2, i3, i4, i5⟩ := hinv
  refine ⟨i1, i2, i3, i4, fun hs => ?_⟩
  obtain ⟨j1, j2, j3, j4⟩ := i5 hs
  exact ⟨j1, j2, fun p hp => j3 p (h p hp), j4⟩

theorem LoopInv_cut (b : Board) (alpha0 beta : Int) (S S1 : Nat → Prop) (st : LoopState)
    (ha0 : -36 ≤ alpha0) (hab : alpha0 < beta) (hcut : ¬ st.alpha < beta)
    (hinv : LoopInv b alpha0 beta S st) : LoopInv b alpha0 beta S1 st := by
  obtain ⟨i1, i2, i3, i4, i5⟩ := hinv
  refine ⟨i1, i2, i3, i4, fun hs => ?_⟩
  obtain ⟨j1, j2, j3, j4⟩ := i5 hs
  have hbest : beta ≤ st.best_score := by
    rw [i2] at hcut
    rcases le_total alpha0 st.best_score with h | h
    · rw [max_eq_right h] at hcut; omega
    · rw [max_eq_left h] at hcut; omega
  exact ⟨j1, j2, fun p _ => ⟨by omega, fun hlt => by omega⟩, j4⟩

theorem LoopInv_alpha (b : Board) (alpha0 beta : Int) (S : Nat → Prop) (st : LoopState)
    (hinv : LoopInv b alpha0 beta S st) : alpha0 ≤ st.alpha := by
  rw [hinv.2.1]
  exact le_max_left _ _

theorem searchLoop_ok (rec : Board → Int → Int → TT → Result × TT)
    (hrec : ∀ (c : Board) (a1 c1 : Int) (t : TT), total c = 36 → -36 ≤ a1 → a1 < c1 →
      c1 ≤ 36 → TTOK t → TTOK (rec c a1 c1 t).2 ∧
        ((rec c a1 c1 t).1.solved = true → ResultOK c a1 c1 (rec c a1 c1 t).1))
    (b : Board) (hb : total b = 36) (hint alpha0 beta : Int) (ha0 : -36 ≤ alpha0)
    (hab : alpha0 < beta) (hb36 : beta ≤ 36) :
    ∀ (l : List Int) (st : LoopState) (S : Nat → Prop), (∀ i ∈ l, 0 ≤ i ∧ i ≤ 5) →
      LoopInv b alpha0 beta S st →
      (0 ≤ hint → hint ≤ 5 → b.pit hint.toNat ≠ 0 → S hint.toNat) →
      LoopInv b alpha0 beta (fun q => S q ∨ (b.pit q ≠ 0 ∧ ∃ i ∈ l, q = (5 - i).toNat))
        (searchLoop rec b hint beta l st) := by
  intro l
  induction l with
  | nil =>
    intro st S _ hinv _
    exact LoopInv_mono b alpha0 beta S _ st (fun q hq => by simpa using hq) hinv
  | cons i rest ih =>
    intro st S hl hinv hh
    obtain ⟨hi0, hi5⟩ := hl i (List.mem_cons_self _ _)
    have hrest : ∀ j ∈ rest, 0 ≤ j ∧ j ≤ 5 := fun j hj => hl j (List.mem_cons_of_mem _ hj)
    rw [searchLoop]
    by_cases hcut : st.alpha < beta
    · rw [if_neg (not_not.2 hcut)]
      have hpit : (if i < 0 then hint else (PITS : Int) - 1 - i) = ((5 - i).toNat : Int) := by
        rw [if_neg (by omega)]
        simp only [PITS, Nat.cast_ofNat]
        omega
      simp only [hpit, Int.toNat_ofNat]
      have hp : (5 - i).toNat < PITS := by simp only [PITS]; omega
      by_cases hskip : ((5 - i).toNat : Int) < 0 ∨ b.pit (5 - i).toNat = 0
      · rw [if_pos hskip]
        refine LoopInv_mono b alpha0 beta _ _ _ ?_ (ih st S hrest hinv hh)
        rintro q (hq | ⟨hq1, j, hj, hq2⟩)
        · exact Or.inl hq
        · rcases List.mem_cons.1 hj with rfl | hj
          · exfalso
            rcases hskip with h | h
            · omega
            · rw [hq2] at hq1; exact hq1 h
          · exact Or.inr ⟨hq1, j, hj, hq2⟩
      · rw [if_neg hskip]
        have hne : b.pit (5 - i).toNat ≠ 0 := fun h => hskip (Or.inr h)
        by_cases hdup : 0 ≤ i ∧ ((5 - i).toNat : Int) = hint
        · rw [if_pos hdup]
          have e : hint.toNat = (5 - i).toNat := by omega
          have hS : S (5 - i).toNat := by
            have := hh (by omega) (by omega) (by rw [e]; exact hne)
            rw [e] at this
            exact this
          refine LoopInv_mono b alpha0 beta _ _ _ ?_ (ih st S hrest hinv hh)
          rintro q (hq | ⟨hq1, j, hj, hq2⟩)
          · exact Or.inl hq
          · rcases List.mem_cons.1 hj with rfl | hj
            · rw [hq2]; exact Or.inl hS
            · exact Or.inr ⟨hq1, j, hj, hq2⟩
        · rw [if_neg hdup]
          have ha := LoopInv_alpha b alpha0 beta S st hinv
          obtain ⟨m1, m2⟩ := searchMove_ok rec hrec b (5 - i).toNat st.alpha beta st.tt hp hb
            (by omega) hcut hb36 hinv.1
          have hnew := loopUpdate_inv b alpha0 beta S st (5 - i).toNat _ ha0 hinv hp hne m1 m2
          refine LoopInv_mono b alpha0 beta _ _ _ ?_ (ih _ _ hrest hnew
            (fun h1 h2 h3 => Or.inl (hh h1 h2 h3)))
          rintro q (hq | ⟨hq1, j, hj, hq2⟩)
          · exact Or.inl (Or.inl hq)
          · rcases List.mem_cons.1 hj with rfl | hj
            · exact Or.inl (Or.inr hq2)
            · exact Or.inr ⟨hq1, j, hj, hq2⟩
    · rw [if_pos hcut]
      exact LoopInv_cut b alpha0 beta S _ st ha0 hab hcut hinv

theorem wrap8_id (x : Int) (h1 : -128 ≤ x) (h2 : x ≤ 127) : wrap8 x = x := by
  unfold wrap8; omega

/-- Facts about a solved final state of the loop on a board that is not game-over. -/
theorem loop_final (b : Board) (alpha beta : Int) (S : Nat → Prop) (st : LoopState)
    (_hb : total b = 36) (hgo : is_game_over b = false)
    (hinv : LoopInv b alpha beta S st) (hS : ∀ p, p < PITS → b.pit p ≠ 0 → S p)
    (hs : st.solved = true) :
    -36 ≤ st.best_score ∧ st.best_score ≤ 36 ∧ 0 ≤ st.best_move ∧ st.best_move ≤ 5 ∧
    b.pit st.best_move.toNat ≠ 0 ∧
    (st.best_score < beta → minimax b ≤ st.best_score) ∧
    (alpha < st.best_score → st.best_score ≤ moveValue b st.best_move.toNat) ∧
    (alpha < st.best_score → st.best_score ≤ minimax b) := by
  obtain ⟨i1, i2, i3, i4, i5⟩ := hinv
  obtain ⟨j1, j2, j3, j4⟩ := i5 hs
  obtain ⟨q, hq, hqne⟩ := exists_move b hgo
  have hlow := (j3 q (hS q hq hqne)).1
  obtain ⟨k1, k2, k3⟩ := j4 (by omega)
  refine ⟨hlow, j1, k1, i4, k2, fun hlt => ?_, k3, fun hgt => ?_⟩
  · obtain ⟨p, hp, hpne, hv⟩ := minimax_attained b hgo
    rw [hv]
    exact (j3 p (hS p hp hpne)).2 hlt
  · have := k3 hgt
    have := moveValue_le_minimax b st.best_move.toNat hgo (by simp only [PITS]; omega) k2
    omega

theorem searchFinish_ok (depth : Int) (idx : Nat) (hit : Bool) (b : Board)
    (alpha beta : Int) (S : Nat → Prop) (st : LoopState)
    (hb : total b = 36) (hgo : is_game_over b = false) (hab : alpha < beta)
    (hinv : LoopInv b alpha beta S st) (hS : ∀ p, p < PITS → b.pit p ≠ 0 → S p) :
    TTOK (searchFinish depth (hash_board b) idx hit (diff b) alpha beta st).2 ∧
    ((searchFinish depth (hash_board b) idx hit (diff b) alpha beta st).1.solved = true →
      ResultOK b alpha beta (searchFinish depth (hash_board b) idx hit (diff b) alpha beta st).1)
    := by
  have hfin := loop_final b alpha beta S st hb hgo hinv hS
  obtain ⟨i1, i2, i3, i4, i5⟩ := hinv
  have hres : st.solved = true → ResultOK b alpha beta ⟨st.best_move, st.best_score, st.solved⟩ := by
    intro hs
    obtain ⟨f1, f2, f3, f4, f5, f6, f7, f8⟩ := hfin hs
    exact ⟨f1, f2, f6, f8, fun _ => ⟨f3, f4, f5, f7⟩⟩
  unfold searchFinish
  simp only
  by_cases hw : st.solved = true ∨
      ((hit = false ∨ depth ≥ (st.tt idx).depth) ∧ (st.tt idx).solved = false)
  · rw [if_pos hw]
    refine ⟨fun j => ?_, hres⟩
    by_cases hj : j = idx
    · simp only [hj, if_true]
      refine ⟨by rw [wrap8_small _ i3 i4]; exact i4, fun hs => ?_⟩
      obtain ⟨f1, f2, f3, f4, f5, f6, f7, f8⟩ := hfin hs
      have hd := diff_range b hb
      refine ⟨b, hb, hgo, rfl, ?_⟩
      unfold EntryOK
      simp only
      rw [wrap8_small _ i3 i4, wrap8_id _ (by omega) (by omega)]
      refine ⟨f3, f5, fun hbd => ?_, fun hbd => ?_⟩
      · have : alpha < st.best_score := by
          by_contra hc
          rw [if_pos (by omega)] at hbd
          exact hbd rfl
        have := f7 this
        omega
      · have : st.best_score < beta := by
          by_contra hc
          by_cases h1 : st.best_score ≤ alpha
          · omega
          · rw [if_neg h1, if_pos (by omega)] at hbd
            exact hbd rfl
        have := f6 this
        omega
    · simp only [hj, if_false]
      exact i1 j
  · rw [if_neg hw]
    exact ⟨i1, hres⟩

theorem searchBody_ok (rec : Board → Int → Int → TT → Result × TT) (depth : Int)
    (hrec : 0 < depth → ∀ (c : Board) (a1 c1 : Int) (t : TT), total c = 36 → -36 ≤ a1 →
      a1 < c1 → c1 ≤ 36 → TTOK t → TTOK (rec c a1 c1 t).2 ∧
        ((rec c a1 c1 t).1.solved = true → ResultOK c a1 c1 (rec c a1 c1 t).1))
    (b : Board) (alpha beta : Int) (tt : TT) (hb : total b = 36) (ha : -36 ≤ alpha)
    (hab : alpha < beta) (hb36 : beta ≤ 36) (ht : TTOK tt) :
    TTOK (searchBody rec depth b alpha beta tt).2 ∧
    ((searchBody rec depth b alpha beta tt).1.solved = true →
      ResultOK b alpha beta (searchBody rec depth b alpha beta tt).1) := by
  unfold searchBody
  by_cases hgo : is_game_over b = true
  · rw [if_pos hgo]
    refine ⟨ht, fun _ => ?_⟩
    have hr := final_score_range b hb
    have hm := minimax_game_over b hgo
    refine ⟨hr.1, hr.2, fun _ => by simp only; omega, fun _ => by simp only; omega, fun h => ?_⟩
    rw [hgo] at h
    exact absurd h (by simp)
  rw [if_neg hgo]
  have hgo1 : is_game_over b = false := by simpa using hgo
  simp only
  generalize (hash_board b >>> 40) &&& (TT_SIZE - 1) = idx
  have hhint : (if decide ((tt idx).key = hash_board b) = true then (tt idx).move else -1)
      ≤ 5 := by
    split_ifs
    · exact (ht idx).1
    · omega
  by_cases hret : decide ((tt idx).key = hash_board b) = true ∧
      ((tt idx).solved = true ∨ (tt idx).depth ≥ depth) ∧
      ((tt idx).bound = EXACT ∨
        ((tt idx).bound = LOWER ∧ (tt idx).score + ((b.store : Int) - (b.opp_store : Int)) ≥ beta) ∨
        ((tt idx).bound = UPPER ∧ (tt idx).score + ((b.store : Int) - (b.opp_store : Int)) ≤ alpha))
  · rw [if_pos hret]
    refine ⟨ht, fun hs => ?_⟩
    simp only at hs
    obtain ⟨hkey, _, hbound⟩ := hret
    obtain ⟨b0, hb0, _, hk0, he0⟩ := (ht idx).2 hs
    have hkey1 : (tt idx).key = hash_board b := by simpa using hkey
    have hsame : SameP b b0 := SameP_of_hash b b0 hb hb0 (by rw [← hkey1, hk0])
    obtain ⟨e1, e2, e3, e4⟩ := EntryOK_transfer (tt idx) b b0 hsame hb hb0 (ht idx).1 he0
    have hmv := moveValue_le_minimax b (tt idx).move.toNat hgo1
      (by simp only [PITS]; have := (ht idx).1; omega) e2
    have hmr := minimax_range b hb
    have hd : diff b = (b.store : Int) - (b.opp_store : Int) := rfl
    rw [hd] at e3 e4
    simp only [hkey, if_true]
    simp only [EXACT, LOWER, UPPER] at hbound e3 e4
    unfold ResultOK
    simp only
    rcases hbound with h0 | ⟨h1, hv⟩ | ⟨h2, hv⟩
    · have := e3 (by omega)
      have := e4 (by omega)
      exact ⟨by omega, by omega, fun _ => by omega, fun _ => by omega,
        fun _ => ⟨e1, (ht idx).1, e2, fun _ => by omega⟩⟩
    · have := e3 (by omega)
      exact ⟨by omega, by omega, fun _ => by omega, fun _ => by omega,
        fun _ => ⟨e1, (ht idx).1, e2, fun _ => by omega⟩⟩
    · have := e4 (by omega)
      exact ⟨by omega, by omega, fun _ => by omega, fun _ => by omega,
        fun _ => ⟨e1, (ht idx).1, e2, fun _ => by omega⟩⟩
  · rw [if_neg hret]
    by_cases hd0 : depth ≤ 0
    · rw [if_pos hd0]
      exact ⟨ht, fun h => absurd h (by simp)⟩
    · rw [if_neg hd0]
      generalize (if decide ((tt idx).key = hash_board b) = true then (tt idx).move else -1)
        = hint at hhint ⊢
      have hrec1 := hrec (by omega)
      have hinit : LoopInv b alpha beta (fun _ => False) ⟨alpha, -100, -1, true, tt⟩ := by
        refine ⟨ht, ?_, by simp, by simp, fun _ => ⟨by simp, Or.inl rfl, fun p hp => absurd hp id,
          fun h => absurd h (by simp)⟩⟩
        simp only
        rw [max_eq_left (by omega)]
      have hloop : ∃ S : Nat → Prop, (∀ p, p < PITS → b.pit p ≠ 0 → S p) ∧
          LoopInv b alpha beta S (searchLoop rec b hint beta [-1, 0, 1, 2, 3, 4, 5]
            ⟨alpha, -100, -1, true, tt⟩) := by
        have hcov : ∀ (S : Nat → Prop) (p : Nat), p < PITS → b.pit p ≠ 0 →
            (S p ∨ (b.pit p ≠ 0 ∧ ∃ i ∈ ([0, 1, 2, 3, 4, 5] : List Int), p = (5 - i).toNat)) := by
          intro S p hp hne
          right
          refine ⟨hne, 5 - (p : Int), ?_, by omega⟩
          simp only [PITS] at hp
          interval_cases p <;> simp
        have hl : ∀ i ∈ ([0, 1, 2, 3, 4, 5] : List Int), 0 ≤ i ∧ i ≤ 5 := by
          intro i hi
          simp only [List.mem_cons, List.mem_singleton, List.not_mem_nil, or_false] at hi
          omega
        rw [searchLoop]
        simp only
        rw [if_neg (not_not.2 hab), if_pos (by decide : (-1 : Int) < 0)]
        by_cases hskip : hint < 0 ∨ b.pit hint.toNat = 0
        · rw [if_pos hskip]
          exact ⟨_, fun p hp hne => hcov _ p hp hne,
            searchLoop_ok rec hrec1 b hb hint alpha beta ha hab hb36 _ _ _ hl hinit
              (fun h1 _ h3 => by
                rcases hskip with h | h
                · omega
                · exact h3 h)⟩
        · rw [if_neg hskip, if_neg (by simp)]
          have h0 : 0 ≤ hint := by
            by_contra hc
            exact hskip (Or.inl (by omega))
          have hne : b.pit hint.toNat ≠ 0 := fun h => hskip (Or.inr h)
          have hp : hint.toNat < PITS := by simp only [PITS]; omega
          obtain ⟨m1, m2⟩ := searchMove_ok rec hrec1 b hint.toNat alpha beta tt hp hb ha hab
            hb36 ht
          have hnew := loopUpdate_inv b alpha beta (fun _ => False) ⟨alpha, -100, -1, true, tt⟩
            hint.toNat _ ha hinit hp hne m1 m2
          have hcast : ((hint.toNat : Nat) : Int) = hint := Int.toNat_of_nonneg h0
          rw [hcast] at hnew
          exact ⟨_, fun p hp hne => hcov _ p hp hne,
            searchLoop_ok rec hrec1 b hb hint alpha beta ha hab hb36 _ _ _ hl hnew
              (fun _ _ _ => Or.inr rfl)⟩
      obtain ⟨S, hS, hinv⟩ := hloop
      exact searchFinish_ok depth idx _ b alpha beta S _ hb hgo1 hab hinv hS

/-- Correctness of `search`: the table invariant is kept and a solved result is right. -/
theorem search_ok (d : Nat) : ∀ (b : Board) (alpha beta : Int) (tt : TT), total b = 36 →
    -36 ≤ alpha → alpha < beta → beta ≤ 36 → TTOK tt →
    TTOK (search d b alpha beta tt).2 ∧
    ((search d b alpha beta tt).1.solved = true →
      ResultOK b alpha beta (search d b alpha beta tt).1) := by
  induction d with
  | zero =>
    intro b alpha beta tt hb ha hab hb36 ht
    rw [search]
    exact searchBody_ok _ 0 (fun h => absurd h (by omega)) b alpha beta tt hb ha hab hb36 ht
  | succ d ih =>
    intro b alpha beta tt hb ha hab hb36 ht
    rw [search]
    exact searchBody_ok (search d) _ (fun _ => ih) b alpha beta tt hb ha hab hb36 ht

theorem TTOK_clear : TTOK tt_clear := by
  intro j
  simp [tt_clear]

theorem root_exact (b : Board) (r : Result) (hb : total b = 36)
    (h : ResultOK b (-36) 36 r) : r.score = minimax b := by
  obtain ⟨h1, h2, h3, h4, _⟩ := h
  have hm := minimax_range b hb
  by_cases c1 : r.score < 36
  · have := h3 c1
    by_cases c2 : -36 < r.score
    · have := h4 c2
      omega
    · omega
  · have := h4 (by omega)
    omega

theorem root_move (b : Board) (r : Result) (hb : total b = 36) (hgo : is_game_over b = false)
    (h : ResultOK b (-36) 36 r) :
    0 ≤ r.move ∧ r.move ≤ 5 ∧ b.pit r.move.toNat ≠ 0 ∧ moveValue b r.move.toNat = r.score := by
  have hex := root_exact b r hb h
  obtain ⟨h1, h2, h3, h4, h5⟩ := h
  obtain ⟨m1, m2, m3, m4⟩ := h5 hgo
  have hp : r.move.toNat < PITS := by simp only [PITS]; omega
  have hle := moveValue_le_minimax b r.move.toNat hgo hp m3
  have hr := moveValue_range b r.move.toNat hp hb
  refine ⟨m1, m2, m3, ?_⟩
  by_cases c : -36 < r.score
  · have := m4 c
    omega
  · omega

theorem search_full_loop_ok (b : Board) (hb : total b = 36) (fuel : Nat) :
    ∀ (d : Nat) (tt : TT) (r : Result × TT), TTOK tt →
    search_full_loop fuel d b tt = some r →
    r.1.solved = true ∧ ResultOK b (-36) 36 r.1 := by
  induction fuel with
  | zero => intro d tt r _ h; simp [search_full_loop] at h
  | succ fuel ih =>
    intro d tt r ht h
    obtain ⟨k1, k2⟩ := search_ok d b (-36) 36 tt hb (by omega) (by omega) (by omega) ht
    rw [search_full_loop] at h
    by_cases hs : (search d b (-36) 36 tt).1.solved = true
    · rw [if_pos hs] at h
      have e : search d b (-36) 36 tt = r := by simpa using h
      rw [← e]
      exact ⟨hs, k2 hs⟩
    · rw [if_neg hs] at h
      exact ih (d + 1) _ r k1 h

/-! ## Further facts: flips, solved table slots, game length -/

theorem bal_eq (b : Board) : bal b =
    ((b.ring 0 : Int) - b.ring 7) + ((b.ring 1 : Int) - b.ring 8)
    + ((b.ring 2 : Int) - b.ring 9) + ((b.ring 3 : Int) - b.ring 10)
    + ((b.ring 4 : Int) - b.ring 11) + ((b.ring 5 : Int) - b.ring 12) := by
  simp only [bal, range_PITS, List.foldl_cons, List.foldl_nil, Board.pit,
    Board.opp_pit, HALF, PITS, Nat.reduceAdd]
  ring

theorem total_of_reachable (b : Board) (h : Reachable b) : total b = 36 := by
  induction h with
  | start => decide
  | sow b p _ hp _ ih => rw [total_sow b p hp (by omega), ih]
  | flip b _ ih => rw [total_flip, ih]

theorem flip_flip (b : Board) : flip (flip b) = b := by
  cases b with
  | mk r =>
    have h : (flip (flip ⟨r⟩)).ring = r := by
      funext j
      rw [flip_ring]
      by_cases h7 : j < 7
      · rw [if_pos h7, flip_ring, if_neg (by omega), if_pos (by omega)]
        congr 1
      · by_cases h14 : j < 14
        · rw [if_neg h7, if_pos h14, flip_ring, if_pos (by omega)]
          congr 1
          omega
        · rw [if_neg h7, if_neg h14, flip_ring, if_neg h7, if_neg h14]
    cases hf : flip (flip ⟨r⟩) with
    | mk r1 =>
      rw [hf] at h
      simp only at h
      rw [h]

theorem xor_one_ne (t : Nat) : t ^^^ 1 ≠ t := by
  intro h
  have := congrArg (fun x => x ^^^ t) h
  simp only at this
  rw [Nat.xor_comm (t ^^^ 1), ← Nat.xor_assoc, Nat.xor_self, Nat.zero_xor] at this
  exact absurd this (by decide)

theorem xor_one_lt (t : Nat) (h : t < 256) : t ^^^ 1 < 256 :=
  Nat.xor_lt_two_pow (n := 8) h (by decide)

theorem SolvedKept_refl (t : TT) : SolvedKept t t := fun _ h => h

theorem SolvedKept_trans (t t1 t2 : TT) (h : SolvedKept t t1) (h1 : SolvedKept t1 t2) :
    SolvedKept t t2 := fun j hj => h1 j (h j hj)

theorem searchMove_kept (rec : Board → Int → Int → TT → Result × TT)
    (hrec : ∀ (c : Board) (a e : Int) (t : TT), SolvedKept t (rec c a e t).2)
    (board : Board) (p : Nat) (a e : Int) (t : TT) :
    SolvedKept t (searchMove rec board p a e t).2 := by
  unfold searchMove
  by_cases h : (sow board p).2 = true
  · simp only [h, if_true]
    exact hrec _ _ _ _
  · simp only [h]
    exact hrec _ _ _ _

theorem searchLoop_kept (rec : Board → Int → Int → TT → Result × TT)
    (hrec : ∀ (c : Board) (a e : Int) (t : TT), SolvedKept t (rec c a e t).2)
    (board : Board) (hint beta : Int) :
    ∀ (l : List Int) (s : LoopState), SolvedKept s.tt (searchLoop rec board hint beta l s).tt := by
  intro l
  induction l with
  | nil => intro s; exact SolvedKept_refl _
  | cons i rest ih =>
    intro s
    rw [searchLoop]
    by_cases hab : ¬ (s.alpha < beta)
    · rw [if_pos hab]
      exact SolvedKept_refl _
    · rw [if_neg hab]
      simp only
      by_cases h1 : (if i < 0 then hint else (PITS : Int) - 1 - i) < 0 ∨
          board.pit (if i < 0 then hint else (PITS : Int) - 1 - i).toNat = 0
      · rw [if_pos h1]
        exact ih s
      · rw [if_neg h1]
        by_cases h2 : 0 ≤ i ∧ (if i < 0 then hint else (PITS : Int) - 1 - i) = hint
        · rw [if_pos h2]
          exact ih s
        · rw [if_neg h2]
          refine SolvedKept_trans _ _ _ ?_ (ih _)
          rw [loopUpdate_tt]
          exact searchMove_kept rec hrec _ _ _ _ _

theorem searchFinish_kept (depth : Int) (hash idx : Nat) (hit : Bool) (sd oa beta : Int)
    (st : LoopState) : SolvedKept st.tt (searchFinish depth hash idx hit sd oa beta st).2 := by
  unfold searchFinish
  simp only
  by_cases hw : st.solved = true ∨
      ((hit = false ∨ depth ≥ (st.tt idx).depth) ∧ (st.tt idx).solved = false)
  · rw [if_pos hw]
    intro j hj
    by_cases hji : j = idx
    · simp only [hji, if_true]
      rcases hw with hw | hw
      · exact hw
      · rw [hji, hw.2] at hj
        exact absurd hj (by simp)
    · simp only [hji, if_false]
      exact hj
  · rw [if_neg hw]
    exact SolvedKept_refl _

theorem searchBody_kept (rec : Board → Int → Int → TT → Result × TT)
    (hrec : ∀ (c : Board) (a e : Int) (t : TT), SolvedKept t (rec c a e t).2)
    (depth : Int) (b : Board) (alpha beta : Int) (tt : TT) :
    SolvedKept tt (searchBody rec depth b alpha beta tt).2 := by
  unfold searchBody
  by_cases hgo : is_game_over b = true
  · rw [if_pos hgo]
    exact SolvedKept_refl _
  rw [if_neg hgo]
  simp only
  generalize (hash_board b >>> 40) &&& (TT_SIZE - 1) = idx
  generalize (if decide ((tt idx).key = hash_board b) = true then (tt idx).move else -1)
    = hint
  split_ifs with h1 h2
  · exact SolvedKept_refl _
  · exact SolvedKept_refl _
  · exact SolvedKept_trans _ _ _
      (searchLoop_kept rec hrec b _ beta _ ⟨alpha, -100, -1, true, tt⟩)
      (searchFinish_kept _ _ _ _ _ _ _ _)

theorem search_kept (d : Nat) : ∀ (b : Board) (alpha beta : Int) (tt : TT),
    SolvedKept tt (search d b alpha beta tt).2 := by
  induction d with
  | zero =>
    intro b alpha beta tt
    rw [search]
    exact searchBody_kept _ (fun _ _ _ t => SolvedKept_refl t) _ _ _ _ _
  | succ d ih =>
    intro b alpha beta tt
    rw [search]
    exact searchBody_kept _ ih _ _ _ _ _

theorem searchFinish_unsolved (depth : Int) (hash idx : Nat) (hit : Bool) (sd oa beta : Int)
    (st : LoopState) (hu : st.solved = false) :
    (searchFinish depth hash idx hit sd oa beta st).1.solved = false ∧
    ((searchFinish depth hash idx hit sd oa beta st).2 = st.tt ∨
      ((st.tt idx).solved = false ∧ (hit = false ∨ (st.tt idx).depth ≤ depth))) := by
  unfold searchFinish
  simp only
  by_cases hw : st.solved = true ∨
      ((hit = false ∨ depth ≥ (st.tt idx).depth) ∧ (st.tt idx).solved = false)
  · rw [if_pos hw]
    refine ⟨hu, Or.inr ?_⟩
    rcases hw with hw | hw
    · rw [hu] at hw
      exact absurd hw (by simp)
    · exact ⟨hw.2, hw.1⟩
  · rw [if_neg hw]
    exact ⟨hu, Or.inl rfl⟩

theorem heightFuel_le (f : Nat) : ∀ b : Board, heightFuel f b ≤ f := by
  induction f with
  | zero => intro b; simp [heightFuel]
  | succ f ih =>
    intro b
    simp only [heightFuel]
    split_ifs with hgo
    · omega
    · obtain ⟨p, _, _, hv⟩ := maxOverMoves_attained (fun p => heightFuel f (child b p) + 1) b
        (by simpa using hgo) (fun p => Nat.succ_pos _)
      rw [hv]
      have := ih (child b p)
      omega

theorem height_le_rank_aux (n : Nat) : ∀ b : Board, rank b ≤ n → height b ≤ rank b := by
  induction n with
  | zero =>
    intro b hb
    by_cases hgo : is_game_over b = true
    · rw [height_game_over b hgo]
      exact Nat.zero_le _
    · obtain ⟨p, hp, hne, _⟩ := height_attained b (by simpa using hgo)
      have := rank_child b p hp hne
      omega
  | succ n ih =>
    intro b hb
    by_cases hgo : is_game_over b = true
    · rw [height_game_over b hgo]
      exact Nat.zero_le _
    · obtain ⟨p, hp, hne, hv⟩ := height_attained b (by simpa using hgo)
      have h2 := rank_child b p hp hne
      have := ih (child b p) (by omega)
      omega

theorem height_le_rank (b : Board) : height b ≤ rank b := height_le_rank_aux _ b (le_refl _)

theorem searchFinish_frame (depth : Int) (hash idx : Nat) (hit : Bool) (sd oa beta : Int)
    (st : LoopState) :
    (searchFinish depth hash idx hit sd oa beta st).1.solved = st.solved ∧
    ∀ j, j ≠ idx → (searchFinish depth hash idx hit sd oa beta st).2 j = st.tt j := by
  unfold searchFinish
  simp only
  by_cases hw : st.solved = true ∨
      ((hit = false ∨ depth ≥ (st.tt idx).depth) ∧ (st.tt idx).solved = false)
  · rw [if_pos hw]
    exact ⟨rfl, fun j hj => by simp only [hj, if_false]⟩
  · rw [if_neg hw]
    exact ⟨rfl, fun j _ => rfl⟩

theorem searchBody_shape (rec : Board → Int → Int → TT → Result × TT)
    (hrec : ∀ (c : Board) (a e : Int) (t : TT), SolvedKept t (rec c a e t).2)
    (depth : Int) (b : Board) (alpha beta : Int) (tt : TT) :
    (searchBody rec depth b alpha beta tt).2 = tt ∨
    ∃ st : LoopState, SolvedKept tt st.tt ∧
      searchBody rec depth b alpha beta tt =
        searchFinish depth (hash_board b) ((hash_board b >>> 40) &&& (TT_SIZE - 1))
          (decide ((tt ((hash_board b >>> 40) &&& (TT_SIZE - 1))).key = hash_board b))
          ((b.store : Int) - (b.opp_store : Int)) alpha beta st := by
  unfold searchBody
  by_cases hgo : is_game_over b = true
  · rw [if_pos hgo]
    exact Or.inl rfl
  rw [if_neg hgo]
  simp only
  generalize (hash_board b >>> 40) &&& (TT_SIZE - 1) = idx
  generalize (if decide ((tt idx).key = hash_board b) = true then (tt idx).move else -1)
    = hint
  split_ifs with h1 h2
  · exact Or.inl rfl
  · exact Or.inl rfl
  · exact Or.inr ⟨_, searchLoop_kept rec hrec b hint beta _ ⟨alpha, -100, -1, true, tt⟩, rfl⟩

theorem search_shape (d : Nat) (b : Board) (alpha beta : Int) (tt : TT) :
    (search d b alpha beta tt).2 = tt ∨
    ∃ st : LoopState, SolvedKept tt st.tt ∧
      search d b alpha beta tt =
        searchFinish (d : Int) (hash_board b) ((hash_board b >>> 40) &&& (TT_SIZE - 1))
          (decide ((tt ((hash_board b >>> 40) &&& (TT_SIZE - 1))).key = hash_board b))
          ((b.store : Int) - (b.opp_store : Int)) alpha beta st := by
  cases d with
  | zero =>
    rw [search]
    exact searchBody_shape _ (fun _ _ _ t => SolvedKept_refl t) _ _ _ _ _
  | succ d =>
    rw [search]
    have := searchBody_shape (search d) (search_kept d) ((d : Int) + 1) b alpha beta tt
    push_cast
    exact this

/-! ## Counting games: what `count_all` returns, and a lower bound for the start position -/

theorem sum_map_congr_mem (l : List Nat) (g g1 : Nat → Nat) (h : ∀ p ∈ l, g p = g1 p) :
    (l.map g).sum = (l.map g1).sum := by
  rw [List.map_congr_left h]

theorem leavesFuel_stable (f : Nat) : ∀ (b : Board) (f1 : Nat), rank b < f → rank b < f1 →
    leavesFuel f b = leavesFuel f1 b := by
  induction f with
  | zero => intro b f1 h; omega
  | succ f ih =>
    intro b f1 h h1
    obtain ⟨f1, rfl⟩ : ∃ k, f1 = k + 1 := ⟨f1 - 1, by omega⟩
    simp only [leavesFuel]
    split_ifs with hgo
    · rfl
    · apply sum_map_congr_mem
      intro p hp
      obtain ⟨hp1, hne⟩ := (mem_legalMoves b p).1 hp
      have := rank_child b p hp1 hne
      exact ih (child b p) f1 (by omega) (by omega)

theorem leaves_eq (b : Board) : leaves b =
    if is_game_over b then 1 else ((legalMoves b).map (fun p => leaves (child b p))).sum := by
  show (if is_game_over b then 1
    else ((legalMoves b).map (fun p => leavesFuel (rank b) (child b p))).sum) = _
  split_ifs with hgo
  · rfl
  · apply sum_map_congr_mem
    intro p hp
    obtain ⟨hp1, hne⟩ := (mem_legalMoves b p).1 hp
    have := rank_child b p hp1 hne
    exact leavesFuel_stable (rank b) (child b p) (rank (child b p) + 1) this (by omega)

theorem child_rel (b c : Board) (p : Nat) (hs : SameP b c) (hp : p < PITS)
    (hb : total b ≤ 255) (hc : total c ≤ 255) : SameP (child b p) (child c p) := by
  obtain ⟨r1, r2, _⟩ := sow_rel b c p hs hp hb hc
  unfold child
  simp only
  rw [← r1]
  by_cases ha : (sow b p).2 = true
  · rw [if_pos ha, if_pos ha]; exact r2
  · rw [if_neg ha, if_neg ha]; exact SameP_flip _ _ r2

theorem total_child_eq (b : Board) (p : Nat) (hp : p < PITS) (h : total b ≤ 255) :
    total (child b p) = total b := by
  have := total_sow b p hp h
  unfold child
  simp only
  split_ifs
  · exact this
  · rw [total_flip]; exact this

theorem leavesFuel_rel (f : Nat) : ∀ (b c : Board), SameP b c → total b ≤ 255 →
    total c ≤ 255 → leavesFuel f b = leavesFuel f c := by
  induction f with
  | zero => intro b c _ _ _; rfl
  | succ f ih =>
    intro b c hs hb hc
    simp only [leavesFuel]
    rw [← SameP_game_over b c hs, ← SameP_legalMoves b c hs]
    split_ifs with hgo
    · rfl
    · apply sum_map_congr_mem
      intro p hp
      obtain ⟨hp1, _⟩ := (mem_legalMoves b p).1 hp
      exact ih _ _ (child_rel b c p hs hp1 hb hc) (by rw [total_child_eq b p hp1 hb]; exact hb)
        (by rw [total_child_eq c p hp1 hc]; exact hc)

theorem leaves_rel (b c : Board) (hs : SameP b c) (hb : total b ≤ 255) (hc : total c ≤ 255) :
    leaves b = leaves c := by
  unfold leaves
  rw [SameP_rank b c hs]
  exact leavesFuel_rel _ b c hs hb hc

theorem leaves_game_over (b : Board) (h : is_game_over b = true) : leaves b = 1 := by
  rw [leaves_eq, if_pos h]

theorem SameP_of_hash_le (b c : Board) (hb : total b ≤ 36) (hc : total c ≤ 36)
    (h : hash_board b = hash_board c) : SameP b c :=
  SameP_of_pitList b c (hash_board_inj b c (le_trans (pitSum_le_total b) hb)
    (le_trans (pitSum_le_total c) hc) h)

theorem countLoop_ok (rec : Board → CTable → Nat × CTable) (b : Board)
    (hrec : ∀ (p : Nat) (t : CTable), p < PITS → b.pit p ≠ 0 → CTOK t →
      (rec (child b p) t).1 = leaves (child b p) % 2 ^ 64 ∧ CTOK (rec (child b p) t).2) :
    ∀ (ps : List Nat) (s : Nat × CTable), (∀ p ∈ ps, p < PITS) → s.1 < 2 ^ 64 → CTOK s.2 →
      (countLoop rec b ps s).1 =
        (s.1 + ((ps.filter (fun p => b.pit p ≠ 0)).map (fun p => leaves (child b p))).sum)
          % 2 ^ 64 ∧
      CTOK (countLoop rec b ps s).2 := by
  intro ps
  induction ps with
  | nil =>
    intro s _ hs ht
    simp only [countLoop, List.filter_nil, List.map_nil, List.sum_nil, Nat.add_zero]
    exact ⟨(Nat.mod_eq_of_lt hs).symm, ht⟩
  | cons p ps ih =>
    intro s hps hs ht
    have hp : p < PITS := hps p (List.mem_cons_self _ _)
    have hps1 : ∀ q ∈ ps, q < PITS := fun q hq => hps q (List.mem_cons_of_mem _ hq)
    rw [countLoop]
    by_cases h0 : b.pit p = 0
    · rw [if_pos h0]
      have hf : (p :: ps).filter (fun p => b.pit p ≠ 0) = ps.filter (fun p => b.pit p ≠ 0) := by
        rw [List.filter_cons_of_neg (by simpa using h0)]
      rw [hf]
      exact ih s hps1 hs ht
    · rw [if_neg h0]
      have hf : (p :: ps).filter (fun p => b.pit p ≠ 0) =
          p :: ps.filter (fun p => b.pit p ≠ 0) := by
        rw [List.filter_cons_of_pos (by simpa using h0)]
      rw [hf]
      obtain ⟨r1, r2⟩ := hrec p s.2 hp h0 ht
      have := ih ((s.1 + (rec (child b p) s.2).1) % 2 ^ 64, (rec (child b p) s.2).2) hps1
        (Nat.mod_lt _ (by decide)) r2
      refine ⟨?_, this.2⟩
      rw [this.1]
      simp only [List.map_cons, List.sum_cons]
      rw [r1]
      omega

theorem CTOK_clear : CTOK ct_clear := by
  intro j hj
  simp [ct_clear] at hj

theorem count_allFuel_ok (f : Nat) : ∀ (b : Board) (t : CTable), rank b < f → total b ≤ 36 →
    CTOK t → (count_allFuel f b t).1 = leaves b % 2 ^ 64 ∧ CTOK (count_allFuel f b t).2 := by
  induction f with
  | zero => intro b t h; omega
  | succ f ih =>
    intro b t hr hb ht
    rw [count_allFuel]
    by_cases hgo : is_game_over b = true
    · rw [if_pos hgo, leaves_game_over b hgo]
      exact ⟨rfl, ht⟩
    rw [if_neg hgo]
    simp only
    by_cases hit : t.ct_valid ((hash_board b >>> 40) &&& (CT_SIZE - 1)) = true ∧
        (t.ct ((hash_board b >>> 40) &&& (CT_SIZE - 1))).key = hash_board b
    · rw [if_pos hit]
      obtain ⟨b0, hb0, hk, hc⟩ := ht _ hit.1
      refine ⟨?_, ht⟩
      simp only
      rw [hc]
      have hs := SameP_of_hash_le b b0 hb hb0 (by rw [← hk, hit.2])
      rw [leaves_rel b b0 hs (by omega) (by omega)]
    · rw [if_neg hit]
      have hloop := countLoop_ok (count_allFuel f) b
        (fun p t1 hp hne ht1 => ih (child b p) t1
          (by have := rank_child b p hp hne; omega)
          (by rw [total_child_eq b p hp (by omega)]; exact hb) ht1)
        (List.range PITS) (0, t) (fun p hp => List.mem_range.1 hp)
        (show (0 : Nat) < 2 ^ 64 by decide) ht
      have hval : (countLoop (count_allFuel f) b (List.range PITS) (0, t)).1
          = leaves b % 2 ^ 64 := by
        rw [hloop.1, leaves_eq b, if_neg hgo]
        simp only [Nat.zero_add]
        rfl
      refine ⟨hval, ?_⟩
      intro j hj
      simp only [CTable.write] at hj ⊢
      by_cases hji : j = (hash_board b >>> 40) &&& (CT_SIZE - 1)
      · simp only [hji, if_true]
        exact ⟨b, hb, rfl, hval⟩
      · simp only [hji, if_false] at hj ⊢
        exact hloop.2 j hj

theorem count_all_ok (b : Board) (hb : total b ≤ 36) :
    (count_all b ct_clear).1 = leaves b % 2 ^ 64 :=
  (count_allFuel_ok _ b ct_clear (Nat.lt_succ_self _) hb CTOK_clear).1

theorem flatMap_congr_mem (l : List Nat) (g g1 : Nat → List (List Nat))
    (h : ∀ p ∈ l, g p = g1 p) : l.flatMap g = l.flatMap g1 := by
  induction l with
  | nil => rfl
  | cons a l ih =>
    simp only [List.flatMap_cons]
    rw [h a (List.mem_cons_self _ _), ih (fun p hp => h p (List.mem_cons_of_mem _ hp))]

theorem gamesFuel_stable (f : Nat) : ∀ (b : Board) (f1 : Nat), rank b < f → rank b < f1 →
    gamesFuel f b = gamesFuel f1 b := by
  induction f with
  | zero => intro b f1 h; omega
  | succ f ih =>
    intro b f1 h h1
    obtain ⟨f1, rfl⟩ : ∃ k, f1 = k + 1 := ⟨f1 - 1, by omega⟩
    simp only [gamesFuel]
    split_ifs with hgo
    · rfl
    · apply flatMap_congr_mem
      intro p hp
      obtain ⟨hp1, hne⟩ := (mem_legalMoves b p).1 hp
      have := rank_child b p hp1 hne
      rw [ih (child b p) f1 (by omega) (by omega)]

theorem games_eq (b : Board) : games b =
    if is_game_over b then [[]]
    else (legalMoves b).flatMap (fun p => (games (child b p)).map (fun ms => p :: ms)) := by
  show (if is_game_over b then [[]]
    else (legalMoves b).flatMap
      (fun p => (gamesFuel (rank b) (child b p)).map (fun ms => p :: ms))) = _
  split_ifs with hgo
  · rfl
  · apply flatMap_congr_mem
    intro p hp
    obtain ⟨hp1, hne⟩ := (mem_legalMoves b p).1 hp
    have := rank_child b p hp1 hne
    rw [gamesFuel_stable (rank b) (child b p) (rank (child b p) + 1) this (by omega)]
    rfl

theorem length_flatMap_sum (l : List Nat) (g : Nat → List (List Nat)) :
    (l.flatMap g).length = (l.map (fun p => (g p).length)).sum := by
  induction l with
  | nil => rfl
  | cons a l ih => simp only [List.flatMap_cons, List.length_append, List.map_cons, List.sum_cons, ih]

theorem games_length_aux (n : Nat) : ∀ b : Board, rank b ≤ n → (games b).length = leaves b := by
  induction n with
  | zero =>
    intro b hb
    rw [games_eq, leaves_eq]
    by_cases hgo : is_game_over b = true
    · rw [if_pos hgo, if_pos hgo]; rfl
    · obtain ⟨p, hp, hne⟩ := exists_move b (by simpa using hgo)
      have := rank_child b p hp hne
      omega
  | succ n ih =>
    intro b hb
    rw [games_eq, leaves_eq]
    by_cases hgo : is_game_over b = true
    · rw [if_pos hgo, if_pos hgo]; rfl
    · rw [if_neg hgo, if_neg hgo, length_flatMap_sum]
      apply sum_map_congr_mem
      intro p hp
      obtain ⟨hp1, hne⟩ := (mem_legalMoves b p).1 hp
      have := rank_child b p hp1 hne
      rw [List.length_map]
      exact ih _ (by omega)

theorem games_length (b : Board) : (games b).length = leaves b :=
  games_length_aux _ b (le_refl _)

theorem mem_games (ms : List Nat) : ∀ b : Board, ms ∈ games b ↔ CompleteGame b ms := by
  induction ms with
  | nil =>
    intro b
    rw [games_eq]
    by_cases hgo : is_game_over b = true
    · rw [if_pos hgo]
      simp [CompleteGame, hgo]
    · rw [if_neg hgo]
      simp only [CompleteGame, List.mem_flatMap, List.mem_map]
      constructor
      · rintro ⟨p, _, ms, _, h⟩
        exact absurd h (by simp)
      · intro h
        exact absurd h hgo
  | cons p ms ih =>
    intro b
    rw [games_eq]
    by_cases hgo : is_game_over b = true
    · rw [if_pos hgo]
      simp [CompleteGame, hgo]
    · rw [if_neg hgo]
      simp only [CompleteGame, List.mem_flatMap, List.mem_map]
      constructor
      · rintro ⟨q, hq, ms1, hms1, h⟩
        simp only [List.cons.injEq] at h
        obtain ⟨rfl, rfl⟩ := h
        obtain ⟨hq1, hne⟩ := (mem_legalMoves b q).1 hq
        exact ⟨by simpa using hgo, hq1, hne, (ih _).1 hms1⟩
      · rintro ⟨_, hp, hne, hc⟩
        exact ⟨p, (mem_legalMoves b p).2 ⟨hp, hne⟩, ms, (ih _).2 hc, rfl⟩

theorem legalMoves_nodup (b : Board) : (legalMoves b).Nodup := by
  unfold legalMoves
  exact List.Nodup.filter _ (List.nodup_range _)

theorem games_nodup_aux (n : Nat) : ∀ b : Board, rank b ≤ n → (games b).Nodup := by
  induction n with
  | zero =>
    intro b hb
    rw [games_eq]
    by_cases hgo : is_game_over b = true
    · rw [if_pos hgo]; simp
    · obtain ⟨p, hp, hne⟩ := exists_move b (by simpa using hgo)
      have := rank_child b p hp hne
      omega
  | succ n ih =>
    intro b hb
    rw [games_eq]
    by_cases hgo : is_game_over b = true
    · rw [if_pos hgo]; simp
    · rw [if_neg hgo]
      rw [List.nodup_flatMap]
      constructor
      · intro p hp
        obtain ⟨hp1, hne⟩ := (mem_legalMoves b p).1 hp
        have := rank_child b p hp1 hne
        exact (ih _ (by omega)).map (fun a c h => by simpa using h)
      · apply List.Nodup.pairwise_of_forall_ne (legalMoves_nodup b)
        intro p _ q _ hpq
        intro ms h1 h2
        simp only [List.mem_map] at h1 h2
        obtain ⟨m1, _, rfl⟩ := h1
        obtain ⟨m2, _, h⟩ := h2
        simp only [List.cons.injEq] at h
        exact hpq h.1.symm

theorem games_nodup (b : Board) : (games b).Nodup := games_nodup_aux _ b (le_refl _)

theorem list14 (l : List Nat) (h : l.length = 14) :
    ∃ a0 a1 a2 a3 a4 a5 a6 a7 a8 a9 a10 a11 a12 a13 : Nat,
      l = [a0, a1, a2, a3, a4, a5, a6, a7, a8, a9, a10, a11, a12, a13] := by
  rcases l with _ | ⟨a0, l⟩
  · simp at h
  rcases l with _ | ⟨a1, l⟩
  · simp at h
  rcases l with _ | ⟨a2, l⟩
  · simp at h
  rcases l with _ | ⟨a3, l⟩
  · simp at h
  rcases l with _ | ⟨a4, l⟩
  · simp at h
  rcases l with _ | ⟨a5, l⟩
  · simp at h
  rcases l with _ | ⟨a6, l⟩
  · simp at h
  rcases l with _ | ⟨a7, l⟩
  · simp at h
  rcases l with _ | ⟨a8, l⟩
  · simp at h
  rcases l with _ | ⟨a9, l⟩
  · simp at h
  rcases l with _ | ⟨a10, l⟩
  · simp at h
  rcases l with _ | ⟨a11, l⟩
  · simp at h
  rcases l with _ | ⟨a12, l⟩
  · simp at h
  rcases l with _ | ⟨a13, l⟩
  · simp at h
  rcases l with _ | ⟨a14, l⟩
  · exact ⟨a0, a1, a2, a3, a4, a5, a6, a7, a8, a9, a10, a11, a12, a13, rfl⟩
  · simp at h

theorem board_ext (b c : Board) (h : ∀ j, b.ring j = c.ring j) : b = c := by
  cases b with
  | mk r =>
    cases c with
    | mk r1 =>
      have : r = r1 := funext h
      rw [this]

theorem ofList_set (l : List Nat) (i v : Nat) (h : i < l.length) :
    (Board.ofList l).set i v = Board.ofList (l.set i v) := by
  apply board_ext
  intro j
  simp only [Board.set, Board.ofList, List.getD_eq_getElem?_getD, List.getElem?_set]
  by_cases hj : j = i
  · subst hj
    simp [h]
  · rw [if_neg hj, if_neg (fun e => hj e.symm)]

theorem ofList_ring (l : List Nat) (j : Nat) : (Board.ofList l).ring j = l.getD j 0 := rfl

theorem sowLoopL_eq (n : Nat) : ∀ (pos : Nat) (l : List Nat), l.length = 14 →
    sowLoop n pos (Board.ofList l) = ((sowLoopL n pos l).1, Board.ofList (sowLoopL n pos l).2) ∧
    (sowLoopL n pos l).2.length = 14 := by
  induction n with
  | zero => intro pos l h; exact ⟨rfl, h⟩
  | succ n ih =>
    intro pos l h
    simp only [sowLoop, sowLoopL]
    have hlt : (pos + 1) % (FULL - 1) < l.length := by
      rw [h]
      have : (pos + 1) % (FULL - 1) < FULL - 1 := Nat.mod_lt _ (by decide)
      simp only [FULL, HALF, PITS, Nat.reduceAdd, Nat.reduceMul, Nat.reduceSub] at this ⊢
      omega
    rw [ofList_ring, ofList_set _ _ _ hlt]
    exact ih _ _ (by rw [List.length_set]; exact h)

theorem sowFinishL_eq (pos : Nat) (l : List Nat) (hpos : pos < 13) (h : l.length = 14) :
    sowFinish pos (Board.ofList l) = (Board.ofList (sowFinishL pos l).1, (sowFinishL pos l).2) ∧
    (sowFinishL pos l).1.length = 14 := by
  unfold sowFinish sowFinishL
  by_cases h6 : pos = PITS
  · rw [if_pos h6, if_pos h6]
    exact ⟨rfl, h⟩
  · rw [if_neg h6, if_neg h6]
    by_cases hc : pos < PITS ∧ l.getD pos 0 = 1
    · rw [if_pos hc, if_pos (show pos < PITS ∧ (Board.ofList l).pit pos = 1 from hc)]
      simp only [Board.pit, Board.opp_pit, Board.store, ofList_ring]
      have hp := hc.1
      simp only [PITS, HALF, Nat.reduceAdd] at hp ⊢
      rw [ofList_set _ _ _ (by omega), ofList_set _ _ _ (by rw [List.length_set]; omega),
        ofList_set _ _ _ (by rw [List.length_set, List.length_set]; omega)]
      refine ⟨rfl, ?_⟩
      rw [List.length_set, List.length_set, List.length_set]
      exact h
    · rw [if_neg hc, if_neg (show ¬ (pos < PITS ∧ (Board.ofList l).pit pos = 1) from hc)]
      exact ⟨rfl, h⟩

theorem sowLoopL_pos (n : Nat) : ∀ (pos : Nat) (l : List Nat), pos < 13 →
    (sowLoopL n pos l).1 < 13 := by
  induction n with
  | zero => intro pos l h; exact h
  | succ n ih =>
    intro pos l _
    simp only [sowLoopL]
    exact ih _ _ (by
      simp only [FULL, HALF, PITS, Nat.reduceAdd, Nat.reduceMul, Nat.reduceSub]
      exact Nat.mod_lt _ (by decide))

theorem sowL_eq (l : List Nat) (p : Nat) (hp : p < PITS) (h : l.length = 14) :
    sow (Board.ofList l) p = (Board.ofList (sowL l p).1, (sowL l p).2) ∧
    (sowL l p).1.length = 14 := by
  simp only [PITS] at hp
  unfold sow sowL
  simp only [Board.pit, ofList_ring]
  rw [ofList_set _ _ _ (by omega)]
  have h1 := sowLoopL_eq (l.getD p 0) p (l.set p 0) (by rw [List.length_set]; exact h)
  rw [h1.1]
  exact sowFinishL_eq _ _ (sowLoopL_pos _ _ _ (by omega)) h1.2

theorem flipL_eq (l : List Nat) (h : l.length = 14) :
    flip (Board.ofList l) = Board.ofList (flipL l) ∧ (flipL l).length = 14 := by
  obtain ⟨a0, a1, a2, a3, a4, a5, a6, a7, a8, a9, a10, a11, a12, a13, rfl⟩ := list14 l h
  refine ⟨?_, rfl⟩
  apply board_ext
  intro j
  rw [flip_ring]
  simp only [ofList_ring, flipL, HALF, PITS, Nat.reduceAdd]
  by_cases h14 : j < 14
  · interval_cases j <;> rfl
  · rw [if_neg (by omega), if_neg h14]
    have e1 : ∀ (l1 : List Nat), l1.length = 14 → l1.getD j 0 = 0 := by
      intro l1 hl
      rw [List.getD_eq_getElem?_getD, List.getElem?_eq_none (by omega)]
      rfl
    rw [e1 [a0, a1, a2, a3, a4, a5, a6, a7, a8, a9, a10, a11, a12, a13] rfl]
    exact (e1 _ (by simp)).symm

theorem leaves_pos_aux (n : Nat) : ∀ b : Board, rank b ≤ n → 1 ≤ leaves b := by
  induction n with
  | zero =>
    intro b hb
    rw [leaves_eq]
    by_cases hgo : is_game_over b = true
    · rw [if_pos hgo]
    · obtain ⟨p, hp, hne⟩ := exists_move b (by simpa using hgo)
      have := rank_child b p hp hne
      omega
  | succ n ih =>
    intro b hb
    rw [leaves_eq]
    by_cases hgo : is_game_over b = true
    · rw [if_pos hgo]
    · rw [if_neg hgo]
      obtain ⟨p, hp, hne⟩ := exists_move b (by simpa using hgo)
      have hr := rank_child b p hp hne
      have h1 := ih (child b p) (by omega)
      have hmem : leaves (child b p) ∈ (legalMoves b).map (fun p => leaves (child b p)) :=
        List.mem_map.2 ⟨p, (mem_legalMoves b p).2 ⟨hp, hne⟩, rfl⟩
      have := List.single_le_sum (fun _ _ => Nat.zero_le _) _ hmem
      omega

theorem leaves_pos (b : Board) : 1 ≤ leaves b := leaves_pos_aux _ b (le_refl _)

theorem total_ofList (l : List Nat) (h : l.length = 14) : total (Board.ofList l) = l.sum := by
  obtain ⟨a0, a1, a2, a3, a4, a5, a6, a7, a8, a9, a10, a11, a12, a13, rfl⟩ := list14 l h
  rw [total_eq]
  simp only [ofList_ring, List.sum_cons, List.sum_nil]
  simp only [List.getD_cons_zero, List.getD_cons_succ]
  omega

theorem zero_stores (c : Board) :
    SameP ((c.set PITS 0).set (HALF + PITS) 0) c ∧
    total ((c.set PITS 0).set (HALF + PITS) 0) ≤ total c := by
  constructor
  · intro i hi h6
    simp only [Board.set_ring, PITS, HALF, Nat.reduceAdd]
    rw [if_neg (by omega), if_neg h6]
  · have h1 := total_set c PITS 0 (by decide)
    have h2 := total_set (c.set PITS 0) (HALF + PITS) 0 (by decide)
    omega

theorem childL_rel (l : List Nat) (p : Nat) (hp : p < PITS) (h : l.length = 14)
    (hs : l.sum ≤ 36) :
    leaves (Board.ofList (childL l p)) = leaves (child (Board.ofList l) p) := by
  have ht : total (Board.ofList l) ≤ 36 := by rw [total_ofList l h]; exact hs
  have hc := total_child_eq (Board.ofList l) p hp (by omega)
  have e : Board.ofList (childL l p) =
      ((child (Board.ofList l) p).set PITS 0).set (HALF + PITS) 0 := by
    obtain ⟨s1, s2⟩ := sowL_eq l p hp h
    unfold childL child
    simp only
    rw [s1]
    simp only
    by_cases ha : (sowL l p).2 = true
    · rw [if_pos ha, if_pos ha]
      rw [ofList_set _ _ _ (by rw [s2]; decide),
        ofList_set _ _ _ (by rw [List.length_set, s2]; decide)]
    · rw [if_neg ha, if_neg ha]
      obtain ⟨f1, f2⟩ := flipL_eq _ s2
      rw [f1, ofList_set _ _ _ (by rw [f2]; decide),
        ofList_set _ _ _ (by rw [List.length_set, f2]; decide)]
  rw [e]
  obtain ⟨z1, z2⟩ := zero_stores (child (Board.ofList l) p)
  exact leaves_rel _ _ z1 (by omega) (by omega)

theorem bump_weight (ch : List Nat) (c : Nat) : ∀ (acc a : List (List Nat × Nat)),
    bump acc ch c = some a →
    (a.map (fun e => e.2 * leaves (Board.ofList e.1))).sum =
      (acc.map (fun e => e.2 * leaves (Board.ofList e.1))).sum + c * leaves (Board.ofList ch) := by
  intro acc
  induction acc with
  | nil => intro a h; simp [bump] at h
  | cons e rest ih =>
    intro a h
    rw [bump] at h
    by_cases he : e.1 = ch
    · rw [if_pos he] at h
      simp only [Option.some.injEq] at h
      rw [← h]
      simp only [List.map_cons, List.sum_cons]
      rw [he]
      ring
    · rw [if_neg he] at h
      cases hb : bump rest ch c with
      | none => rw [hb] at h; simp at h
      | some r =>
        rw [hb] at h
        simp only [Option.some.injEq] at h
        rw [← h]
        simp only [List.map_cons, List.sum_cons]
        rw [ih r hb]
        ring

theorem lbKid_weight (s : List (List Nat × Nat) × Nat) (ch : List Nat) (c : Nat) :
    lbWeight (lbKid s ch c) ≤ lbWeight s + c * leaves (Board.ofList ch) := by
  unfold lbKid lbWeight
  cases hb : bump s.1 ch c with
  | none =>
    simp only
    have := leaves_pos (Board.ofList ch)
    have : c ≤ c * leaves (Board.ofList ch) := Nat.le_mul_of_pos_right c this
    omega
  | some a =>
    simp only
    rw [bump_weight ch c s.1 a hb]
    omega

theorem lbKids_weight (l : List Nat) (c : Nat) : ∀ (ps : List Nat)
    (s : List (List Nat × Nat) × Nat),
    lbWeight (ps.foldl (fun s p => lbKid s (childL l p) c) s) ≤
      lbWeight s + c * (ps.map (fun p => leaves (Board.ofList (childL l p)))).sum := by
  intro ps
  induction ps with
  | nil => intro s; simp
  | cons p ps ih =>
    intro s
    simp only [List.foldl_cons, List.map_cons, List.sum_cons]
    have h1 := ih (lbKid s (childL l p) c)
    have h2 := lbKid_weight s (childL l p) c
    rw [Nat.mul_add]
    omega

theorem lbNode_weight (s : List (List Nat × Nat) × Nat) (e : List Nat × Nat) :
    lbWeight (lbNode s e) ≤ lbWeight s + e.2 * leaves (Board.ofList e.1) := by
  unfold lbNode
  by_cases hv : e.1.length = 14 ∧ e.1.sum ≤ 36 ∧ is_game_over (Board.ofList e.1) = false
  · rw [if_pos hv]
    obtain ⟨h14, hsum, hgo⟩ := hv
    have h := lbKids_weight e.1 e.2 (legalMoves (Board.ofList e.1)) s
    have e1 : ((legalMoves (Board.ofList e.1)).map
        (fun p => leaves (Board.ofList (childL e.1 p)))).sum = leaves (Board.ofList e.1) := by
      rw [leaves_eq (Board.ofList e.1), if_neg (by simp [hgo])]
      apply sum_map_congr_mem
      intro p hp
      exact childL_rel e.1 p ((mem_legalMoves _ p).1 hp).1 h14 hsum
    rw [e1] at h
    exact h
  · rw [if_neg hv]
    have := leaves_pos (Board.ofList e.1)
    have : e.2 ≤ e.2 * leaves (Board.ofList e.1) := Nat.le_mul_of_pos_right e.2 this
    unfold lbWeight
    simp only
    omega

theorem lbNodes_weight : ∀ (es : List (List Nat × Nat)) (s : List (List Nat × Nat) × Nat),
    lbWeight (es.foldl lbNode s) ≤
      lbWeight s + (es.map (fun e => e.2 * leaves (Board.ofList e.1))).sum := by
  intro es
  induction es with
  | nil => intro s; simp
  | cons e es ih =>
    intro s
    simp only [List.foldl_cons, List.map_cons, List.sum_cons]
    have h1 := ih (lbNode s e)
    have h2 := lbNode_weight s e
    omega

theorem lbStep_weight (s : List (List Nat × Nat) × Nat) (keep : List Nat) :
    lbWeight (lbStep s keep) ≤ lbWeight s := by
  unfold lbStep
  have h := lbNodes_weight s.1 (keep.map (fun k => (unpack k, 0)), s.2)
  have h0 : lbWeight (keep.map (fun k => (unpack k, 0)), s.2) = s.2 := by
    unfold lbWeight
    simp only [List.map_map]
    have : ((fun e : List Nat × Nat => e.2 * leaves (Board.ofList e.1)) ∘
        (fun k => (unpack k, 0))) = fun _ => 0 := by
      funext k
      simp
    rw [this]
    simp
  rw [h0] at h
  unfold lbWeight
  exact h

theorem lbRun_weight : ∀ (cert : List (List Nat)) (s : List (List Nat × Nat) × Nat),
    lbWeight (cert.foldl lbStep s) ≤ lbWeight s := by
  intro cert
  induction cert with
  | nil => intro s; exact le_refl _
  | cons k cert ih =>
    intro s
    simp only [List.foldl_cons]
    exact le_trans (ih _) (lbStep_weight s k)

theorem lbBound_le (s : List (List Nat × Nat) × Nat) : lbBound s ≤ lbWeight s := by
  unfold lbBound lbWeight
  have : (s.1.map (fun e => e.2)).sum ≤
      (s.1.map (fun e => e.2 * leaves (Board.ofList e.1))).sum := by
    apply List.sum_le_sum
    intro e _
    exact Nat.le_mul_of_pos_right e.2 (leaves_pos _)
  omega

theorem lbWeight_single (l : List Nat) : lbWeight ([(l, 1)], 0) = leaves (Board.ofList l) := by
  unfold lbWeight
  simp only [List.map_cons, List.map_nil, List.sum_cons, List.sum_nil]
  rw [Nat.zero_add, Nat.add_zero, Nat.one_mul]

theorem startState_weight : lbWeight startState = leaves START_BOARD :=
  lbWeight_single [3, 3, 3, 3, 3, 3, 0, 3, 3, 3, 3, 3, 3, 0]

set_option maxRecDepth 1000000 in
theorem startLines_bound : 2 ^ 64 ≤ lbBound (startLines.foldl lbStep startState) := by
  decide!

/-- From the start position more than `2 ^ 64` complete games can be played. -/
theorem leaves_start : 2 ^ 64 ≤ leaves START_BOARD :=
  le_trans startLines_bound (le_trans (lbBound_le _)
    (le_trans (lbRun_weight startLines startState) (le_of_eq startState_weight)))

theorem countLoop_congr (rec rec1 : Board → CTable → Nat × CTable) (b : Board)
    (h : ∀ (p : Nat) (t : CTable), p < PITS → b.pit p ≠ 0 → rec (child b p) t = rec1 (child b p) t) :
    ∀ (ps : List Nat) (s : Nat × CTable), (∀ p ∈ ps, p < PITS) →
      countLoop rec b ps s = countLoop rec1 b ps s := by
  intro ps
  induction ps with
  | nil => intro s _; rfl
  | cons p ps ih =>
    intro s hps
    have hps1 : ∀ q ∈ ps, q < PITS := fun q hq => hps q (List.mem_cons_of_mem _ hq)
    rw [countLoop, countLoop]
    by_cases h0 : b.pit p = 0
    · rw [if_pos h0, if_pos h0]
      exact ih s hps1
    · rw [if_neg h0, if_neg h0]
      simp only
      rw [h p s.2 (hps p (List.mem_cons_self _ _)) h0]
      exact ih _ hps1

/-- The budget of `count_allFuel` does not matter once it exceeds `rank`: the recursion of
`count_all` is at most `rank board` deep. -/
theorem count_allFuel_stable (f : Nat) : ∀ (b : Board) (f1 : Nat) (t : CTable), rank b < f →
    rank b < f1 → count_allFuel f b t = count_allFuel f1 b t := by
  induction f with
  | zero => intro b f1 t h; omega
  | succ f ih =>
    intro b f1 t h h1
    obtain ⟨f1, rfl⟩ : ∃ k, f1 = k + 1 := ⟨f1 - 1, by omega⟩
    rw [count_allFuel, count_allFuel]
    have e := countLoop_congr (count_allFuel f) (count_allFuel f1) b
      (fun p t1 hp hne => ih (child b p) f1 t1
        (by have := rank_child b p hp hne; omega) (by have := rank_child b p hp hne; omega))
      (List.range PITS) (0, t) (fun p hp => List.mem_range.1 hp)
    rw [e]

theorem count_all_overflow (b : Board) (hb : total b ≤ 36) (h : 2 ^ 64 ≤ leaves b) :
    (count_all b ct_clear).1 = leaves b % 2 ^ 64 ∧ (count_all b ct_clear).1 < 2 ^ 64 ∧
    (count_all b ct_clear).1 ≠ leaves b := by
  have h1 := count_all_ok b hb
  have h2 : leaves b % 2 ^ 64 < 2 ^ 64 := Nat.mod_lt _ (by decide)
  refine ⟨h1, by rw [h1]; exact h2, ?_⟩
  rw [h1]
  exact Nat.ne_of_lt (Nat.lt_of_lt_of_le h2 h)

/-! ## The buckets of `compute_dist` account for every game -/

theorem sum_update (f : Nat → Nat) (mi x : Nat) : ∀ n : Nat,
    ((List.range n).map (fun j => if j = mi then x else f j)).sum + (if mi < n then f mi else 0)
      = ((List.range n).map f).sum + (if mi < n then x else 0) := by
  intro n
  induction n with
  | zero => simp
  | succ n ih =>
    rw [List.range_succ, List.map_append, List.map_append, List.sum_append, List.sum_append]
    simp only [List.map_cons, List.map_nil, List.sum_cons, List.sum_nil, Nat.add_zero]
    by_cases h1 : mi < n
    · rw [if_pos h1, if_pos h1] at ih
      have hn : ¬ (n = mi) := by omega
      have hlt : mi < n + 1 := by omega
      simp only [hn, hlt, if_true, if_false]
      omega
    · rw [if_neg h1, if_neg h1] at ih
      by_cases h2 : n = mi
      · subst h2
        have hlt : n < n + 1 := by omega
        simp only [hlt, if_true]
        omega
      · have hlt : ¬ (mi < n + 1) := by omega
        simp only [h2, hlt, if_false]
        omega

theorem bucketSum_add (d : Dist) (mi v : Nat) (h : mi < SCORE_RANGE) :
    bucketSum (dist_add d mi v) + d mi = bucketSum d + (d mi + v) % 2 ^ 64 := by
  have := sum_update d mi ((d mi + v) % 2 ^ 64) SCORE_RANGE
  rw [if_pos h, if_pos h] at this
  exact this

theorem distFold_ok (again : Bool) (delta : Int) (cd : Dist) : ∀ (l : List Nat) (res : Dist),
    (∀ s ∈ l, cd s ≠ 0 → 0 ≤ target again delta s ∧ target again delta s < (SCORE_RANGE : Int)) →
    bucketSum (distFold again delta cd l res) ≤ bucketSum res + (l.map cd).sum ∧
    bucketSum (distFold again delta cd l res) % 2 ^ 64 =
      (bucketSum res + (l.map cd).sum) % 2 ^ 64 ∧
    ∀ j, distFold again delta cd l res j ≠ 0 →
      res j ≠ 0 ∨ ∃ s ∈ l, cd s ≠ 0 ∧ (j : Int) = target again delta s := by
  intro l
  induction l with
  | nil =>
    intro res _
    refine ⟨?_, ?_, fun j hj => Or.inl hj⟩
    · rw [distFold, List.map_nil, List.sum_nil, Nat.add_zero]
    · rw [distFold, List.map_nil, List.sum_nil, Nat.add_zero]
  | cons s rest ih =>
    intro res H
    have Hrest : ∀ s1 ∈ rest, cd s1 ≠ 0 →
        0 ≤ target again delta s1 ∧ target again delta s1 < (SCORE_RANGE : Int) :=
      fun s1 h1 => H s1 (List.mem_cons_of_mem _ h1)
    rw [distFold]
    simp only [List.map_cons, List.sum_cons]
    by_cases h0 : cd s = 0
    · rw [if_pos h0, h0, Nat.zero_add]
      obtain ⟨i1, i2, i3⟩ := ih res Hrest
      refine ⟨i1, i2, fun j hj => ?_⟩
      rcases i3 j hj with h | ⟨s1, hs1, hc, he⟩
      · exact Or.inl h
      · exact Or.inr ⟨s1, List.mem_cons_of_mem _ hs1, hc, he⟩
    · rw [if_neg h0]
      obtain ⟨t1, t2⟩ := H s (List.mem_cons_self _ _) h0
      have ht : (if again = true then (s : Int) + delta
          else delta - (s : Int) + 2 * (SCORE_OFF : Int)) = target again delta s := rfl
      simp only [ht]
      rw [if_pos ⟨t1, t2⟩]
      obtain ⟨i1, i2, i3⟩ := ih (dist_add res (target again delta s).toNat (cd s)) Hrest
      have hlt : (target again delta s).toNat < SCORE_RANGE := by
        simp only [SCORE_RANGE] at t2 ⊢
        omega
      have hb := bucketSum_add res (target again delta s).toNat (cd s) hlt
      have hm : (res (target again delta s).toNat + cd s) % 2 ^ 64 ≤
          res (target again delta s).toNat + cd s := Nat.mod_le _ _
      refine ⟨by omega, ?_, fun j hj => ?_⟩
      · rw [i2]
        omega
      · rcases i3 j hj with h | ⟨s1, hs1, hc, he⟩
        · unfold dist_add at h
          by_cases hj1 : j = (target again delta s).toNat
          · exact Or.inr ⟨s, List.mem_cons_self _ _, h0, by rw [hj1]; omega⟩
          · rw [if_neg hj1] at h
            exact Or.inl h
        · exact Or.inr ⟨s1, List.mem_cons_of_mem _ hs1, hc, he⟩

theorem SameP_pitSum (b c : Board) (hs : SameP b c) : pitSum b = pitSum c := by
  rw [pitSum_eq, pitSum_eq]
  rw [hs 0 (by omega) (by omega), hs 1 (by omega) (by omega), hs 2 (by omega) (by omega),
    hs 3 (by omega) (by omega), hs 4 (by omega) (by omega), hs 5 (by omega) (by omega),
    hs 7 (by omega) (by omega), hs 8 (by omega) (by omega), hs 9 (by omega) (by omega),
    hs 10 (by omega) (by omega), hs 11 (by omega) (by omega), hs 12 (by omega) (by omega)]

theorem DistOK_rel (b c : Board) (d : Dist) (hs : SameP b c) (hb : total b ≤ 255)
    (hc : total c ≤ 255) (h : DistOK c d) : DistOK b d := by
  unfold DistOK at h ⊢
  rw [leaves_rel b c hs hb hc, SameP_pitSum b c hs]
  exact h

/-- The store gained by a move is the number of seeds that left the pits. -/
theorem sow_delta (b : Board) (p : Nat) (hp : p < PITS) (hne : b.pit p ≠ 0)
    (hb : total b ≤ 255) :
    (((sow b p).1.store : Int) - ((sow b p).1.opp_store : Int))
      - ((b.store : Int) - (b.opp_store : Int)) = (pitSum b : Int) - (pitSum (sow b p).1 : Int) ∧
    pitSum (sow b p).1 ≤ pitSum b := by
  have h1 := total_sow b p hp hb
  have h2 := sow_opp_store b p hp
  have h3 : pitSum (sow b p).1 ≤ pitSum b := by
    rcases sow_lex b p hp hne with h | h
    · omega
    · omega
  refine ⟨?_, h3⟩
  rw [total_eq, total_eq] at h1
  rw [pitSum_eq, pitSum_eq] at h3 ⊢
  simp only [Board.store, Board.opp_store, HALF, PITS, Nat.reduceAdd]
  omega

theorem bal_bound (b : Board) : -(pitSum b : Int) ≤ bal b ∧ bal b ≤ (pitSum b : Int) := by
  rw [bal_eq, pitSum_eq]
  omega

theorem sum_map_zero (l : List Nat) : (l.map (fun _ : Nat => (0 : Nat))).sum = 0 := by
  induction l with
  | nil => rfl
  | cons a l ih => rw [List.map_cons, List.sum_cons, ih]

theorem sum_indicator (mi n : Nat) (h : mi < n) :
    ((List.range n).map (fun j => if j = mi then 1 else 0)).sum = 1 := by
  have := sum_update (fun _ => 0) mi 1 n
  beta_reduce at this
  rw [if_pos h, if_pos h, sum_map_zero, Nat.add_zero, Nat.zero_add] at this
  exact this

theorem bucketSum_single (k : Int) (h0 : 0 ≤ k) (h1 : k < (SCORE_RANGE : Int)) :
    bucketSum (fun j => if (j : Int) = k then 1 else 0) = 1 := by
  have e : (fun j : Nat => if (j : Int) = k then (1 : Nat) else 0) =
      fun j => if j = k.toNat then 1 else 0 := by
    funext j
    by_cases h : (j : Int) = k
    · rw [if_pos h, if_pos (by omega)]
    · rw [if_neg h, if_neg (by omega)]
  rw [e]
  exact sum_indicator k.toNat SCORE_RANGE (by
    have : (0 : Int) ≤ k := h0
    have : k < 73 := h1
    show k.toNat < 73
    omega)

theorem bucketSum_zero : bucketSum dist_zero = 0 := by
  unfold bucketSum dist_zero
  exact sum_map_zero _

theorem distFold_acc (b c : Board) (again : Bool) (delta : Int) (a : Nat) (cd res : Dist)
    (hb : pitSum b ≤ 36) (hd : delta = (pitSum b : Int) - (pitSum c : Int))
    (hle : pitSum c ≤ pitSum b) (hcd : DistOK c cd) (hres : AccOK b a res) :
    AccOK b (a + leaves c) (distFold again delta cd (List.range SCORE_RANGE) res) := by
  obtain ⟨c1, c2, c3⟩ := hcd
  obtain ⟨r1, r2, r3⟩ := hres
  have H : ∀ s ∈ List.range SCORE_RANGE, cd s ≠ 0 →
      0 ≤ target again delta s ∧ target again delta s < (SCORE_RANGE : Int) := by
    intro s _ hs
    have := c3 s hs
    unfold target
    simp only [SCORE_OFF, SCORE_RANGE] at this ⊢
    split_ifs <;> omega
  obtain ⟨f1, f2, f3⟩ := distFold_ok again delta cd (List.range SCORE_RANGE) res H
  have e : ((List.range SCORE_RANGE).map cd).sum = bucketSum cd := rfl
  rw [e] at f1 f2
  refine ⟨by omega, ?_, fun j hj => ?_⟩
  · rw [f2]
    omega
  · rcases f3 j hj with h | ⟨s, _, hs, he⟩
    · exact r3 j h
    · have := c3 s hs
      unfold target at he
      simp only [SCORE_OFF] at this he ⊢
      split_ifs at he <;> omega

theorem child_again (b : Board) (p : Nat) (h : (sow b p).2 = true) : child b p = (sow b p).1 := by
  unfold child
  simp only
  rw [if_pos h]

theorem child_pass (b : Board) (p : Nat) (h : ¬ (sow b p).2 = true) :
    child b p = flip (sow b p).1 := by
  unfold child
  simp only
  rw [if_neg h]

theorem distLoop_ok (rec : Board → DTable → Dist × DTable) (b : Board) (hb : total b ≤ 36)
    (hrec : ∀ (p : Nat) (t : DTable), p < PITS → b.pit p ≠ 0 → DTOK t →
      DistOK (child b p) (rec (child b p) t).1 ∧ DTOK (rec (child b p) t).2) :
    ∀ (ps : List Nat) (s : Dist × DTable) (a : Nat), (∀ p ∈ ps, p < PITS) →
      AccOK b a s.1 → DTOK s.2 →
      AccOK b (a + ((ps.filter (fun p => b.pit p ≠ 0)).map (fun p => leaves (child b p))).sum)
        (distLoop rec b ((b.store : Int) - (b.opp_store : Int)) ps s).1 ∧
      DTOK (distLoop rec b ((b.store : Int) - (b.opp_store : Int)) ps s).2 := by
  have hpb : pitSum b ≤ 36 := le_trans (pitSum_le_total b) hb
  intro ps
  induction ps with
  | nil =>
    intro s a _ hs ht
    simp only [distLoop, List.filter_nil, List.map_nil, List.sum_nil, Nat.add_zero]
    exact ⟨hs, ht⟩
  | cons p ps ih =>
    intro s a hps hs ht
    have hp : p < PITS := hps p (List.mem_cons_self _ _)
    have hps1 : ∀ q ∈ ps, q < PITS := fun q hq => hps q (List.mem_cons_of_mem _ hq)
    rw [distLoop]
    by_cases h0 : b.pit p = 0
    · rw [if_pos h0]
      have hf : (p :: ps).filter (fun p => b.pit p ≠ 0) = ps.filter (fun p => b.pit p ≠ 0) := by
        rw [List.filter_cons_of_neg (by simpa using h0)]
      rw [hf]
      exact ih s a hps1 hs ht
    · rw [if_neg h0]
      have hf : (p :: ps).filter (fun p => b.pit p ≠ 0) =
          p :: ps.filter (fun p => b.pit p ≠ 0) := by
        rw [List.filter_cons_of_pos (by simpa using h0)]
      rw [hf]
      simp only [List.map_cons, List.sum_cons]
      obtain ⟨r1, r2⟩ := hrec p s.2 hp h0 ht
      obtain ⟨d1, d2⟩ := sow_delta b p hp h0 (by omega)
      have hm := (child_measure b p).1
      rw [← Nat.add_assoc]
      by_cases ha : (sow b p).2 = true
      · rw [if_pos ha]
        rw [child_again b p ha] at r1 r2 hm ⊢
        exact ih _ _ hps1
          (distFold_acc b (sow b p).1 true _ a _ s.1 hpb d1 d2 r1 hs) r2
      · rw [if_neg ha]
        rw [child_pass b p ha] at r1 r2 hm ⊢
        exact ih _ _ hps1
          (distFold_acc b (flip (sow b p).1) false _ a _ s.1 hpb (by rw [hm]; exact d1)
            (by rw [hm]; exact d2) r1 hs) r2

theorem DTOK_clear : DTOK dt_clear := by
  intro j hj
  simp [dt_clear] at hj

theorem compute_distFuel_ok (f : Nat) : ∀ (b : Board) (t : DTable), rank b < f →
    total b ≤ 36 → DTOK t →
    DistOK b (compute_distFuel f b t).1 ∧ DTOK (compute_distFuel f b t).2 := by
  induction f with
  | zero => intro b t h; omega
  | succ f ih =>
    intro b t hr hb ht
    have hpb : pitSum b ≤ 36 := le_trans (pitSum_le_total b) hb
    rw [compute_distFuel]
    by_cases hgo : is_game_over b = true
    · rw [if_pos hgo]
      refine ⟨?_, ht⟩
      have hbal := bal_bound b
      have hs1 : bucketSum (fun j : Nat => if (j : Int) = bal b + (SCORE_OFF : Int) then 1 else 0)
          = 1 := bucketSum_single _ (by simp only [SCORE_OFF]; omega)
            (by simp only [SCORE_OFF, SCORE_RANGE]; omega)
      unfold DistOK
      simp only
      rw [hs1, leaves_game_over b hgo]
      refine ⟨le_refl _, rfl, fun s hs => ?_⟩
      by_cases he : (s : Int) = bal b + (SCORE_OFF : Int)
      · simp only [SCORE_OFF] at he ⊢
        omega
      · rw [if_neg he] at hs
        exact absurd rfl hs
    rw [if_neg hgo]
    simp only
    by_cases hit : t.dt_valid ((hash_board b >>> 40) &&& (DT_SIZE - 1)) = true ∧
        t.dt_key ((hash_board b >>> 40) &&& (DT_SIZE - 1)) = hash_board b
    · rw [if_pos hit]
      obtain ⟨b0, hb0, hk, hc⟩ := ht _ hit.1
      refine ⟨?_, ht⟩
      simp only
      have hs := SameP_of_hash_le b b0 hb hb0 (by rw [← hk, hit.2])
      exact DistOK_rel b b0 _ hs (by omega) (by omega) hc
    · rw [if_neg hit]
      have h0 : AccOK b 0 dist_zero := by
        refine ⟨by rw [bucketSum_zero], by rw [bucketSum_zero], fun s hs => ?_⟩
        exact absurd rfl hs
      have hloop := distLoop_ok (compute_distFuel f) b hb
        (fun p t1 hp hne ht1 => ih (child b p) t1
          (by have := rank_child b p hp hne; omega)
          (by rw [total_child_eq b p hp (by omega)]; exact hb) ht1)
        (List.range PITS) (dist_zero, t) 0 (fun p hp => List.mem_range.1 hp) h0 ht
      have hval : DistOK b (distLoop (compute_distFuel f) b
          ((b.store : Int) - (b.opp_store : Int)) (List.range PITS) (dist_zero, t)).1 := by
        have := hloop.1
        rw [Nat.zero_add] at this
        unfold DistOK
        rw [leaves_eq b, if_neg hgo]
        exact this
      refine ⟨hval, ?_⟩
      intro j hj
      simp only [DTable.write] at hj ⊢
      by_cases hji : j = (hash_board b >>> 40) &&& (DT_SIZE - 1)
      · simp only [hji, if_true]
        exact ⟨b, hb, rfl, hval⟩
      · simp only [hji, if_false] at hj ⊢
        exact hloop.2 j hj

theorem compute_dist_ok (b : Board) (hb : total b ≤ 36) : DistOK b (compute_dist b dt_clear).1 :=
  (compute_distFuel_ok _ b dt_clear (Nat.lt_succ_self _) hb DTOK_clear).1

/-! ## What `count_optimal` returns on boards of 36 seeds -/

theorem optLeavesFuel_stable (f : Nat) : ∀ (b : Board) (f1 : Nat), rank b < f → rank b < f1 →
    optLeavesFuel f b = optLeavesFuel f1 b := by
  induction f with
  | zero => intro b f1 h; omega
  | succ f ih =>
    intro b f1 h h1
    obtain ⟨f1, rfl⟩ : ∃ k, f1 = k + 1 := ⟨f1 - 1, by omega⟩
    simp only [optLeavesFuel]
    split_ifs with hgo
    · rfl
    · apply sum_map_congr_mem
      intro p hp
      obtain ⟨hp1, hne⟩ := (mem_legalMoves b p).1 (List.mem_filter.1 hp).1
      have := rank_child b p hp1 hne
      exact ih (child b p) f1 (by omega) (by omega)

theorem optLeaves_eq (b : Board) : optLeaves b =
    if is_game_over b then 1 else ((optMoves b).map (fun p => optLeaves (child b p))).sum := by
  show (if is_game_over b then 1
    else ((optMoves b).map (fun p => optLeavesFuel (rank b) (child b p))).sum) = _
  split_ifs with hgo
  · rfl
  · apply sum_map_congr_mem
    intro p hp
    obtain ⟨hp1, hne⟩ := (mem_legalMoves b p).1 (List.mem_filter.1 hp).1
    have := rank_child b p hp1 hne
    exact optLeavesFuel_stable (rank b) (child b p) (rank (child b p) + 1) this (by omega)

theorem optMoves_rel (b c : Board) (hs : SameP b c) (hb : total b ≤ 255) (hc : total c ≤ 255) :
    optMoves b = optMoves c := by
  unfold optMoves
  rw [← SameP_legalMoves b c hs]
  apply List.filter_congr
  intro p hp
  obtain ⟨hp1, _⟩ := (mem_legalMoves b p).1 hp
  have h1 := moveValue_rel b c p hs hp1 hb hc
  have h2 := minimax_rel b c hs hb hc
  simp only [decide_eq_decide]
  constructor <;> intro h <;> omega

theorem optLeavesFuel_rel (f : Nat) : ∀ (b c : Board), SameP b c → total b ≤ 255 →
    total c ≤ 255 → optLeavesFuel f b = optLeavesFuel f c := by
  induction f with
  | zero => intro b c _ _ _; rfl
  | succ f ih =>
    intro b c hs hb hc
    simp only [optLeavesFuel]
    rw [← SameP_game_over b c hs, ← optMoves_rel b c hs hb hc]
    split_ifs with hgo
    · rfl
    · apply sum_map_congr_mem
      intro p hp
      obtain ⟨hp1, _⟩ := (mem_legalMoves b p).1 (List.mem_filter.1 hp).1
      exact ih _ _ (child_rel b c p hs hp1 hb hc) (by rw [total_child_eq b p hp1 hb]; exact hb)
        (by rw [total_child_eq c p hp1 hc]; exact hc)

theorem optLeaves_rel (b c : Board) (hs : SameP b c) (hb : total b ≤ 255) (hc : total c ≤ 255) :
    optLeaves b = optLeaves c := by
  unfold optLeaves
  rw [SameP_rank b c hs]
  exact optLeavesFuel_rel _ b c hs hb hc

theorem optLeaves_game_over (b : Board) (h : is_game_over b = true) : optLeaves b = 1 := by
  rw [optLeaves_eq, if_pos h]

theorem sum_filter_le (l : List Nat) (g : Nat → Nat) (q : Nat → Bool) :
    ((l.filter q).map g).sum ≤ (l.map g).sum := by
  induction l with
  | nil => exact le_refl _
  | cons a l ih =>
    by_cases h : q a = true
    · rw [List.filter_cons_of_pos h]
      simp only [List.map_cons, List.sum_cons]
      omega
    · rw [List.filter_cons_of_neg h]
      simp only [List.map_cons, List.sum_cons]
      omega

theorem sum_map_le (l : List Nat) (g g1 : Nat → Nat) (h : ∀ p ∈ l, g p ≤ g1 p) :
    (l.map g).sum ≤ (l.map g1).sum := by
  induction l with
  | nil => exact le_refl _
  | cons a l ih =>
    simp only [List.map_cons, List.sum_cons]
    have := h a (List.mem_cons_self _ _)
    have := ih (fun p hp => h p (List.mem_cons_of_mem _ hp))
    omega

theorem optLeaves_bounds_aux (n : Nat) : ∀ b : Board, rank b ≤ n →
    1 ≤ optLeaves b ∧ optLeaves b ≤ leaves b := by
  induction n with
  | zero =>
    intro b hb
    by_cases hgo : is_game_over b = true
    · rw [optLeaves_game_over b hgo, leaves_game_over b hgo]
      exact ⟨le_refl _, le_refl _⟩
    · obtain ⟨p, hp, hne⟩ := exists_move b (by simpa using hgo)
      have := rank_child b p hp hne
      omega
  | succ n ih =>
    intro b hb
    by_cases hgo : is_game_over b = true
    · rw [optLeaves_game_over b hgo, leaves_game_over b hgo]
      exact ⟨le_refl _, le_refl _⟩
    · rw [optLeaves_eq, leaves_eq, if_neg hgo, if_neg hgo]
      have hch : ∀ p ∈ legalMoves b, 1 ≤ optLeaves (child b p) ∧
          optLeaves (child b p) ≤ leaves (child b p) := by
        intro p hp
        obtain ⟨hp1, hne⟩ := (mem_legalMoves b p).1 hp
        have := rank_child b p hp1 hne
        exact ih _ (by omega)
      constructor
      · obtain ⟨p, hp, hne, hv⟩ := minimax_attained b (by simpa using hgo)
        have hmem : p ∈ optMoves b :=
          List.mem_filter.2 ⟨(mem_legalMoves b p).2 ⟨hp, hne⟩, by simpa using hv.symm⟩
        have hm2 : optLeaves (child b p) ∈ (optMoves b).map (fun p => optLeaves (child b p)) :=
          List.mem_map.2 ⟨p, hmem, rfl⟩
        have := List.single_le_sum (fun _ _ => Nat.zero_le _) _ hm2
        have := (hch p (List.mem_filter.1 hmem).1).1
        omega
      · refine le_trans (sum_filter_le _ _ _) (sum_map_le _ _ _ (fun p hp => (hch p hp).2))

theorem optLeaves_bounds (b : Board) : 1 ≤ optLeaves b ∧ optLeaves b ≤ leaves b :=
  optLeaves_bounds_aux _ b (le_refl _)

theorem search_full_loop_state (b : Board) (hb : total b = 36) (fuel : Nat) :
    ∀ (d : Nat) (tt : TT) (r : Result × TT), TTOK tt → TTInv 127 tt →
    search_full_loop fuel d b tt = some r →
    r.1.score = minimax b ∧ TTOK r.2 ∧ TTInv 127 r.2 := by
  induction fuel with
  | zero => intro d tt r _ _ h; simp [search_full_loop] at h
  | succ fuel ih =>
    intro d tt r ht hi h
    obtain ⟨k1, k2⟩ := search_ok d b (-36) 36 tt hb (by omega) (by omega) (by omega) ht
    have k3 := (search_inv 127 (by omega) d b (-36) 36 tt hi (Or.inr (le_refl _))).1
    rw [search_full_loop] at h
    by_cases hs : (search d b (-36) 36 tt).1.solved = true
    · rw [if_pos hs] at h
      have e : search d b (-36) 36 tt = r := by simpa using h
      rw [← e]
      exact ⟨root_exact b _ hb (k2 hs), k1, k3⟩
    · rw [if_neg hs] at h
      exact ih (d + 1) _ r k1 k3 h

theorem search_full_ok (b : Board) (hb : total b = 36) (sf : Nat) (tt : TT) (ht : TTOK tt)
    (hi : TTInv 127 tt) (hsf : height b + 127 ≤ sf) :
    ∃ r, search_full sf b tt = some r ∧ r.1.score = minimax b ∧ TTOK r.2 ∧ TTInv 127 r.2 := by
  obtain ⟨k, rfl⟩ : ∃ k, sf = k + 1 := ⟨sf - 1, by omega⟩
  obtain ⟨r, hr, _⟩ := search_full_loop_solved b k 1 tt hi (by omega)
  exact ⟨r, hr, search_full_loop_state b hb (k + 1) 1 tt r ht hi hr⟩

theorem moveValue_child (b : Board) (p : Nat) :
    moveValue b p = if (sow b p).2 then minimax (child b p) else - minimax (child b p) := by
  unfold moveValue child
  simp only
  by_cases h : (sow b p).2 = true
  · rw [if_pos h, if_pos h, if_pos h]
  · rw [if_neg h, if_neg h, if_neg h]

theorem optLoop_ok (rec : Board → TT × CTable → Option (Nat × (TT × CTable))) (sf : Nat)
    (b : Board) (hb : total b = 36) (hsf : height b + 127 ≤ sf)
    (hgo : is_game_over b = false)
    (hrec : ∀ (p : Nat) (s : TT × CTable), p < PITS → b.pit p ≠ 0 → OptInv s →
      ∃ r, rec (child b p) s = some r ∧ r.1 = optLeaves (child b p) % 2 ^ 64 ∧ OptInv r.2) :
    ∀ (ps : List Nat) (s : Nat × (TT × CTable)), (∀ p ∈ ps, p < PITS) → s.1 < 2 ^ 64 →
      OptInv s.2 →
      ∃ r, optLoop rec sf b (minimax b) ps s = some r ∧
        r.1 = (s.1 + (((ps.filter (fun p => b.pit p ≠ 0)).filter
          (fun p => moveValue b p = minimax b)).map (fun p => optLeaves (child b p))).sum)
            % 2 ^ 64 ∧
        OptInv r.2 := by
  intro ps
  induction ps with
  | nil =>
    intro s _ hs hinv
    refine ⟨s, rfl, ?_, hinv⟩
    simp only [List.filter_nil, List.map_nil, List.sum_nil, Nat.add_zero]
    exact (Nat.mod_eq_of_lt hs).symm
  | cons p ps ih =>
    intro s hps hs hinv
    have hp : p < PITS := hps p (List.mem_cons_self _ _)
    have hps1 : ∀ q ∈ ps, q < PITS := fun q hq => hps q (List.mem_cons_of_mem _ hq)
    rw [optLoop]
    by_cases h0 : b.pit p = 0
    · rw [if_pos h0]
      have hf : (p :: ps).filter (fun p => b.pit p ≠ 0) = ps.filter (fun p => b.pit p ≠ 0) := by
        rw [List.filter_cons_of_neg (by simpa using h0)]
      rw [hf]
      exact ih s hps1 hs hinv
    · rw [if_neg h0]
      have hf : (p :: ps).filter (fun p => b.pit p ≠ 0) =
          p :: ps.filter (fun p => b.pit p ≠ 0) := by
        rw [List.filter_cons_of_pos (by simpa using h0)]
      rw [hf]
      have hct : total (child b p) = 36 := by rw [total_child_eq b p hp (by omega)]; exact hb
      have hh := height_child b p hgo hp h0
      obtain ⟨r, hr, hsc, ht1, ht2⟩ := search_full_ok (child b p) hct sf s.2.1 hinv.1 hinv.2.1
        (by omega)
      rw [hr]
      simp only
      have hv : (if (sow b p).2 = true then r.1.score else - r.1.score) = moveValue b p := by
        rw [moveValue_child, hsc]
      rw [hv]
      by_cases hopt : moveValue b p = minimax b
      · rw [if_pos hopt]
        have hf2 : (p :: ps.filter (fun p => b.pit p ≠ 0)).filter
            (fun p => moveValue b p = minimax b) =
            p :: (ps.filter (fun p => b.pit p ≠ 0)).filter
              (fun p => moveValue b p = minimax b) := by
          rw [List.filter_cons_of_pos (by simpa using hopt)]
        rw [hf2]
        obtain ⟨c, hc, hcv, hci⟩ := hrec p (r.2, s.2.2) hp h0 ⟨ht1, ht2, hinv.2.2⟩
        rw [hc]
        simp only
        obtain ⟨r2, hr2, hv2, hi2⟩ := ih ((s.1 + c.1) % 2 ^ 64, c.2) hps1
          (Nat.mod_lt _ (by decide)) hci
        refine ⟨r2, hr2, ?_, hi2⟩
        rw [hv2]
        simp only [List.map_cons, List.sum_cons]
        rw [hcv]
        omega
      · rw [if_neg hopt]
        have hf2 : (p :: ps.filter (fun p => b.pit p ≠ 0)).filter
            (fun p => moveValue b p = minimax b) =
            (ps.filter (fun p => b.pit p ≠ 0)).filter
              (fun p => moveValue b p = minimax b) := by
          rw [List.filter_cons_of_neg (by simpa using hopt)]
        rw [hf2]
        exact ih (s.1, (r.2, s.2.2)) hps1 hs ⟨ht1, ht2, hinv.2.2⟩

theorem OTOK_clear : OTOK ct_clear := by
  intro j hj
  simp [ct_clear] at hj

theorem OptInv_clear : OptInv (tt_clear, ct_clear) :=
  ⟨TTOK_clear, TTInv_mono 0 127 (by omega) _ TTInv_clear, OTOK_clear⟩

theorem count_optimalFuel_ok (sf : Nat) (f : Nat) : ∀ (b : Board) (s : TT × CTable),
    rank b < f → total b = 36 → height b + 127 ≤ sf → OptInv s →
    ∃ r, count_optimalFuel sf f b s = some r ∧ r.1 = optLeaves b % 2 ^ 64 ∧ OptInv r.2 := by
  induction f with
  | zero => intro b s h; omega
  | succ f ih =>
    intro b s hr hb hsf hinv
    rw [count_optimalFuel]
    by_cases hgo : is_game_over b = true
    · rw [if_pos hgo, optLeaves_game_over b hgo]
      exact ⟨_, rfl, rfl, hinv⟩
    rw [if_neg hgo]
    by_cases hit : s.2.ct_valid ((hash_board b >>> 40) &&& (CT_SIZE - 1)) = true ∧
        (s.2.ct ((hash_board b >>> 40) &&& (CT_SIZE - 1))).key = hash_board b
    · rw [if_pos hit]
      obtain ⟨b0, hb0, hk, hc⟩ := hinv.2.2 _ hit.1
      refine ⟨_, rfl, ?_, hinv⟩
      simp only
      rw [hc]
      have hs := SameP_of_hash b b0 hb hb0 (by rw [← hk, hit.2])
      rw [optLeaves_rel b b0 hs (by omega) (by omega)]
    · rw [if_neg hit]
      obtain ⟨rb, hrb, hsc, ht1, ht2⟩ := search_full_ok b hb sf s.1 hinv.1 hinv.2.1 hsf
      rw [hrb]
      simp only
      rw [hsc]
      have hgo1 : is_game_over b = false := by simpa using hgo
      obtain ⟨r, hr1, hv, hi⟩ := optLoop_ok (count_optimalFuel sf f) sf b hb hsf hgo1
        (fun p s1 hp hne hs1 => ih (child b p) s1
          (by have := rank_child b p hp hne; omega)
          (by rw [total_child_eq b p hp (by omega)]; exact hb)
          (by have := height_child b p hgo1 hp hne; omega) hs1)
        (List.range PITS) (0, (rb.2, s.2)) (fun p hp => List.mem_range.1 hp)
        (show (0 : Nat) < 2 ^ 64 by decide) ⟨ht1, ht2, hinv.2.2⟩
      rw [hr1]
      simp only
      have hval : r.1 = optLeaves b % 2 ^ 64 := by
        rw [hv, optLeaves_eq b, if_neg hgo]
        simp only [Nat.zero_add]
        rfl
      refine ⟨_, rfl, hval, hi.1, hi.2.1, ?_⟩
      intro j hj
      simp only [CTable.write] at hj ⊢
      by_cases hji : j = (hash_board b >>> 40) &&& (CT_SIZE - 1)
      · simp only [hji, if_true]
        exact ⟨b, hb, rfl, hval⟩
      · simp only [hji, if_false] at hj ⊢
        exact hi.2.2 j hj

theorem count_optimal_ok (b : Board) (hb : total b = 36) (s : TT × CTable) (hs : OptInv s) :
    ∃ r, count_optimal b s = some r ∧ r.1 = optLeaves b % 2 ^ 64 :=
  let ⟨r, h1, h2, _⟩ := count_optimalFuel_ok (height b + 127) (rank b + 1) b s
    (Nat.lt_succ_self _) hb (le_refl _) hs
  ⟨r, h1, h2⟩

theorem perfect_play_ok (b : Board) (hb : total b = 36) (ho : optLeaves b < 2 ^ 64) :
    ∃ q, perfect_play b tt_clear = some q ∧ q.1 = minimax b ∧ (q.2 = 0 ↔ q.1 ≤ 0) := by
  obtain ⟨rs, hrs, hsc, ht1, ht2⟩ := search_full_ok b hb (height b + 127) tt_clear TTOK_clear
    (TTInv_mono 0 127 (by omega) _ TTInv_clear) (le_refl _)
  unfold perfect_play
  rw [hrs]
  simp only
  by_cases hpos : rs.1.score > 0
  · rw [if_pos hpos]
    obtain ⟨c, hc, hv⟩ := count_optimal_ok b hb (rs.2, ct_clear) ⟨ht1, ht2, OTOK_clear⟩
    rw [hc]
    simp only
    refine ⟨_, rfl, hsc, ?_⟩
    simp only
    rw [hv, Nat.mod_eq_of_lt ho]
    have := (optLeaves_bounds b).1
    constructor
    · intro h; omega
    · intro h; omega
  · rw [if_neg hpos]
    refine ⟨_, rfl, hsc, ?_⟩
    simp only
    constructor
    · intro _; omega
    · intro _; trivial

/-! ## The state that the move loop of `search` hands to the replacement test -/

theorem search_zero_tt (b : Board) (alpha beta : Int) (tt : TT) :
    (search 0 b alpha beta tt).2 = tt := by
  rw [search]
  unfold searchBody
  by_cases hgo : is_game_over b = true
  · rw [if_pos hgo]
  rw [if_neg hgo]
  simp only
  generalize (hash_board b >>> 40) &&& (TT_SIZE - 1) = idx
  generalize (if decide ((tt idx).key = hash_board b) = true then (tt idx).move else -1)
    = hint
  split_ifs with h1 h2
  · rfl
  · rfl
  · exact absurd (le_refl (0 : Int)) h2

theorem search_succ_shape (d : Nat) (b : Board) (alpha beta : Int) (tt : TT) :
    (search (d + 1) b alpha beta tt).2 = tt ∨
    search (d + 1) b alpha beta tt =
      searchFinish ((d : Int) + 1) (hash_board b) (slot b)
        (decide ((tt (slot b)).key = hash_board b))
        ((b.store : Int) - (b.opp_store : Int)) alpha beta (afterLoop d b alpha beta tt) := by
  rw [search]
  unfold searchBody afterLoop slot
  by_cases hgo : is_game_over b = true
  · rw [if_pos hgo]
    exact Or.inl rfl
  rw [if_neg hgo]
  simp only
  generalize (hash_board b >>> 40) &&& (TT_SIZE - 1) = idx
  generalize (if decide ((tt idx).key = hash_board b) = true then (tt idx).move else -1)
    = hint
  split_ifs with h1 h2
  · exact Or.inl rfl
  · exact Or.inl rfl
  · exact Or.inr rfl

theorem searchFinish_key (depth : Int) (hash idx : Nat) (hit : Bool) (sd oa beta : Int)
    (st : LoopState) (j : Nat) :
    (searchFinish depth hash idx hit sd oa beta st).2 j = st.tt j ∨
    (j = idx ∧ ((searchFinish depth hash idx hit sd oa beta st).2 j).key = hash) := by
  unfold searchFinish
  simp only
  by_cases hw : st.solved = true ∨
      ((hit = false ∨ depth ≥ (st.tt idx).depth) ∧ (st.tt idx).solved = false)
  · rw [if_pos hw]
    by_cases hj : j = idx
    · exact Or.inr ⟨hj, by simp only [hj, if_true]⟩
    · exact Or.inl (by simp only [hj, if_false])
  · rw [if_neg hw]
    exact Or.inl rfl

theorem hash_ne_of_rank (b c : Board) (hb : total b ≤ 36) (hc : total c ≤ 36)
    (hr : rank c < rank b) : hash_board c ≠ hash_board b := by
  intro h
  have := SameP_rank c b (SameP_of_hash_le c b hc hb h)
  omega

/-- A search of a position that comes after `b` in a game never stores the key of `b`. -/
theorem search_key_free (b : Board) (hb : total b ≤ 36) (idx : Nat) (d : Nat) :
    ∀ (c : Board) (alpha beta : Int) (t : TT), total c ≤ 36 → rank c < rank b →
      TTInv 127 t → (t idx).key ≠ hash_board b →
      TTInv 127 (search d c alpha beta t).2 ∧
      ((search d c alpha beta t).2 idx).key ≠ hash_board b := by
  induction d with
  | zero =>
    intro c alpha beta t hc hr ht hk
    rw [search_zero_tt]
    exact ⟨ht, hk⟩
  | succ d ih =>
    intro c alpha beta t hc hr ht hk
    refine ⟨(search_inv 127 (by decide) (d + 1) c alpha beta t ht (Or.inr (le_refl _))).1, ?_⟩
    rcases search_succ_shape d c alpha beta t with h | h
    · rw [h]; exact hk
    · rw [h]
      have hhint : (if decide ((t (slot c)).key = hash_board c) = true then (t (slot c)).move
          else -1) ≤ 5 := by
        split_ifs
        · exact (ht _).1
        · omega
      have hloop := searchLoop_inv (fun t => TTInv 127 t ∧ (t idx).key ≠ hash_board b) False
        (search d) c _ beta hhint
        (fun p a e t1 hp hne hP =>
          ⟨ih (child c p) a e t1 (by rw [total_child_eq c p hp (by omega)]; exact hc)
            (lt_trans (rank_child c p hp hne) hr) hP.1 hP.2, fun hf => hf.elim⟩)
        [-1, 0, 1, 2, 3, 4, 5] ⟨alpha, -100, -1, true, t⟩
        (by intro i hi; simp at hi; omega) ⟨ht, hk⟩ (by simp) (by simp)
      rcases searchFinish_key ((d : Int) + 1) (hash_board c) (slot c)
        (decide ((t (slot c)).key = hash_board c)) ((c.store : Int) - (c.opp_store : Int))
        alpha beta (afterLoop d c alpha beta t) idx with e | ⟨_, e⟩
      · rw [e]
        exact hloop.1.2
      · rw [e]
        exact hash_ne_of_rank b c hb hc hr

theorem afterLoop_key (d : Nat) (b : Board) (alpha beta : Int) (tt : TT) (hb : total b ≤ 36)
    (ht : TTInv 127 tt) (idx : Nat) (hk : (tt idx).key ≠ hash_board b) :
    ((afterLoop d b alpha beta tt).tt idx).key ≠ hash_board b := by
  have hhint : (if decide ((tt (slot b)).key = hash_board b) = true then (tt (slot b)).move
      else -1) ≤ 5 := by
    split_ifs
    · exact (ht _).1
    · omega
  exact (searchLoop_inv (fun t => TTInv 127 t ∧ (t idx).key ≠ hash_board b) False
    (search d) b _ beta hhint
    (fun p a e t1 hp hne hP =>
      ⟨search_key_free b hb idx d (child b p) a e t1
        (by rw [total_child_eq b p hp (by omega)]; exact hb)
        (rank_child b p hp hne) hP.1 hP.2, fun hf => hf.elim⟩)
    [-1, 0, 1, 2, 3, 4, 5] ⟨alpha, -100, -1, true, tt⟩
    (by intro i hi; simp at hi; omega) ⟨ht, hk⟩ (by simp) (by simp)).1.2

/-- Phase 3 of `main` on a board of 36 seeds: the score reported is the minimax value and
the figure is the number of perfect-play games modulo `2 ^ 64` when that value is
positive, 0 otherwise. -/
theorem perfect_play_value (b : Board) (hb : total b = 36) :
    ∃ q, perfect_play b tt_clear = some q ∧ q.1 = minimax b ∧
      q.2 = if minimax b > 0 then optLeaves b % 2 ^ 64 else 0 := by
  obtain ⟨rs, hrs, hsc, ht1, ht2⟩ := search_full_ok b hb (height b + 127) tt_clear TTOK_clear
    (TTInv_mono 0 127 (by omega) _ TTInv_clear) (le_refl _)
  unfold perfect_play
  rw [hrs]
  simp only
  by_cases hpos : rs.1.score > 0
  · rw [if_pos hpos]
    obtain ⟨c, hc, hv⟩ := count_optimal_ok b hb (rs.2, ct_clear) ⟨ht1, ht2, OTOK_clear⟩
    rw [hc]
    simp only
    refine ⟨_, rfl, hsc, ?_⟩
    simp only
    rw [hsc] at hpos
    rw [if_pos hpos, hv]
  · rw [if_neg hpos]
    refine ⟨_, rfl, hsc, ?_⟩
    simp only
    rw [hsc] at hpos
    rw [if_neg hpos]

/-! ## Claims about the board model -/

/-- C4. Seed conservation: on a board whose 14 slots sum to at most 255, `sow` on a pit
index in `0..5` leaves the sum of the 14 ring slots unchanged (captures included), and
`flip` leaves it unchanged as well. -/
theorem sow_flip_conserve_total (b : Board) (p : Nat) (hsum : total b ≤ 255) (hp : p < PITS) :
    total (sow b p).1 = total b ∧ total (flip b) = total b :=
  ⟨total_sow b p hp hsum, total_flip b⟩

/-- Witness for C4: a capturing move (pit 1 holds two seeds, pit 3 is empty). -/
theorem sow_flip_conserve_total_witness :
    total (Board.ofList [3, 2, 3, 0, 3, 3, 4, 3, 3, 3, 3, 3, 3, 0]) ≤ 255 ∧ 1 < PITS ∧
    (sow (Board.ofList [3, 2, 3, 0, 3, 3, 4, 3, 3, 3, 3, 3, 3, 0]) 1).1.toList
      = [3, 0, 4, 0, 3, 3, 8, 3, 3, 0, 3, 3, 3, 0] ∧
    (total (sow (Board.ofList [3, 2, 3, 0, 3, 3, 4, 3, 3, 3, 3, 3, 3, 0]) 1).1
      = total (Board.ofList [3, 2, 3, 0, 3, 3, 4, 3, 3, 3, 3, 3, 3, 0]) ∧
     total (flip (Board.ofList [3, 2, 3, 0, 3, 3, 4, 3, 3, 3, 3, 3, 3, 0]))
      = total (Board.ofList [3, 2, 3, 0, 3, 3, 4, 3, 3, 3, 3, 3, 3, 0])) :=
  ⟨by decide, by decide, by decide,
    sow_flip_conserve_total _ 1 (by decide) (by decide)⟩

/-- C5 as stated fails: the start position itself (reachable by the empty sequence of
moves) holds 36 seeds, not 48. -/
theorem start_total_ne_48 : Reachable START_BOARD ∧ total START_BOARD = 36 ∧
    total START_BOARD ≠ 48 :=
  ⟨Reachable.start, by decide, by decide⟩

/-- C5 (amended). Every board reachable from `START_BOARD` by sowing non-empty pits and
flipping holds 36 seeds across its 14 slots. -/
theorem reachable_total (b : Board) (h : Reachable b) : total b = 36 := by
  induction h with
  | start => decide
  | sow b p _ hp _ ih => rw [total_sow b p hp (by omega), ih]
  | flip b _ ih => rw [total_flip, ih]

/-- Witness for C5 (amended): the board after the opening move of pit 3 and a flip. -/
theorem reachable_total_witness :
    Reachable (flip (sow START_BOARD 3).1) ∧ total (flip (sow START_BOARD 3).1) = 36 :=
  ⟨Reachable.flip _ (Reachable.sow _ 3 Reachable.start (by decide) (by decide)),
    reachable_total _
      (Reachable.flip _ (Reachable.sow _ 3 Reachable.start (by decide) (by decide)))⟩

/-- C9. `is_game_over` holds exactly when the six own pits sum to zero or the six
opponent pits sum to zero, that is when one side has all six pits empty; overwriting the
two stores with any values never changes the result. -/
theorem is_game_over_iff (b : Board) :
    (is_game_over b = true ↔ (ownSum b = 0 ∨ oppSum b = 0)) ∧
    (ownSum b = 0 ↔ ∀ i, i < PITS → b.pit i = 0) ∧
    (oppSum b = 0 ↔ ∀ i, i < PITS → b.opp_pit i = 0) ∧
    (∀ s t : Nat, is_game_over ((b.set PITS s).set (HALF + PITS) t) = is_game_over b) := by
  refine ⟨?_, ?_, ?_, ?_⟩
  · rw [is_game_over_eq]; simp
  · rw [ownSum_eq]
    simp only [Board.pit, PITS]
    constructor
    · intro h i hi
      interval_cases i <;> omega
    · intro h
      have h0 := h 0 (by omega); have h1 := h 1 (by omega); have h2 := h 2 (by omega)
      have h3 := h 3 (by omega); have h4 := h 4 (by omega); have h5 := h 5 (by omega)
      omega
  · rw [oppSum_eq]
    simp only [Board.opp_pit, PITS, HALF, Nat.reduceAdd]
    constructor
    · intro h i hi
      interval_cases i <;> simp <;> omega
    · intro h
      have h0 := h 0 (by omega); have h1 := h 1 (by omega); have h2 := h 2 (by omega)
      have h3 := h 3 (by omega); have h4 := h 4 (by omega); have h5 := h 5 (by omega)
      simp only [Nat.reduceAdd] at h0 h1 h2 h3 h4 h5
      omega
  · intro s t
    rw [is_game_over_eq, is_game_over_eq, ownSum_eq, oppSum_eq, ownSum_eq, oppSum_eq]
    simp [Board.set_ring, HALF, PITS]

/-- C10. `final_score` is the store differential plus the sum over the six pit pairs of
`pit[i] - opp_pit[i]`, and it changes sign under `flip`. -/
theorem final_score_formula_antisymm (b : Board) :
    final_score b = ((b.store : Int) - (b.opp_store : Int))
      + ((List.range PITS).map (fun i => (b.pit i : Int) - (b.opp_pit i : Int))).sum ∧
    final_score (flip b) = - final_score b := by
  constructor
  · rw [final_score_eq]
    simp only [range_PITS, List.map_cons, List.map_nil, List.sum_cons, List.sum_nil,
      Board.pit, Board.opp_pit, Board.store, Board.opp_store, HALF, PITS, Nat.reduceAdd]
    omega
  · rw [final_score_eq, final_score_eq]
    simp only [flip_ring]
    simp
    omega

/-- C7 as stated fails: 14 seeds sown from pit 5 lap the board, the last one lands on the
own store, `sow` returns true, and every opponent pit has gained a seed. -/
theorem sow_store_landing_lap :
    (landing (Board.ofList [0, 0, 0, 0, 0, 14, 4, 3, 3, 3, 3, 3, 3, 0]) 5).1 = PITS ∧
    (sow (Board.ofList [0, 0, 0, 0, 0, 14, 4, 3, 3, 3, 3, 3, 3, 0]) 5).2 = true ∧
    (sow (Board.ofList [0, 0, 0, 0, 0, 14, 4, 3, 3, 3, 3, 3, 3, 0]) 5).1.toList
      = [1, 1, 1, 1, 1, 1, 6, 4, 4, 4, 4, 4, 4, 0] ∧
    (sow (Board.ofList [0, 0, 0, 0, 0, 14, 4, 3, 3, 3, 3, 3, 3, 0]) 5).1.opp_pit 0
      ≠ (Board.ofList [0, 0, 0, 0, 0, 14, 4, 3, 3, 3, 3, 3, 3, 0]).opp_pit 0 := by
  decide

/-- C7 (amended). For every board and every non-empty pit `p` in `0..5`, if the last seed
sown lands on the mover's own store (ring slot 6), then `sow` returns true and the
opponent's store is unchanged; the six opponent pits are unchanged as well when pit `p`
held fewer than 13 seeds (the sowing did not lap the board). -/
theorem sow_store_landing (b : Board) (p : Nat) (hp : p < PITS) (_hne : b.pit p ≠ 0)
    (hland : (landing b p).1 = PITS) :
    (sow b p).2 = true ∧ (sow b p).1.opp_store = b.opp_store ∧
    (b.pit p < 13 → ∀ i, i < PITS → (sow b p).1.opp_pit i = b.opp_pit i) := by
  have hfin : sow b p = ((landing b p).2, true) := by
    rw [sow_eq_landing, hland]; simp [sowFinish]
  refine ⟨by rw [hfin], sow_opp_store b p hp, ?_⟩
  intro hn i hi
  rw [landing_pos b p hp] at hland
  simp only [PITS, Board.pit] at hp hland hn hi
  rw [hfin]
  simp only [Board.opp_pit, HALF, PITS, Nat.reduceAdd]
  rw [landing_ring, visits_eq_zero _ _ _ (fun k hk => by simp only [Board.pit] at hk; omega)]
  simp only [if_true, Board.set_ring]
  rw [if_neg (by omega)]

/-- Witness for C7 (amended): pit 3 holds three seeds, the last one lands on the store. -/
theorem sow_store_landing_witness :
    3 < PITS ∧ START_BOARD.pit 3 ≠ 0 ∧ (landing START_BOARD 3).1 = PITS ∧
    ((sow START_BOARD 3).2 = true ∧ (sow START_BOARD 3).1.opp_store = START_BOARD.opp_store ∧
     (START_BOARD.pit 3 < 13 → ∀ i, i < PITS →
        (sow START_BOARD 3).1.opp_pit i = START_BOARD.opp_pit i)) :=
  ⟨by decide, by decide, by decide,
    sow_store_landing START_BOARD 3 (by decide) (by decide) (by decide)⟩

/-- C6 as stated fails: the capture addition is a `uint8_t` one. Pit 0 sows its single
seed onto the empty pit 1 and captures the two seeds of the mirrored pit; the store held
255 and ends at 2 instead of growing by 3. -/
theorem sow_capture_wraps :
    (landing (Board.ofList [1, 0, 0, 0, 0, 0, 255, 0, 0, 0, 0, 2, 0, 0]) 0).1 = 1 ∧
    (landing (Board.ofList [1, 0, 0, 0, 0, 0, 255, 0, 0, 0, 0, 2, 0, 0]) 0).2.toList
      = [0, 1, 0, 0, 0, 0, 255, 0, 0, 0, 0, 2, 0, 0] ∧
    (sow (Board.ofList [1, 0, 0, 0, 0, 0, 255, 0, 0, 0, 0, 2, 0, 0]) 0).1.toList
      = [0, 0, 0, 0, 0, 0, 2, 0, 0, 0, 0, 0, 0, 0] ∧
    (sow (Board.ofList [1, 0, 0, 0, 0, 0, 255, 0, 0, 0, 0, 2, 0, 0]) 0).1.store
      ≠ (Board.ofList [1, 0, 0, 0, 0, 0, 255, 0, 0, 0, 0, 2, 0, 0]).store + (1 + 2) := by
  decide

/-- C6 (amended). For every board and every non-empty pit `p` in `0..5`, let `q` be the
slot where the last seed lands and `m` the board at that moment. If `q` is an own pit
holding exactly 1 seed in `m`, then after `sow` both `pit[q]` and `opp_pit[5-q]` are 0,
the store is `(m.store + 1 + m.opp_pit[5-q]) % 256` (a growth of exactly
`1 + m.opp_pit[5-q]` over `m.store` when that does not exceed 255, also when
`m.opp_pit[5-q]` is 0), no other slot differs from `m`, and `sow` returns false. If `q` is
an own pit whose count in `m` is not 1, or an opponent pit, `sow` returns `m` and false. -/
theorem sow_capture_rule (b : Board) (p : Nat) (_hp : p < PITS) (_hne : b.pit p ≠ 0) :
    ((landing b p).1 < PITS → (landing b p).2.pit (landing b p).1 = 1 →
      (sow b p).2 = false ∧
      (sow b p).1.pit (landing b p).1 = 0 ∧
      (sow b p).1.opp_pit (PITS - 1 - (landing b p).1) = 0 ∧
      (sow b p).1.store = ((landing b p).2.store + 1
        + (landing b p).2.opp_pit (PITS - 1 - (landing b p).1)) % 256 ∧
      ((landing b p).2.store + 1 + (landing b p).2.opp_pit (PITS - 1 - (landing b p).1) ≤ 255 →
        (sow b p).1.store = (landing b p).2.store + 1
          + (landing b p).2.opp_pit (PITS - 1 - (landing b p).1)) ∧
      (∀ i, i ≠ (landing b p).1 → i ≠ PITS → i ≠ HALF + (PITS - 1 - (landing b p).1) →
        (sow b p).1.ring i = (landing b p).2.ring i)) ∧
    (((landing b p).1 < PITS ∧ (landing b p).2.pit (landing b p).1 ≠ 1) ∨ HALF ≤ (landing b p).1 →
      sow b p = ((landing b p).2, false)) := by
  rw [sow_eq_landing]
  generalize (landing b p).1 = q
  generalize (landing b p).2 = m
  constructor
  · intro hq h1
    have hq6 : q ≠ PITS := by simp only [PITS] at hq ⊢; omega
    simp only [PITS] at hq
    simp only [sowFinish, hq6, if_false, h1, and_self, if_true, hq, Board.pit, Board.store,
      Board.opp_pit, Board.set_ring, PITS, HALF, Nat.reduceAdd, Nat.reduceSub, true_and]
    simp only [Board.pit] at h1
    refine ⟨?_, ?_, ?_, ?_⟩
    · rw [if_neg (by omega)]
    · rw [if_neg (by omega), if_neg (by omega)]
      congr 1
      omega
    · intro hle
      rw [if_neg (by omega), if_neg (by omega), Nat.mod_eq_of_lt (by omega)]
      omega
    · intro i hi1 hi2 hi3
      rw [if_neg hi1, if_neg hi3, if_neg hi2]
  · intro h
    simp only [PITS, HALF, Nat.reduceAdd] at h
    unfold sowFinish
    rw [if_neg (by simp only [PITS]; omega), if_neg]
    simp only [PITS, not_and]
    intro hq
    rcases h with ⟨_, h⟩ | h
    · exact h
    · omega

/-- Witness for C6 (amended): pit 1 sows two seeds, the last one onto the empty pit 3,
capturing the three seeds of the mirrored opponent pit. -/
theorem sow_capture_rule_witness :
    1 < PITS ∧ (Board.ofList [3, 2, 3, 0, 3, 3, 4, 3, 3, 3, 3, 3, 3, 0]).pit 1 ≠ 0 ∧
    (landing (Board.ofList [3, 2, 3, 0, 3, 3, 4, 3, 3, 3, 3, 3, 3, 0]) 1).1 = 3 ∧
    (landing (Board.ofList [3, 2, 3, 0, 3, 3, 4, 3, 3, 3, 3, 3, 3, 0]) 1).2.toList
      = [3, 0, 4, 1, 3, 3, 4, 3, 3, 3, 3, 3, 3, 0] ∧
    (sow (Board.ofList [3, 2, 3, 0, 3, 3, 4, 3, 3, 3, 3, 3, 3, 0]) 1).1.toList
      = [3, 0, 4, 0, 3, 3, 8, 3, 3, 0, 3, 3, 3, 0] ∧
    (sow (Board.ofList [3, 2, 3, 0, 3, 3, 4, 3, 3, 3, 3, 3, 3, 0]) 1).2 = false :=
  ⟨by decide, by decide, by decide, by decide, by decide,
    ((sow_capture_rule (Board.ofList [3, 2, 3, 0, 3, 3, 4, 3, 3, 3, 3, 3, 3, 0]) 1
      (by decide) (by decide)).1 (by decide) (by decide)).1⟩

/-- C8 as stated fails: a visited slot holding 255 seeds does not gain a seed, the
`uint8_t` increment wraps it to 0 (pit 0 sows its single seed onto pit 1). -/
theorem sow_increment_wraps :
    visits 1 0 1 = 1 ∧
    (Board.ofList [1, 255, 0, 0, 0, 0, 0, 0, 0, 0, 0, 0, 0, 0]).pit 1 = 255 ∧
    (sow (Board.ofList [1, 255, 0, 0, 0, 0, 0, 0, 0, 0, 0, 0, 0, 0]) 0).1.toList
      = [0, 0, 0, 0, 0, 0, 0, 0, 0, 0, 0, 0, 0, 0] ∧
    (sow (Board.ofList [1, 255, 0, 0, 0, 0, 0, 0, 0, 0, 0, 0, 0, 0]) 0).1.pit 1 ≠ 255 + 1 := by
  decide

/-- C8 (amended). For every board and every pit index `p` in `0..5`, `sow` leaves
`opp_store` unchanged; the distribution starts from the board with pit `p` emptied and
drops seed number `k` on slot `(p + k + 1) % 13`, so that slot `i` ends the sowing with
its count plus the number of its visits modulo 256 (exactly that sum when it does not
exceed 255); the opponent's store is never visited and every seed is dropped on one of
the 13 other slots. -/
theorem sow_distribution (b : Board) (p : Nat) (hp : p < PITS) :
    (sow b p).1.opp_store = b.opp_store ∧
    sow b p = sowFinish (landing b p).1 (landing b p).2 ∧
    landing b p = sowLoop (b.pit p) p (b.set p 0) ∧
    (b.set p 0).pit p = 0 ∧
    (∀ i, (landing b p).2.ring i =
      if visits (b.pit p) p i = 0 then (b.set p 0).ring i
      else ((b.set p 0).ring i + visits (b.pit p) p i) % 256) ∧
    (∀ i, (b.set p 0).ring i + visits (b.pit p) p i ≤ 255 →
      (landing b p).2.ring i = (b.set p 0).ring i + visits (b.pit p) p i) ∧
    visits (b.pit p) p (HALF + PITS) = 0 ∧
    ((List.range (FULL - 1)).map (visits (b.pit p) p)).sum = b.pit p := by
  refine ⟨sow_opp_store b p hp, rfl, rfl, by simp [Board.pit], landing_ring b p, ?_,
    visits_opp_store _ _ _ (by decide), sum_visits _ _⟩
  intro i hi
  rw [landing_ring]
  split_ifs with h
  · omega
  · exact Nat.mod_eq_of_lt (by omega)

/-- Witness for C8 (amended): 14 seeds sown from pit 2 lap the board. -/
theorem sow_distribution_witness :
    2 < PITS ∧
    (sow (Board.ofList [1, 0, 14, 0, 2, 0, 5, 3, 3, 3, 1, 1, 1, 2]) 2).1.opp_store = 2 ∧
    (landing (Board.ofList [1, 0, 14, 0, 2, 0, 5, 3, 3, 3, 1, 1, 1, 2]) 2).2.toList
      = [2, 1, 1, 2, 3, 1, 6, 4, 4, 4, 2, 2, 2, 2] ∧
    ((List.range (FULL - 1)).map
      (visits ((Board.ofList [1, 0, 14, 0, 2, 0, 5, 3, 3, 3, 1, 1, 1, 2]).pit 2) 2)).sum = 14 :=
  ⟨by decide,
    (sow_distribution (Board.ofList [1, 0, 14, 0, 2, 0, 5, 3, 3, 3, 1, 1, 1, 2]) 2
      (by decide)).1,
    by decide,
    (sow_distribution (Board.ofList [1, 0, 14, 0, 2, 0, 5, 3, 3, 3, 1, 1, 1, 2]) 2
      (by decide)).2.2.2.2.2.2.2⟩

/-! ## Claims about the search -/

/-- C1. Negamax correctness: for every board whose 14 slots sum to 36 and every depth `d`
at least the length `height b` of the longest game playable from it, `search` with the
full window on a cleared table returns the full-tree minimax value `minimax b`, which is
`final_score` at a game-over board and otherwise the maximum over the non-empty pits of
the value of the move (the value of `sow b p` when the move grants another turn, minus the
value of `flip (sow b p)` when it does not). -/
theorem search_eq_minimax (b : Board) (d : Nat) (hsum : total b = 36) (hd : height b ≤ d) :
    (search d b (-36) 36 tt_clear).1.score = minimax b ∧
    minimax b = (if is_game_over b then final_score b
      else maxList ((legalMoves b).map (fun p =>
        if (sow b p).2 then minimax (sow b p).1 else - minimax (flip (sow b p).1)))) := by
  have hsolved := (search_inv 0 (le_refl _) d b (-36) 36 tt_clear TTInv_clear
    (Or.inl (by omega))).2 (by omega)
  have hok := (search_ok d b (-36) 36 tt_clear hsum (by omega) (by omega) (by omega)
    TTOK_clear).2 hsolved
  exact ⟨root_exact b _ hsum hok, minimax_eq b⟩

/-- Witness for C1: a board with three seeds left in the pits, searched at depth 3. -/
theorem search_eq_minimax_witness :
    total (Board.ofList [0, 0, 0, 0, 1, 1, 17, 0, 0, 0, 0, 1, 0, 16]) = 36 ∧
    height (Board.ofList [0, 0, 0, 0, 1, 1, 17, 0, 0, 0, 0, 1, 0, 16]) ≤ 3 ∧
    (search 3 (Board.ofList [0, 0, 0, 0, 1, 1, 17, 0, 0, 0, 0, 1, 0, 16]) (-36) 36 tt_clear).1.score
      = 2 ∧
    (search 3 (Board.ofList [0, 0, 0, 0, 1, 1, 17, 0, 0, 0, 0, 1, 0, 16]) (-36) 36 tt_clear).1.score
      = minimax (Board.ofList [0, 0, 0, 0, 1, 1, 17, 0, 0, 0, 0, 1, 0, 16]) :=
  ⟨by decide, by decide, by decide,
    (search_eq_minimax (Board.ofList [0, 0, 0, 0, 1, 1, 17, 0, 0, 0, 0, 1, 0, 16]) 3
      (by decide) (by decide)).1⟩

/-- C2. For every board with 36 seeds that is not game-over, `search_full` on a cleared
table returns (it stops within `height b + 127` iterations), and whatever it returns, the
move is the index in `0..5` of a non-empty own pit, playing it has a value (the minimax
value of the position it leads to, negated when the turn passes) equal to the returned
score, and that score is the minimax value of the board. -/
theorem search_full_best_move (b : Board) (hsum : total b = 36)
    (hgo : is_game_over b = false) :
    (∃ r, search_full (height b + 127) b tt_clear = some r) ∧
    ∀ (fuel : Nat) (r : Result × TT), search_full fuel b tt_clear = some r →
      0 ≤ r.1.move ∧ r.1.move ≤ 5 ∧ b.pit r.1.move.toNat ≠ 0 ∧
      moveValue b r.1.move.toNat = r.1.score ∧ r.1.score = minimax b := by
  refine ⟨?_, fun fuel r h => ?_⟩
  · obtain ⟨r, hr, _⟩ := search_full_loop_solved b (height b + 126) 1 tt_clear
      (TTInv_mono 0 127 (by omega) _ TTInv_clear) (by omega)
    exact ⟨r, hr⟩
  · obtain ⟨_, hok⟩ := search_full_loop_ok b hsum fuel 1 tt_clear r TTOK_clear h
    obtain ⟨m1, m2, m3, m4⟩ := root_move b r.1 hsum hgo hok
    exact ⟨m1, m2, m3, m4, root_exact b r.1 hsum hok⟩

/-- Witness for C2: the same board; `search_full` returns at depth 2 with move 5. -/
theorem search_full_best_move_witness :
    total (Board.ofList [0, 0, 0, 0, 1, 1, 17, 0, 0, 0, 0, 1, 0, 16]) = 36 ∧
    is_game_over (Board.ofList [0, 0, 0, 0, 1, 1, 17, 0, 0, 0, 0, 1, 0, 16]) = false ∧
    (search_full 2 (Board.ofList [0, 0, 0, 0, 1, 1, 17, 0, 0, 0, 0, 1, 0, 16]) tt_clear).map
      (fun r => (r.1.move, r.1.score)) = some (5, 2) ∧
    ((∃ r, search_full (height (Board.ofList [0, 0, 0, 0, 1, 1, 17, 0, 0, 0, 0, 1, 0, 16]) + 127)
        (Board.ofList [0, 0, 0, 0, 1, 1, 17, 0, 0, 0, 0, 1, 0, 16]) tt_clear = some r) ∧
      ∀ (fuel : Nat) (r : Result × TT),
        search_full fuel (Board.ofList [0, 0, 0, 0, 1, 1, 17, 0, 0, 0, 0, 1, 0, 16]) tt_clear
          = some r →
        0 ≤ r.1.move ∧ r.1.move ≤ 5 ∧
        (Board.ofList [0, 0, 0, 0, 1, 1, 17, 0, 0, 0, 0, 1, 0, 16]).pit r.1.move.toNat ≠ 0 ∧
        moveValue (Board.ofList [0, 0, 0, 0, 1, 1, 17, 0, 0, 0, 0, 1, 0, 16]) r.1.move.toNat
          = r.1.score ∧
        r.1.score = minimax (Board.ofList [0, 0, 0, 0, 1, 1, 17, 0, 0, 0, 0, 1, 0, 16])) :=
  ⟨by decide, by decide, by decide,
    search_full_best_move (Board.ofList [0, 0, 0, 0, 1, 1, 17, 0, 0, 0, 0, 1, 0, 16])
      (by decide) (by decide)⟩

/-- C3. Iterative deepening terminates. For every board, `search` at depth
`d = max 1 (height b)` on a cleared table returns a solved result, where `height b` is
the length of the longest complete game playable from `b` (some complete game has that
length and none is longer), so `d = 1` on a game-over board; and the loop of
`search_full`, which carries the table from one depth to the next, stops with a solved
result within `height b + 127` iterations. -/
theorem search_full_terminates (b : Board) :
    (search (max 1 (height b)) b (-36) 36 tt_clear).1.solved = true ∧
    (is_game_over b = true → max 1 (height b) = 1) ∧
    (∃ ms : List Nat, CompleteGame b ms ∧ ms.length = height b) ∧
    (∀ ms : List Nat, CompleteGame b ms → ms.length ≤ height b) ∧
    (∃ r, search_full (height b + 127) b tt_clear = some r ∧ r.1.solved = true) := by
  refine ⟨?_, ?_, exists_game_of_height _ b rfl, fun ms h => game_le_height ms b h, ?_⟩
  · exact (search_inv 0 (le_refl _) (max 1 (height b)) b (-36) 36 tt_clear TTInv_clear
      (Or.inl (by push_cast; omega))).2 (by push_cast; omega)
  · intro h
    rw [height_game_over b h]
    rfl
  · exact search_full_loop_solved b (height b + 126) 1 tt_clear
      (TTInv_mono 0 127 (by omega) _ TTInv_clear) (by omega)

/-! ## Claims about the hash, the table, the session interface and the length of games -/

/-- C11. The position hash ignores the stores: two boards that agree on the six own pits
and the six opponent pits have the same `hash_board`, whatever their `store` and
`opp_store` (and their other slots) hold; the hash is a 64-bit value. -/
theorem hash_board_ignores_stores (b c : Board)
    (h : ∀ i, i < PITS → b.pit i = c.pit i ∧ b.opp_pit i = c.opp_pit i) :
    hash_board b = hash_board c ∧ hash_board b < 2 ^ 64 := by
  have e : pitList b = pitList c := by
    simp only [pitList]
    rw [(h 0 (by decide)).1, (h 0 (by decide)).2, (h 1 (by decide)).1, (h 1 (by decide)).2,
      (h 2 (by decide)).1, (h 2 (by decide)).2, (h 3 (by decide)).1, (h 3 (by decide)).2,
      (h 4 (by decide)).1, (h 4 (by decide)).2, (h 5 (by decide)).1, (h 5 (by decide)).2]
  refine ⟨by rw [hash_board_eq, hash_board_eq, e], ?_⟩
  simp only [hash_board, range_PITS, List.foldl_cons, List.foldl_nil]
  exact Nat.mod_lt _ (by decide)

/-- Witness for C11: the start position and the same pits with stores 9 and 200. -/
theorem hash_board_ignores_stores_witness :
    (Board.ofList [3, 3, 3, 3, 3, 3, 9, 3, 3, 3, 3, 3, 3, 200]).store ≠ START_BOARD.store ∧
    hash_board START_BOARD = hash_board (Board.ofList [3, 3, 3, 3, 3, 3, 9, 3, 3, 3, 3, 3, 3, 200]) :=
  ⟨by decide,
    (hash_board_ignores_stores START_BOARD
      (Board.ofList [3, 3, 3, 3, 3, 3, 9, 3, 3, 3, 3, 3, 3, 200])
      (by intro i hi; interval_cases i <;> exact ⟨rfl, rfl⟩)).1⟩

/-- C15. The session function `move` rejects invalid requests atomically: it returns `-1`
exactly when `pit` is outside `0..5` or that pit of the side to move is empty, and then
the session state is unchanged; otherwise it returns `1` when `sow` grants another turn and
`0` when it does not, and the turn flag is flipped (`turn ^= 1`, a different value) exactly
when `0` is returned. -/
theorem move_rejects_atomically (s : State) (pit : Int) :
    ((move s pit).2 = -1 ↔ (pit < 0 ∨ 5 < pit ∨ (mover_view s).pit pit.toNat = 0)) ∧
    ((move s pit).2 = -1 → (move s pit).1 = s) ∧
    ((move s pit).2 ≠ -1 →
      ((sow (mover_view s) pit.toNat).2 = true → (move s pit).2 = 1) ∧
      ((sow (mover_view s) pit.toNat).2 = false → (move s pit).2 = 0)) ∧
    ((move s pit).2 = 0 → (move s pit).1.turn = (s.turn ^^^ 1) % 256) ∧
    ((move s pit).2 ≠ 0 → (move s pit).1.turn = s.turn) ∧
    (s.turn < 256 → (s.turn ^^^ 1) % 256 ≠ s.turn) := by
  have hx : s.turn < 256 → (s.turn ^^^ 1) % 256 ≠ s.turn := by
    intro h
    rw [Nat.mod_eq_of_lt (xor_one_lt _ h)]
    exact xor_one_ne _
  by_cases hbad : pit < 0 ∨ pit ≥ (PITS : Int) ∨ (mover_view s).pit pit.toNat = 0
  · have e : move s pit = (s, -1) := by
      simp only [move]
      rw [if_pos hbad]
    rw [e]
    have hne : ¬ ((-1 : Int) = 0) := by decide
    refine ⟨⟨fun _ => ?_, fun _ => rfl⟩, fun _ => rfl, fun h => absurd rfl h,
      fun h => absurd h hne, fun _ => rfl, hx⟩
    rcases hbad with h | h | h
    · exact Or.inl h
    · exact Or.inr (Or.inl (by simp only [PITS] at h; omega))
    · exact Or.inr (Or.inr h)
  · have hgood : ¬ (pit < 0 ∨ 5 < pit ∨ (mover_view s).pit pit.toNat = 0) := by
      intro h
      apply hbad
      rcases h with h | h | h
      · exact Or.inl h
      · exact Or.inr (Or.inl (by simp only [PITS]; omega))
      · exact Or.inr (Or.inr h)
    by_cases hag : (sow (mover_view s) pit.toNat).2 = true
    · have h2 : (move s pit).2 = 1 := by
        simp only [move]
        rw [if_neg hbad, if_pos hag]
      have h1 : (move s pit).1.turn = s.turn := by
        simp only [move]
        rw [if_neg hbad, if_pos hag]
      rw [h2, h1]
      refine ⟨⟨fun h => absurd h (by decide), fun h => absurd h hgood⟩,
        fun h => absurd h (by decide), fun _ => ⟨fun _ => rfl, fun h => ?_⟩,
        fun h => absurd h (by decide), fun _ => rfl, hx⟩
      rw [hag] at h
      exact absurd h (by decide)
    · have h2 : (move s pit).2 = 0 := by
        simp only [move]
        rw [if_neg hbad, if_neg hag]
      have h1 : (move s pit).1.turn = (s.turn ^^^ 1) % 256 := by
        simp only [move]
        rw [if_neg hbad, if_neg hag]
      rw [h2, h1]
      exact ⟨⟨fun h => absurd h (by decide), fun h => absurd h hgood⟩,
        fun h => absurd h (by decide), fun _ => ⟨fun h => absurd h hag, fun _ => rfl⟩,
        fun _ => rfl, fun h => absurd rfl h, hx⟩

/-- C16 as stated fails when a store wraps: the boards below have the same pits, but the
first has `store = 255`, so the seed sown from pit 5 takes its store to 0, and the value
minus the store differential is `-256` for it and `0` for the second. -/
theorem relative_value_store_wrap :
    SameP (Board.ofList [0, 0, 0, 0, 0, 1, 255, 1, 0, 0, 0, 0, 0, 0])
      (Board.ofList [0, 0, 0, 0, 0, 1, 0, 1, 0, 0, 0, 0, 0, 0]) ∧
    minimax (Board.ofList [0, 0, 0, 0, 0, 1, 255, 1, 0, 0, 0, 0, 0, 0])
      - diff (Board.ofList [0, 0, 0, 0, 0, 1, 255, 1, 0, 0, 0, 0, 0, 0]) = -256 ∧
    minimax (Board.ofList [0, 0, 0, 0, 0, 1, 0, 1, 0, 0, 0, 0, 0, 0])
      - diff (Board.ofList [0, 0, 0, 0, 0, 1, 0, 1, 0, 0, 0, 0, 0, 0]) = 0 := by
  refine ⟨?_, by decide, by decide⟩
  intro i hi hne
  interval_cases i <;> first | rfl | exact absurd rfl hne

/-- C16 (amended). For two boards with the same twelve pit counts and at most 255 seeds
each (so that no store wraps), the minimax value minus the own store differential is the
same number; hence a score `v` for `b` stored as `v - diff b` (it fits the `int8_t` field
when it lies in `-128..127`) and read back for `c` as `entry.score + diff c` is the value
of `c` when `v` is the value of `b`, a lower bound when `v` is one, an upper bound when `v`
is one. -/
theorem cached_score_composes (b c : Board) (hs : SameP b c) (hb : total b ≤ 255)
    (hc : total c ≤ 255) :
    minimax b - diff b = minimax c - diff c ∧
    ∀ v : Int, -128 ≤ v - diff b → v - diff b ≤ 127 →
      (v = minimax b → wrap8 (v - diff b) + diff c = minimax c) ∧
      (v ≤ minimax b → wrap8 (v - diff b) + diff c ≤ minimax c) ∧
      (minimax b ≤ v → minimax c ≤ wrap8 (v - diff b) + diff c) := by
  have h := minimax_rel b c hs hb hc
  refine ⟨h, fun v h1 h2 => ?_⟩
  rw [wrap8_id _ h1 h2]
  refine ⟨fun e => ?_, fun e => ?_, fun e => ?_⟩ <;> omega

/-- Witness for C16 (amended): two boards of 36 seeds with the same pits. -/
theorem cached_score_composes_witness :
    SameP (Board.ofList [0, 0, 0, 0, 1, 1, 17, 0, 0, 0, 0, 1, 0, 16])
      (Board.ofList [0, 0, 0, 0, 1, 1, 3, 0, 0, 0, 0, 1, 0, 30]) ∧
    minimax (Board.ofList [0, 0, 0, 0, 1, 1, 17, 0, 0, 0, 0, 1, 0, 16])
      - diff (Board.ofList [0, 0, 0, 0, 1, 1, 17, 0, 0, 0, 0, 1, 0, 16]) =
    minimax (Board.ofList [0, 0, 0, 0, 1, 1, 3, 0, 0, 0, 0, 1, 0, 30])
      - diff (Board.ofList [0, 0, 0, 0, 1, 1, 3, 0, 0, 0, 0, 1, 0, 30]) :=
  ⟨by intro i hi hne; interval_cases i <;> first | rfl | exact absurd rfl hne,
    (cached_score_composes _ _
      (by intro i hi hne; interval_cases i <;> first | rfl | exact absurd rfl hne)
      (by decide) (by decide)).1⟩

/-- C17. A solved entry is never evicted for an unsolved one. For every call of `search`
(any board, depth, window and table): every slot that is solved before the call is solved
after it. A call at depth 0 writes nothing. A call at depth `d + 1` either returns before
its move loop and leaves the table as it found it, or it ends in the replacement test
`searchFinish` run on `afterLoop d b alpha beta tt`, the state its own move loop leaves
(recursive calls included): its result carries the `solved` flag of that state, every slot
other than `slot b` is as the loop left it, and when the result is unsolved and the slot of
the board differs from what the loop left there (the call wrote it), the entry that was
there is not solved and either the key test of the call failed (the entry it probed had a
different key) or the stored depth is no greater than the depth of the call. On a board of
at most 36 seeds and a table within `TTInv 127`, an entry with a different key at the probe
still has a different key when the replacement test runs. -/
theorem solved_never_evicted (d : Nat) (b : Board) (alpha beta : Int) (tt : TT) :
    (∀ j, (tt j).solved = true → ((search d b alpha beta tt).2 j).solved = true) ∧
    (search 0 b alpha beta tt).2 = tt ∧
    ((search (d + 1) b alpha beta tt).2 = tt ∨
      (search (d + 1) b alpha beta tt =
          searchFinish ((d : Int) + 1) (hash_board b) (slot b)
            (decide ((tt (slot b)).key = hash_board b))
            ((b.store : Int) - (b.opp_store : Int)) alpha beta (afterLoop d b alpha beta tt) ∧
        (search (d + 1) b alpha beta tt).1.solved = (afterLoop d b alpha beta tt).solved ∧
        (∀ j, j ≠ slot b →
          (search (d + 1) b alpha beta tt).2 j = (afterLoop d b alpha beta tt).tt j) ∧
        ((search (d + 1) b alpha beta tt).1.solved = false →
          (search (d + 1) b alpha beta tt).2 (slot b) ≠
            (afterLoop d b alpha beta tt).tt (slot b) →
          ((afterLoop d b alpha beta tt).tt (slot b)).solved = false ∧
          ((tt (slot b)).key ≠ hash_board b ∨
            ((afterLoop d b alpha beta tt).tt (slot b)).depth ≤ (d : Int) + 1)))) ∧
    (total b ≤ 36 → TTInv 127 tt → (tt (slot b)).key ≠ hash_board b →
      ((afterLoop d b alpha beta tt).tt (slot b)).key ≠ hash_board b) := by
  refine ⟨search_kept d b alpha beta tt, search_zero_tt b alpha beta tt, ?_,
    fun hb ht hk => afterLoop_key d b alpha beta tt hb ht (slot b) hk⟩
  rcases search_succ_shape d b alpha beta tt with h | h
  · exact Or.inl h
  · refine Or.inr ⟨h, ?_⟩
    rw [h]
    have hf := searchFinish_frame ((d : Int) + 1) (hash_board b) (slot b)
      (decide ((tt (slot b)).key = hash_board b))
      ((b.store : Int) - (b.opp_store : Int)) alpha beta (afterLoop d b alpha beta tt)
    refine ⟨hf.1, hf.2, fun hu hne => ?_⟩
    rw [hf.1] at hu
    rcases (searchFinish_unsolved ((d : Int) + 1) (hash_board b) (slot b)
      (decide ((tt (slot b)).key = hash_board b))
      ((b.store : Int) - (b.opp_store : Int)) alpha beta (afterLoop d b alpha beta tt)
      hu).2 with e | ⟨h1, h2⟩
    · exact absurd (by rw [e]) hne
    · refine ⟨h1, ?_⟩
      rcases h2 with h2 | h2
      · exact Or.inl (by simpa using h2)
      · exact Or.inr h2

/-- Witness for C17: the call `search(START_BOARD, 1, -36, 36)` on a cleared table returns an
unsolved result and writes its slot (the key there becomes the hash of the board, the loop
had left key 0); the entry it replaced is unsolved and has a different key. -/
theorem solved_never_evicted_witness :
    (search 1 START_BOARD (-36) 36 tt_clear).1.solved = false ∧
    ((search 1 START_BOARD (-36) 36 tt_clear).2 (slot START_BOARD)).key = hash_board START_BOARD ∧
    ((afterLoop 0 START_BOARD (-36) 36 tt_clear).tt (slot START_BOARD)).key = 0 ∧
    ((afterLoop 0 START_BOARD (-36) 36 tt_clear).tt (slot START_BOARD)).solved = false ∧
    ((tt_clear (slot START_BOARD)).key ≠ hash_board START_BOARD ∨
      ((afterLoop 0 START_BOARD (-36) 36 tt_clear).tt (slot START_BOARD)).depth ≤
        ((0 : Nat) : Int) + 1) := by
  have hne : (search 1 START_BOARD (-36) 36 tt_clear).2 (slot START_BOARD) ≠
      (afterLoop 0 START_BOARD (-36) 36 tt_clear).tt (slot START_BOARD) := by
    intro h
    have hk := congrArg TTEntry.key h
    revert hk
    decide
  have hu : (search 1 START_BOARD (-36) 36 tt_clear).1.solved = false := by decide
  refine ⟨hu, by decide, by decide, ?_⟩
  rcases (solved_never_evicted 0 START_BOARD (-36) 36 tt_clear).2.2.1 with h | ⟨_, _, _, h⟩
  · have k : ((search 1 START_BOARD (-36) 36 tt_clear).2 (slot START_BOARD)).key ≠ 0 := by
      decide
    rw [h] at k
    exact absurd rfl k
  · exact h hu hne

/-- C18 as stated fails: with four seeds in the pits (own pits 2 and 3, opponent pits 3 and
4, one seed each) the game `2, 3, 3, 4, 5` is a complete game of five moves. -/
theorem game_longer_than_seeds :
    CompleteGame (Board.ofList [0, 0, 1, 1, 0, 0, 16, 0, 0, 0, 1, 1, 0, 16]) [2, 3, 3, 4, 5] ∧
    pitSum (Board.ofList [0, 0, 1, 1, 0, 0, 16, 0, 0, 0, 1, 1, 0, 16]) = 4 ∧
    ¬ ([2, 3, 3, 4, 5].length ≤ pitSum (Board.ofList [0, 0, 1, 1, 0, 0, 16, 0, 0, 0, 1, 1, 0, 16])) := by
  refine ⟨?_, by decide, by decide⟩
  simp only [CompleteGame]
  decide

/-- C18 (amended). Every complete game played from `b` has at most `height b` moves, and
`height b` is at most `rank b = 3 * S * S + 3 * S + dist b`, itself at most
`3 * S * S + 8 * S`, where `S` is the number of seeds in the twelve pits of `b`: the seeds
left in the pits do not bound the length of a game, but this quadratic in them does. -/
theorem game_length_bound (b : Board) (ms : List Nat) (h : CompleteGame b ms) :
    ms.length ≤ height b ∧ height b ≤ rank b ∧
    rank b ≤ 3 * pitSum b * pitSum b + 8 * pitSum b := by
  refine ⟨game_le_height ms b h, height_le_rank b, ?_⟩
  have := dist_le b
  unfold rank
  omega

/-- Witness for C18 (amended): the five-move game of the counterexample. -/
theorem game_length_bound_witness :
    CompleteGame (Board.ofList [0, 0, 1, 1, 0, 0, 16, 0, 0, 0, 1, 1, 0, 16]) [2, 3, 3, 4, 5] ∧
    [2, 3, 3, 4, 5].length ≤ height (Board.ofList [0, 0, 1, 1, 0, 0, 16, 0, 0, 0, 1, 1, 0, 16]) :=
  ⟨by simp only [CompleteGame]; decide,
    (game_length_bound _ [2, 3, 3, 4, 5] (by simp only [CompleteGame]; decide)).1⟩

/-- C19. Every board reachable from `START_BOARD` has a `final_score` in `[-36, 36]`, the
window that `search_full` passes to `search`, and the balance `bal` that `compute_dist`
forms at a game-over board gives an index `bal + 36` in `0..72`. -/
theorem score_scale (b : Board) (h : Reachable b) :
    -36 ≤ final_score b ∧ final_score b ≤ 36 ∧ 0 ≤ bal b + 36 ∧ bal b + 36 ≤ 72 := by
  have ht := total_of_reachable b h
  have hf := final_score_range b ht
  refine ⟨hf.1, hf.2, ?_⟩
  rw [bal_eq]
  rw [total_eq] at ht
  omega

/-- Witness for C19: the start position after the opening move of pit 3. -/
theorem score_scale_witness :
    Reachable (sow START_BOARD 3).1 ∧ -36 ≤ final_score (sow START_BOARD 3).1 ∧
    final_score (sow START_BOARD 3).1 ≤ 36 :=
  ⟨Reachable.sow _ 3 Reachable.start (by decide) (by decide),
    (score_scale _ (Reachable.sow _ 3 Reachable.start (by decide) (by decide))).1,
    (score_scale _ (Reachable.sow _ 3 Reachable.start (by decide) (by decide))).2.1⟩

/-- C20. `flip` exchanges ring slot `i` with ring slot `7 + i` for `i` in `0..6` (own pits
and store with the opponent's), and `flip (flip b) = b`. In the session function `move`,
when the second player is to move (`turn ≠ 0`) and the move is accepted, the stored board
is the flip of the board sown from the mover's side, so its slots `7 + i` hold what the
mover's slots `i` hold after `sow`, and its slots `i` what the mover's slots `7 + i` hold;
when `turn = 0` the stored board is the sown board itself. -/
theorem flip_involution (b : Board) :
    (∀ i, i < HALF → (flip b).ring i = b.ring (HALF + i) ∧ (flip b).ring (HALF + i) = b.ring i) ∧
    flip (flip b) = b ∧
    ∀ (s : State) (pit : Int), (move s pit).2 ≠ -1 →
      (s.turn ≠ 0 →
        flip (move s pit).1.board = (sow (flip s.board) pit.toNat).1 ∧
        ∀ i, i < HALF →
          (move s pit).1.board.ring (HALF + i) = (sow (flip s.board) pit.toNat).1.ring i ∧
          (move s pit).1.board.ring i = (sow (flip s.board) pit.toNat).1.ring (HALF + i)) ∧
      (s.turn = 0 → (move s pit).1.board = (sow s.board pit.toNat).1) := by
  have hswap : ∀ (c : Board) (i : Nat), i < HALF →
      (flip c).ring i = c.ring (HALF + i) ∧ (flip c).ring (HALF + i) = c.ring i := by
    intro c i hi
    simp only [HALF, PITS, Nat.reduceAdd] at hi ⊢
    rw [flip_ring, flip_ring, if_pos hi, if_neg (by omega), if_pos (by omega)]
    exact ⟨by rw [Nat.add_comm], by congr 1; omega⟩
  refine ⟨hswap b, flip_flip b, fun s pit hret => ?_⟩
  have hbad : ¬ (pit < 0 ∨ pit ≥ (PITS : Int) ∨ (mover_view s).pit pit.toNat = 0) := by
    intro hbad
    apply hret
    simp only [move]
    rw [if_pos hbad]
  have hboard : (move s pit).1.board =
      if s.turn ≠ 0 then flip (sow (mover_view s) pit.toNat).1
      else (sow (mover_view s) pit.toNat).1 := by
    simp only [move]
    rw [if_neg hbad]
    by_cases hag : (sow (mover_view s) pit.toNat).2 = true
    · rw [if_pos hag]
    · rw [if_neg hag]
  constructor
  · intro ht
    have hv : mover_view s = flip s.board := by
      simp only [mover_view]
      rw [if_pos ht]
    rw [hboard, if_pos ht, hv, flip_flip]
    refine ⟨rfl, fun i hi => ?_⟩
    exact ⟨(hswap _ i hi).2, (hswap _ i hi).1⟩
  · intro ht
    have hv : mover_view s = s.board := by
      simp only [mover_view]
      rw [if_neg (by simpa using ht)]
    rw [hboard, if_neg (by simpa using ht), hv]

/-! ## Claims about the enumerations of `count.c` -/

/-- C12 fails at the start position. The complete games from a board `b` are the lists
`games b` (exactly the lists of legal moves that end in a game-over board, each once), and
`leaves b` is their number. From `START_BOARD` at least `2 ^ 64` complete games can be
played, while `count_all`, on a cleared table, returns their number modulo `2 ^ 64`, a
`uint64_t`: the two differ. -/
theorem count_all_start_overflow :
    (∀ ms, ms ∈ games START_BOARD ↔ CompleteGame START_BOARD ms) ∧
    (games START_BOARD).Nodup ∧ (games START_BOARD).length = leaves START_BOARD ∧
    2 ^ 64 ≤ leaves START_BOARD ∧
    (count_all START_BOARD ct_clear).1 = leaves START_BOARD % 2 ^ 64 ∧
    (count_all START_BOARD ct_clear).1 < 2 ^ 64 ∧
    (count_all START_BOARD ct_clear).1 ≠ leaves START_BOARD :=
  ⟨fun ms => mem_games ms START_BOARD, games_nodup START_BOARD, games_length START_BOARD,
    leaves_start, count_all_overflow START_BOARD (by decide) leaves_start⟩

/-- C14 as stated fails outside the game of 36 seeds: on the board below (one seed in own
pit 0, one in the opponent's pit 2, 127 seeds in the opponent's store) the only move leads
to a final score of -127, below the initial `best_score = -100` of `search`, so `search`
reports -100, no move reaches that score, and `count_optimal` returns 0 although
`count_all` returns 1. -/
theorem count_optimal_zero :
    (count_optimal (Board.ofList [1, 0, 0, 0, 0, 0, 0, 0, 0, 1, 0, 0, 0, 127])
      (tt_clear, ct_clear)).map (fun r => r.1) = some 0 ∧
    (count_all (Board.ofList [1, 0, 0, 0, 0, 0, 0, 0, 0, 1, 0, 0, 0, 127]) ct_clear).1 = 1 := by
  constructor <;> decide

/-- C14 (amended). For every board whose 14 slots sum to 36, on cleared tables:
`count_optimal` returns, and its value is the number of perfect-play games (complete games
in which every move keeps the minimax value of the position it is played in) modulo
`2 ^ 64`, as `count_all` is the number of complete games modulo `2 ^ 64`; the number of
perfect-play games is at least 1 and at most the number of complete games. Hence
`1 ≤ count_optimal(b)` when there are fewer than `2 ^ 64` perfect-play games, and
`count_optimal(b) ≤ count_all(b)` when there are fewer than `2 ^ 64` complete games. The
phase 3 of the driver returns the minimax value as score and the figure
`score > 0 ? count_optimal(b) : 0`: the figure is 0 whenever the score is at most 0, and
with fewer than `2 ^ 64` perfect-play games it is 0 exactly when the score is at most 0. -/
theorem count_optimal_bounds (b : Board) (hb : total b = 36) :
    (∃ r, count_optimal b (tt_clear, ct_clear) = some r ∧ r.1 = optLeaves b % 2 ^ 64 ∧
      (optLeaves b < 2 ^ 64 → 1 ≤ r.1) ∧
      (leaves b < 2 ^ 64 → r.1 ≤ (count_all b ct_clear).1)) ∧
    (count_all b ct_clear).1 = leaves b % 2 ^ 64 ∧
    1 ≤ optLeaves b ∧ optLeaves b ≤ leaves b ∧
    (∃ q, perfect_play b tt_clear = some q ∧ q.1 = minimax b ∧
      (q.1 ≤ 0 → q.2 = 0) ∧
      (optLeaves b < 2 ^ 64 → (q.2 = 0 ↔ q.1 ≤ 0))) := by
  obtain ⟨o1, o2⟩ := optLeaves_bounds b
  have hc := count_all_ok b (le_of_eq hb)
  obtain ⟨r, hr, hv⟩ := count_optimal_ok b hb (tt_clear, ct_clear) OptInv_clear
  obtain ⟨q, hq, hs, hf⟩ := perfect_play_value b hb
  refine ⟨⟨r, hr, hv, fun ho => ?_, fun hl => ?_⟩, hc, o1, o2, q, hq, hs, fun hle => ?_,
    fun ho => ⟨fun h0 => ?_, fun hle => ?_⟩⟩
  · rw [hv, Nat.mod_eq_of_lt ho]; exact o1
  · rw [hv, hc, Nat.mod_eq_of_lt hl, Nat.mod_eq_of_lt (lt_of_le_of_lt o2 hl)]; exact o2
  · rw [hf, if_neg (by rw [← hs]; omega)]
  · by_contra hc2
    rw [hf, if_pos (by rw [← hs]; omega), Nat.mod_eq_of_lt ho] at h0
    omega
  · rw [hf, if_neg (by rw [← hs]; omega)]

/-- Witness for C14 (amended): a board of 36 seeds with three seeds left in the pits. -/
theorem count_optimal_bounds_witness :
    total (Board.ofList [0, 0, 0, 0, 1, 1, 17, 0, 0, 0, 0, 1, 0, 16]) = 36 ∧
    (∃ r, count_optimal (Board.ofList [0, 0, 0, 0, 1, 1, 17, 0, 0, 0, 0, 1, 0, 16])
        (tt_clear, ct_clear) = some r ∧
      r.1 = optLeaves (Board.ofList [0, 0, 0, 0, 1, 1, 17, 0, 0, 0, 0, 1, 0, 16]) % 2 ^ 64 ∧
      (optLeaves (Board.ofList [0, 0, 0, 0, 1, 1, 17, 0, 0, 0, 0, 1, 0, 16]) < 2 ^ 64 →
        1 ≤ r.1) ∧
      (leaves (Board.ofList [0, 0, 0, 0, 1, 1, 17, 0, 0, 0, 0, 1, 0, 16]) < 2 ^ 64 →
        r.1 ≤ (count_all (Board.ofList [0, 0, 0, 0, 1, 1, 17, 0, 0, 0, 0, 1, 0, 16])
          ct_clear).1)) ∧
    leaves (Board.ofList [0, 0, 0, 0, 1, 1, 17, 0, 0, 0, 0, 1, 0, 16]) < 2 ^ 64 :=
  ⟨by decide, (count_optimal_bounds _ (by decide)).1, by decide⟩

end Mancala
